import Mathlib

/-!
Verification of the graph-decomposition and subgoal-option core of the
`optimal_options` repository, shallowly embedded in Lean 4.

Python data is modelled as follows:
* a Python `set[int]` (an adjacency set) is modelled as a duplicate-free
  `List ℕ`; `set.add` is membership-checked append, `set.remove` is
  membership-checked erase returning `none` on a missing element
  (Python raises `KeyError` there);
* fallible code (failed `assert`, `IndexError`, `KeyError`, non-terminating
  randomised loops cut by fuel) returns `Option`;
* the numpy random generator is modelled as an explicit structure supplying
  the values the code draws from it.
-/

namespace OptOpt

/-- Model of `set.add` on a Python `set[int]` stored as a duplicate-free list:
adding an element already present does nothing. -/
def setAdd (s : List ℕ) (x : ℕ) : List ℕ :=
  if x ∈ s then s else s ++ [x]

/-- Model of `set.remove` on a Python `set[int]`: removing an absent element
raises `KeyError`, modelled by `none`. -/
def setRemove (s : List ℕ) (x : ℕ) : Option (List ℕ) :=
  if x ∈ s then some (s.erase x) else none

/-- Shallow embedding of `UndirectedGraph` (src/src/graphs/undirected_graph.py):
`V` is the vertex-data list, `adjacent` the per-vertex adjacency sets, and
`size_V`/`size_E` the cached counts maintained by the Python code. -/
structure UGraph (α : Type) where
  V : List α
  adjacent : List (List ℕ)
  size_V : ℕ
  size_E : ℕ
  deriving DecidableEq

/-- Adjacency set of vertex `i` (Python `self.adjacent[i]`, total variant used
once an index is known to be in range). -/
def UGraph.adj {α : Type} (g : UGraph α) (i : ℕ) : List ℕ :=
  g.adjacent.getD i []

/-- Unfolding of `UGraph.adj` into `getElem?` form. -/
theorem UGraph.adj_eq {α : Type} (g : UGraph α) (k : ℕ) :
    g.adj k = (g.adjacent[k]?).getD [] := by
  simp [UGraph.adj, List.getD_eq_getElem?_getD]

/-- Update the adjacency set at index `i`. -/
def updAdj (a : List (List ℕ)) (i : ℕ) (f : List ℕ → List ℕ) : List (List ℕ) :=
  a.set i (f (a.getD i []))

/-- Embedding of `UndirectedGraph.__init__`: stores the vertex list, builds
one empty adjacency set per vertex, inserts both directions of every edge
(`none` models the `IndexError` the Python list indexing raises when an edge
endpoint is out of range), then caches the counts. -/
def UGraph.init {α : Type} (vertices : List α) (edges : List (ℕ × ℕ)) :
    Option (UGraph α) := do
  let n := vertices.length
  let adj0 : List (List ℕ) := vertices.map (fun _ => [])
  let adj ← edges.foldlM (fun (a : List (List ℕ)) (e : ℕ × ℕ) => do
    let (i, j) := e
    if i < n ∧ j < n then
      let a1 := updAdj a i (fun s => setAdd s j)
      pure (updAdj a1 j (fun s => setAdd s i))
    else none) adj0
  pure { V := vertices, adjacent := adj, size_V := n,
         size_E := (adj.map List.length).sum }

/-- Embedding of `UndirectedGraph.add_edge`: checks both index asserts, is a
no-op returning 0 when both directions are already present, otherwise inserts
both directions and bumps `size_E` by 1 (self-loop) or 2. -/
def UGraph.add_edge {α : Type} (g : UGraph α) (e : ℕ × ℕ) :
    Option (UGraph α × ℕ) :=
  let (i, j) := e
  if i < g.size_V ∧ j < g.size_V then
    if j ∈ g.adj i ∧ i ∈ g.adj j then
      some (g, 0)
    else
      let a1 := updAdj g.adjacent i (fun s => setAdd s j)
      let a2 := updAdj a1 j (fun s => setAdd s i)
      let added := if i = j then 1 else 2
      some ({ g with adjacent := a2, size_E := g.size_E + added }, added)
  else none

/-- Embedding of `UndirectedGraph.remove_edge`: checks the index and
edge-presence asserts, then performs the two sequential `set.remove` calls.
When `i = j` both calls hit the same set, so the second `remove` sees the
element already gone and raises `KeyError` (modelled by `none`), exactly as
the Python code does on a present self-loop. -/
def UGraph.remove_edge {α : Type} (g : UGraph α) (e : ℕ × ℕ) :
    Option (UGraph α) := do
  let (i, j) := e
  if i < g.size_V ∧ j < g.size_V then
    if i ∈ g.adj j ∧ j ∈ g.adj i then do
      let si ← setRemove (g.adjacent.getD i []) j
      let a1 := g.adjacent.set i si
      let sj ← setRemove (a1.getD j []) i
      let a2 := a1.set j sj
      let removed := if i = j then 1 else 2
      pure { g with adjacent := a2, size_E := g.size_E - removed }
    else none
  else none

/-- Well-formedness of an embedded graph: the cached sizes agree with the
data, adjacency sets are duplicate-free in-range lists, and adjacency is
symmetric.  Every graph the Python code builds through the constructor and
`add_edge`/`remove_edge` satisfies this. -/
def WF {α : Type} (g : UGraph α) : Prop :=
  g.size_V = g.V.length ∧
  g.adjacent.length = g.size_V ∧
  g.size_E = (g.adjacent.map List.length).sum ∧
  (∀ l ∈ g.adjacent, l.Nodup) ∧
  (∀ l ∈ g.adjacent, ∀ x ∈ l, x < g.size_V) ∧
  (∀ i < g.size_V, ∀ j < g.size_V, (j ∈ g.adj i ↔ i ∈ g.adj j))

instance {α : Type} (g : UGraph α) : Decidable (WF g) := by
  unfold WF
  infer_instance

/-- A concrete well-formed one-vertex graph carrying a self-loop,
as built by `UndirectedGraph([d], [(0, 0)])`. -/
def selfLoopGraph : UGraph ℕ := { V := [7], adjacent := [[0]], size_V := 1, size_E := 1 }

/-- C8: for every undirected graph and vertex pair (i, j), an absent edge makes
`remove_edge` fail with the edge-not-found error leaving the graph unchanged, a
present edge with `i ≠ j` is removed in both directions decrementing `size_E`
by exactly 2 — but a present self-loop is NOT removed successfully: the two
sequential `set.remove` calls hit the same adjacency set, so the second one
raises `KeyError`.  This theorem exhibits the failing input: a well-formed
graph with the self-loop (0,0) present on which `remove_edge` fails, refuting
the claim's final clause. -/
theorem C8_remove_edge_self_loop_fails :
    WF selfLoopGraph ∧ 0 ∈ selfLoopGraph.adj 0 ∧
      selfLoopGraph.remove_edge (0, 0) = none := by
  refine ⟨by decide, by decide, by decide⟩

/-- Supporting fact for C8 (the non-self-loop half of the claim, which does
hold): on a well-formed graph, removing an absent edge fails, and removing a
present edge with distinct endpoints succeeds, removes both directions, and
decrements `size_E` by exactly 2. -/
theorem remove_edge_spec {α : Type} (g : UGraph α) (i j : ℕ)
    (hg : WF g) (hi : i < g.size_V) (hj : j < g.size_V) :
    (¬ (j ∈ g.adj i) → g.remove_edge (i, j) = none) ∧
    (j ∈ g.adj i → i ≠ j → ∃ g2, g.remove_edge (i, j) = some g2 ∧
      g2.size_E = g.size_E - 2 ∧ g2.size_V = g.size_V ∧
      ¬ (j ∈ g2.adj i) ∧ ¬ (i ∈ g2.adj j) ∧
      (∀ k, k ≠ i → k ≠ j → g2.adj k = g.adj k)) := by
  obtain ⟨hV, hlen, hE, hnd, hran, hsym⟩ := hg
  constructor
  · intro habs
    unfold UGraph.remove_edge
    simp only [hi, hj, and_true, true_and, if_pos]
    rw [if_neg]
    intro ⟨h1, h2⟩
    exact habs h2
  · intro hpres hne
    have hpres2 : i ∈ g.adj j := (hsym i hi j hj).mp hpres
    unfold UGraph.remove_edge
    simp only [hi, hj, and_true, true_and, if_pos]
    rw [if_pos ⟨hpres2, hpres⟩]
    have hadji : g.adjacent.getD i [] = g.adj i := rfl
    rw [hadji]
    unfold setRemove
    rw [if_pos hpres]
    simp only [Option.bind_eq_bind, Option.some_bind]
    have hilen : i < g.adjacent.length := by omega
    have hjlen : j < g.adjacent.length := by omega
    have hgetj : (g.adjacent.set i ((g.adj i).erase j)).getD j [] = g.adj j := by
      rw [List.getD_eq_getElem?_getD, List.getElem?_set_ne (by omega), ← UGraph.adj_eq]
    rw [hgetj, if_pos hpres2]
    simp only [Option.some_bind]
    have hndi : (g.adj i).Nodup := by
      rw [UGraph.adj_eq, List.getElem?_eq_getElem hilen]
      exact hnd _ (g.adjacent.getElem_mem hilen)
    have hndj : (g.adj j).Nodup := by
      rw [UGraph.adj_eq, List.getElem?_eq_getElem hjlen]
      exact hnd _ (g.adjacent.getElem_mem hjlen)
    refine ⟨_, rfl, by simp [if_neg hne], by simp, ?_, ?_, ?_⟩
    · rw [UGraph.adj_eq]
      simp only [List.getElem?_set_ne (fun h => hne h.symm),
        List.getElem?_set_self hilen, Option.getD_some]
      exact List.Nodup.not_mem_erase hndi
    · rw [UGraph.adj_eq]
      simp only [List.getElem?_set_self (by simp [hjlen] : j < (g.adjacent.set i ((g.adj i).erase j)).length), Option.getD_some]
      exact List.Nodup.not_mem_erase hndj
    · intro k hki hkj
      rw [UGraph.adj_eq, List.getElem?_set_ne (fun h => hkj h.symm),
        List.getElem?_set_ne (fun h => hki h.symm), ← UGraph.adj_eq]

/-- Loop body of `UndirectedGraph.get_edge_from_idx`, iterating over the
remaining vertex indices with the `edges_skipped` accumulator.  The inner
`while` loop of the Python code advances `edges_skipped` to `edge_idx` and
leaves `neighbor_idx = edge_idx - edges_skipped`; its two sanity `assert`s and
the final `assert False` fall-through are modelled by `none`. -/
def getEdgeLoop {α : Type} (g : UGraph α) (edge_idx : ℕ) :
    List ℕ → ℕ → Option (ℕ × ℕ)
  | [], _ => none
  | v :: rest, skipped =>
    let neighbors := g.adj v
    if neighbors = [] then
      getEdgeLoop g edge_idx rest skipped
    else
      let first := skipped
      let last := first + neighbors.length - 1
      if first ≤ edge_idx ∧ edge_idx ≤ last then
        let neighbor_idx := edge_idx - first
        if h : neighbor_idx < neighbors.length then
          some (v, (neighbors.mergeSort).get
            ⟨neighbor_idx, by rwa [List.length_mergeSort]⟩)
        else none
      else
        getEdgeLoop g edge_idx rest (skipped + neighbors.length)

/-- Embedding of `UndirectedGraph.get_edge_from_idx`. -/
def UGraph.get_edge_from_idx {α : Type} (g : UGraph α) (edge_idx : ℕ) :
    Option (ℕ × ℕ) :=
  getEdgeLoop g edge_idx (List.range g.size_V) 0

/-- Spec-side definition of the canonical global edge order, taken from the
spec's words: for each vertex in ascending index order, its neighbors (sorted
ascending) occupy a contiguous block of global edge indices. -/
def canonicalEdges {α : Type} (g : UGraph α) : List (ℕ × ℕ) :=
  (List.range g.size_V).flatMap
    (fun i => (g.adj i).mergeSort.map (fun j => (i, j)))

/-- The canonical edge order restricted to any vertex sublist. -/
def canonicalEdgesOn {α : Type} (g : UGraph α) (vs : List ℕ) : List (ℕ × ℕ) :=
  vs.flatMap (fun i => (g.adj i).mergeSort.map (fun j => (i, j)))

theorem canonicalEdgesOn_length {α : Type} (g : UGraph α) (vs : List ℕ) :
    (canonicalEdgesOn g vs).length = (vs.map (fun v => (g.adj v).length)).sum := by
  induction vs with
  | nil => rfl
  | cons v rest ih =>
    simp [canonicalEdgesOn, List.length_mergeSort] at *
    omega

theorem getEdgeLoop_spec {α : Type} (g : UGraph α) (k : ℕ) (vs : List ℕ)
    (skipped : ℕ) (h1 : skipped ≤ k)
    (h2 : k < skipped + (vs.map (fun v => (g.adj v).length)).sum) :
    getEdgeLoop g k vs skipped = (canonicalEdgesOn g vs)[k - skipped]? := by
  induction vs generalizing skipped with
  | nil => simp at h2; omega
  | cons v rest ih =>
    simp only [List.map_cons, List.sum_cons] at h2
    by_cases hemp : g.adj v = []
    · rw [getEdgeLoop, if_pos hemp]
      have : canonicalEdgesOn g (v :: rest) = canonicalEdgesOn g rest := by
        simp [canonicalEdgesOn, hemp]
      rw [this]
      exact ih skipped h1 (by rw [hemp] at h2; simpa using h2)
    · rw [getEdgeLoop, if_neg hemp]
      simp only
      have hlen : 0 < (g.adj v).length := List.length_pos.mpr hemp
      have hsplit : canonicalEdgesOn g (v :: rest) =
          (g.adj v).mergeSort.map (fun j => (v, j)) ++ canonicalEdgesOn g rest := by
        simp [canonicalEdgesOn]
      by_cases hin : skipped ≤ k ∧ k ≤ skipped + (g.adj v).length - 1
      · rw [if_pos hin]
        have hni : k - skipped < (g.adj v).length := by omega
        rw [dif_pos hni, hsplit, List.getElem?_append]
        rw [if_pos (by simpa [List.length_mergeSort] using hni)]
        rw [List.getElem?_map]
        have : k - skipped < (g.adj v).mergeSort.length := by
          rwa [List.length_mergeSort]
        rw [List.getElem?_eq_getElem this]
        simp [List.get_eq_getElem]
      · rw [if_neg hin]
        have hgt : skipped + (g.adj v).length ≤ k := by omega
        rw [hsplit, List.getElem?_append,
          if_neg (by simp [List.length_mergeSort]; omega)]
        have := ih (skipped + (g.adj v).length) hgt (by omega)
        rw [this]
        congr 1
        simp [List.length_mergeSort]
        omega

/-- C6: on every well-formed graph, for every in-range edge index
`k < size_E`, `get_edge_from_idx(k)` returns precisely the `k`-th pair of the
canonical global edge order (vertices ascending, each vertex's neighbors in
ascending sorted order occupying a contiguous block); in particular the
function's final failure branch (`assert False`) is unreachable for all
in-range `k`. -/
theorem C6_get_edge_from_idx_canonical {α : Type} (g : UGraph α) (k : ℕ)
    (hg : WF g) (hk : k < g.size_E) :
    (canonicalEdges g).length = g.size_E ∧
      g.get_edge_from_idx k = (canonicalEdges g)[k]? ∧
      ∃ e, g.get_edge_from_idx k = some e := by
  obtain ⟨hV, hlen, hE, _⟩ := hg
  have hsum : ((List.range g.size_V).map (fun v => (g.adj v).length)).sum =
      (g.adjacent.map List.length).sum := by
    have : (List.range g.size_V).map (fun v => (g.adj v).length) =
        g.adjacent.map List.length := by
      apply List.ext_getElem
      · simp [hlen]
      · intro i hi1 hi2
        simp only [List.getElem_map, List.getElem_range]
        congr 1
        rw [UGraph.adj_eq, List.getElem?_eq_getElem (by simpa using hi2)]
        rfl
    rw [this]
  have hclen : (canonicalEdges g).length = g.size_E := by
    show (canonicalEdgesOn g (List.range g.size_V)).length = g.size_E
    rw [canonicalEdgesOn_length, hsum, ← hE]
  have heq : g.get_edge_from_idx k = (canonicalEdges g)[k]? := by
    show getEdgeLoop g k (List.range g.size_V) 0 = (canonicalEdges g)[k]?
    have := getEdgeLoop_spec g k (List.range g.size_V) 0 (Nat.zero_le k)
      (by rw [Nat.zero_add, hsum, ← hE]; exact hk)
    simpa using this
  refine ⟨hclen, heq, ?_⟩
  rw [heq]
  have : k < (canonicalEdges g).length := by omega
  rw [List.getElem?_eq_getElem this]
  exact ⟨_, rfl⟩

/-- Concrete witness data for several claims: the well-formed path graph
0 - 1 - 2 on three vertices. -/
def pathGraph3 : UGraph ℕ :=
  { V := [0, 1, 2], adjacent := [[1], [0, 2], [1]], size_V := 3, size_E := 4 }

/-- Witness for C6: the hypotheses hold and the conclusion evaluates on the
concrete path graph at edge index 2. -/
theorem C6_get_edge_from_idx_canonical_witness :
    WF pathGraph3 ∧ 2 < pathGraph3.size_E ∧
      ((canonicalEdges pathGraph3).length = pathGraph3.size_E ∧
        pathGraph3.get_edge_from_idx 2 = (canonicalEdges pathGraph3)[2]? ∧
        ∃ e, pathGraph3.get_edge_from_idx 2 = some e) :=
  ⟨by decide, by decide, C6_get_edge_from_idx_canonical pathGraph3 2 (by decide) (by decide)⟩

/-- Reachability along adjacency: `Reach g u v` holds when `v` can be reached
from `u` by following edges of `g`. -/
def Reach {α : Type} (g : UGraph α) : ℕ → ℕ → Prop :=
  Relation.ReflTransGen (fun a b => b ∈ g.adj a)

theorem Reach.refl {α : Type} (g : UGraph α) (u : ℕ) : Reach g u u :=
  Relation.ReflTransGen.refl

theorem Reach.step {α : Type} {g : UGraph α} {u v w : ℕ}
    (h : Reach g u v) (hw : w ∈ g.adj v) : Reach g u w :=
  Relation.ReflTransGen.tail h hw

theorem Reach.trans {α : Type} {g : UGraph α} {u v w : ℕ}
    (h1 : Reach g u v) (h2 : Reach g v w) : Reach g u w :=
  Relation.ReflTransGen.trans h1 h2

/-- Every vertex reachable from an in-range vertex is in range, for a
well-formed graph. -/
theorem Reach.lt {α : Type} {g : UGraph α} (hg : WF g) {u v : ℕ}
    (hu : u < g.size_V) (h : Reach g u v) : v < g.size_V := by
  induction h with
  | refl => exact hu
  | @tail b c hr hstep ih =>
    rcases hg with ⟨-, hlen, -, -, hran, -⟩
    have hb : b < g.size_V := ih
    have : g.adj b ∈ g.adjacent := by
      rw [UGraph.adj_eq, List.getElem?_eq_getElem (by omega)]
      exact g.adjacent.getElem_mem (by omega)
    exact hran _ this _ hstep

/-- Reachability is symmetric on well-formed graphs. -/
theorem Reach.symm {α : Type} {g : UGraph α} (hg : WF g) {u v : ℕ}
    (hu : u < g.size_V) (h : Reach g u v) : Reach g v u := by
  induction h with
  | refl => exact Relation.ReflTransGen.refl
  | @tail b c hr hstep ih =>
    have hb : b < g.size_V := Reach.lt hg hu hr
    have hc : c < g.size_V := by
      rcases hg with ⟨-, hlen, -, -, hran, -⟩
      have : g.adj b ∈ g.adjacent := by
        rw [UGraph.adj_eq, List.getElem?_eq_getElem (by omega)]
        exact g.adjacent.getElem_mem (by omega)
      exact hran _ this _ hstep
    have hback : b ∈ g.adj c := by
      rcases hg with ⟨-, -, -, -, -, hsym⟩
      exact (hsym b hb c hc).mp hstep
    exact Relation.ReflTransGen.trans (Relation.ReflTransGen.single hback) ih

/-- Count of `a` entries strictly drops when an `a` cell is overwritten with a
different value. -/
theorem count_set_lt {β : Type} [DecidableEq β] (m : List β) (u : ℕ) (a b : β)
    (hu : u < m.length) (hf : m[u] = a) (hne : b ≠ a) :
    (m.set u b).count a < m.count a := by
  induction m generalizing u with
  | nil => simp at hu
  | cons x t ih =>
    cases u with
    | zero =>
      simp only [List.getElem_cons_zero] at hf
      subst hf
      simp [List.count_cons, hne]
    | succ k =>
      simp only [List.getElem_cons_succ] at hf
      have := ih k (by simpa using hu) hf
      simp only [List.set_cons_succ, List.count_cons]
      omega

/-- Specialization used by the `is_connected` loop. -/
theorem count_false_set_true (m : List Bool) (u : ℕ) (hu : u < m.length)
    (hf : m[u] = false) : (m.set u true).count false < m.count false :=
  count_set_lt m u false true hu hf (by simp)

/-- Loop of `is_connected` (src/src/graphs/connectivity.py): pop a vertex from
the stack top, and if it is unmarked, mark it and push its neighbors.  The
stack is stored top-first (Python pops from the end of `unexplored`, and
`unexplored += adjacent[u]` pushes a block whose last element is popped
first).  Reading `marked[u]` out of range is numpy's `IndexError`, modelled by
`none`. -/
def iscLoop {α : Type} (g : UGraph α) : List Bool → List ℕ → Option (List Bool)
  | marked, [] => some marked
  | marked, u :: rest =>
    match h : marked[u]? with
    | none => none
    | some true => iscLoop g marked rest
    | some false => iscLoop g (marked.set u true) ((g.adj u).reverse ++ rest)
  termination_by marked stack => (marked.count false, stack.length)
  decreasing_by
  · apply Prod.Lex.right
    simp
  · apply Prod.Lex.left
    exact count_false_set_true marked u (by
      have := List.getElem?_eq_some_iff.mp h
      exact this.1) (by
      have := List.getElem?_eq_some_iff.mp h
      exact this.2)

/-- Embedding of `is_connected`: start with no vertex marked, flood from
vertex 0, and test whether every vertex got marked. -/
def is_connected {α : Type} (g : UGraph α) : Option Bool :=
  (iscLoop g (List.replicate g.size_V false) [0]).map
    (fun m => m.all (fun b => b))

/-- Connectivity as the spec states it: every vertex is reachable from
vertex 0. -/
def Connected {α : Type} (g : UGraph α) : Prop :=
  ∀ v < g.size_V, Reach g 0 v

/-- Membership of a graph's adjacency set in the adjacency list. -/
theorem adj_mem_adjacent {α : Type} {g : UGraph α} (hg : WF g) {u : ℕ}
    (hu : u < g.size_V) : g.adj u ∈ g.adjacent := by
  rcases hg with ⟨-, hlen, -⟩
  rw [UGraph.adj_eq, List.getElem?_eq_getElem (by omega)]
  exact g.adjacent.getElem_mem (by omega)

/-- Neighbors of an in-range vertex are in range, for a well-formed graph. -/
theorem adj_lt {α : Type} {g : UGraph α} (hg : WF g) {u w : ℕ}
    (hu : u < g.size_V) (hw : w ∈ g.adj u) : w < g.size_V := by
  have hmem := adj_mem_adjacent hg hu
  rcases hg with ⟨-, -, -, -, hran, -⟩
  exact hran _ hmem _ hw

/-- Invariant-based characterization of the `is_connected` flood loop: under
the loop invariants, it terminates with a marked array that is monotone over
the input, covers the stack, is sound for reachability from the root `r`, and
is closed under adjacency. -/
theorem iscLoop_main {α : Type} (g : UGraph α) (hg : WF g) (r : ℕ) :
    ∀ (marked : List Bool) (stack : List ℕ),
    marked.length = g.size_V →
    (∀ u ∈ stack, u < g.size_V) →
    (∀ v, v < g.size_V → marked.getD v false = true → Reach g r v) →
    (∀ u ∈ stack, Reach g r u) →
    (∀ u, u < g.size_V → marked.getD u false = true →
        ∀ w ∈ g.adj u, marked.getD w false = true ∨ w ∈ stack) →
    ∃ m', iscLoop g marked stack = some m' ∧
      m'.length = g.size_V ∧
      (∀ v, v < g.size_V → marked.getD v false = true → m'.getD v false = true) ∧
      (∀ u ∈ stack, m'.getD u false = true) ∧
      (∀ v, v < g.size_V → m'.getD v false = true → Reach g r v) ∧
      (∀ u, u < g.size_V → m'.getD u false = true →
        ∀ w ∈ g.adj u, m'.getD w false = true) := by
  intro marked stack
  induction marked, stack using iscLoop.induct g with
  | case1 marked =>
    intro hlen hstk hsound hreach hclosed
    refine ⟨marked, by rw [iscLoop], hlen, fun v _ h => h, by simp, hsound, ?_⟩
    intro u hu hm w hw
    rcases hclosed u hu hm w hw with h | h
    · exact h
    · simp at h
  | case2 marked u rest hnone =>
    intro hlen hstk hsound hreach hclosed
    exfalso
    have hu : u < g.size_V := hstk u (by simp)
    rw [List.getElem?_eq_none_iff] at hnone
    omega
  | case3 marked u rest htrue ih =>
    intro hlen hstk hsound hreach hclosed
    have hu : u < g.size_V := hstk u (by simp)
    have hmu : marked.getD u false = true := by
      rw [List.getD_eq_getElem?_getD, htrue]; rfl
    obtain ⟨m', hrun, hlen', hmono, hstk', hsound', hclosed'⟩ :=
      ih hlen (fun x hx => hstk x (by simp [hx]))
        hsound (fun x hx => hreach x (by simp [hx]))
        (by
          intro x hx hmx w hw
          rcases hclosed x hx hmx w hw with h | h
          · exact Or.inl h
          · rcases List.mem_cons.mp h with h | h
            · exact Or.inl (h ▸ hmu)
            · exact Or.inr h)
    refine ⟨m', ?_, hlen', hmono, ?_, hsound', hclosed'⟩
    · rw [iscLoop, htrue]; exact hrun
    · intro x hx
      rcases List.mem_cons.mp hx with h | h
      · exact h ▸ hmono u hu hmu
      · exact hstk' x h
  | case4 marked u rest hfalse ih =>
    intro hlen hstk hsound hreach hclosed
    have hu : u < g.size_V := hstk u (by simp)
    have hulen : u < marked.length := by omega
    have hreachu : Reach g r u := hreach u (by simp)
    have hgetset : ∀ v, (marked.set u true).getD v false =
        if v = u then true else marked.getD v false := by
      intro v
      by_cases hvu : v = u
      · subst hvu
        rw [if_pos rfl, List.getD_eq_getElem?_getD,
          List.getElem?_set_self hulen]
        rfl
      · rw [if_neg hvu, List.getD_eq_getElem?_getD,
          List.getElem?_set_ne (fun h => hvu h.symm), ← List.getD_eq_getElem?_getD]
    obtain ⟨m', hrun, hlen', hmono, hstk', hsound', hclosed'⟩ :=
      ih (by simpa using hlen)
        (by
          intro x hx
          rcases List.mem_append.mp hx with h | h
          · exact adj_lt hg hu (List.mem_reverse.mp h)
          · exact hstk x (by simp [h]))
        (by
          intro v hv hmv
          rw [hgetset] at hmv
          by_cases hvu : v = u
          · exact hvu ▸ hreachu
          · rw [if_neg hvu] at hmv
            exact hsound v hv hmv)
        (by
          intro x hx
          rcases List.mem_append.mp hx with h | h
          · exact Reach.step hreachu (List.mem_reverse.mp h)
          · exact hreach x (by simp [h]))
        (by
          intro x hx hmx w hw
          rw [hgetset] at hmx
          by_cases hxu : x = u
          · subst hxu
            exact Or.inr (List.mem_append.mpr (Or.inl (List.mem_reverse.mpr hw)))
          · rw [if_neg hxu] at hmx
            rcases hclosed x hx hmx w hw with h | h
            · rw [hgetset]
              by_cases hwu : w = u
              · exact Or.inl (by rw [if_pos hwu])
              · exact Or.inl (by rw [if_neg hwu]; exact h)
            · rcases List.mem_cons.mp h with h | h
              · refine Or.inl ?_
                rw [hgetset, if_pos h]
              · exact Or.inr (List.mem_append.mpr (Or.inr h)))
    refine ⟨m', ?_, hlen', ?_, ?_, hsound', hclosed'⟩
    · rw [iscLoop, hfalse]; exact hrun
    · intro v hv hmv
      apply hmono v hv
      rw [hgetset]
      by_cases hvu : v = u
      · rw [if_pos hvu]
      · rw [if_neg hvu]; exact hmv
    · intro x hx
      rcases List.mem_cons.mp hx with h | h
      · subst h
        apply hmono x hu
        rw [hgetset, if_pos rfl]
      · exact hstk' x (List.mem_append.mpr (Or.inr h))

/-- C10: `is_connected` is total exactly on well-formed graphs with at least
one vertex: for `|V| ≥ 1` it returns a boolean that is true precisely when
every vertex is reachable from vertex 0, while on a zero-vertex graph the
traversal starts at vertex 0 and indexes the length-0 marked array out of
range, so no boolean is returned (modelled by `none`). -/
theorem C10_is_connected_total_iff_nonempty {α : Type} (g : UGraph α)
    (hg : WF g) :
    (g.size_V = 0 → is_connected g = none) ∧
    (1 ≤ g.size_V → ∃ b, is_connected g = some b ∧ (b = true ↔ Connected g)) := by
  constructor
  · intro h0
    rw [is_connected, h0]
    rw [show (List.replicate 0 false) = ([] : List Bool) from rfl]
    rw [iscLoop]
    rfl
  · intro hpos
    obtain ⟨m', hrun, hlen', hmono, hstk', hsound', hclosed'⟩ :=
      iscLoop_main g hg 0 (List.replicate g.size_V false) [0]
        (by simp)
        (by intro u hu; simp at hu; omega)
        (by intro v hv hmv; simp [List.getD_eq_getElem?_getD] at hmv)
        (by intro u hu; simp at hu; subst hu; exact Reach.refl g 0)
        (by intro u hu hmu; simp [List.getD_eq_getElem?_getD] at hmu)
    refine ⟨m'.all (fun b => b), by rw [is_connected, hrun]; rfl, ?_, ?_⟩
    · intro hall v hv
      apply hsound' v hv
      rw [List.all_eq_true] at hall
      rw [List.getD_eq_getElem?_getD, List.getElem?_eq_getElem (by omega)]
      exact hall _ (m'.getElem_mem (by omega))
    · intro hconn
      rw [List.all_eq_true]
      intro x hx
      obtain ⟨i, hi, hxi⟩ := List.mem_iff_getElem.mp hx
      have hiV : i < g.size_V := by omega
      have hreach := hconn i hiV
      have hmark : ∀ v, Reach g 0 v → m'.getD v false = true := by
        intro v hv
        induction hv with
        | refl => exact hstk' 0 (by simp)
        | @tail b c hr hstep ih =>
          have hb : b < g.size_V := Reach.lt hg (by omega) hr
          exact hclosed' b hb ih c hstep
      have := hmark i hreach
      rw [List.getD_eq_getElem?_getD, List.getElem?_eq_getElem (by omega)] at this
      simp only [Option.getD_some] at this
      simp [← hxi, this]

/-- Witness for C10: the theorem applied to the concrete path graph, whose
`is_connected` run indeed returns `some true`. -/
theorem C10_is_connected_total_iff_nonempty_witness :
    (pathGraph3.size_V = 0 → is_connected pathGraph3 = none) ∧
    (1 ≤ pathGraph3.size_V → ∃ b, is_connected pathGraph3 = some b ∧
      (b = true ↔ Connected pathGraph3)) :=
  C10_is_connected_total_iff_nonempty pathGraph3 (by decide)

/-- Inner flood of the `CountAndLabel` algorithm shared by
`ConnectedComponents.find_components` (src/src/graphs/connected_components.py)
and `separate_components` (src/src/graphs/graph_partition.py): pop a vertex;
if it is unlabeled (`-1`), give it the current component number `c` and push
its neighbors.  Out-of-range label reads are numpy `IndexError` (`none`). -/
def labelFlood {α : Type} (g : UGraph α) (c : ℕ) :
    List ℤ → List ℕ → Option (List ℤ)
  | labels, [] => some labels
  | labels, u :: rest =>
    match h : labels[u]? with
    | none => none
    | some x =>
      if x = -1 then
        labelFlood g c (labels.set u (c : ℤ)) ((g.adj u).reverse ++ rest)
      else
        labelFlood g c labels rest
  termination_by labels stack => (labels.count (-1), stack.length)
  decreasing_by
  · apply Prod.Lex.left
    have hmem := List.getElem?_eq_some_iff.mp h
    refine count_set_lt labels u (-1) (c : ℤ) hmem.1 ?_ (by omega)
    rename_i hx
    rw [hmem.2, hx]
  · apply Prod.Lex.right
    simp

/-- Outer loop of `CountAndLabel`: scan the given vertices in order; each
still-unlabeled vertex starts a new component flood.  `ncomp` is the number of
components found so far (the Python `component_num + 1`), so a fresh flood
labels with value `ncomp`. -/
def fcLoop {α : Type} (g : UGraph α) :
    List ℤ → ℕ → List ℕ → Option (List ℤ × ℕ)
  | labels, ncomp, [] => some (labels, ncomp)
  | labels, ncomp, v :: vs =>
    match labels[v]? with
    | none => none
    | some x =>
      if x = -1 then
        match labelFlood g ncomp labels [v] with
        | none => none
        | some labels2 => fcLoop g labels2 (ncomp + 1) vs
      else
        fcLoop g labels ncomp vs

/-- Embedding of `ConnectedComponents.find_components` (the identical inline
labeling of `separate_components` uses the same loops): returns
`(num_components, labels)`; the two final sanity asserts (`all labels set`,
`last component non-empty`) are modelled by `none` on failure. -/
def find_components {α : Type} (g : UGraph α) : Option (ℕ × List ℤ) := do
  let (labels, ncomp) ←
    fcLoop g (List.replicate g.size_V (-1)) 0 (List.range g.size_V)
  if (labels.all (fun x => x ≠ -1)) ∧ (labels.any (fun x => x = (ncomp : ℤ) - 1))
  then
    pure (ncomp, labels)
  else none

/-- Invariant-based characterization of the component flood: it terminates,
changes cells only from `-1` to the flooded component number `c` and only at
vertices reachable from the root `r`, labels everything on the stack, and
leaves the labeled set closed under adjacency. -/
theorem labelFlood_main {α : Type} (g : UGraph α) (hg : WF g) (r c : ℕ) :
    ∀ (labels : List ℤ) (stack : List ℕ),
    labels.length = g.size_V →
    (∀ u ∈ stack, u < g.size_V) →
    (∀ u ∈ stack, Reach g r u) →
    (∀ u, u < g.size_V → labels.getD u 0 ≠ -1 →
        ∀ w ∈ g.adj u, labels.getD w 0 ≠ -1 ∨ w ∈ stack) →
    ∃ labels2, labelFlood g c labels stack = some labels2 ∧
      labels2.length = g.size_V ∧
      (∀ u, u < g.size_V → labels2.getD u 0 ≠ labels.getD u 0 →
        labels2.getD u 0 = (c : ℤ) ∧ labels.getD u 0 = -1 ∧ Reach g r u) ∧
      (∀ u ∈ stack, labels2.getD u 0 ≠ -1) ∧
      (∀ u, u < g.size_V → labels2.getD u 0 ≠ -1 →
        ∀ w ∈ g.adj u, labels2.getD w 0 ≠ -1) := by
  intro labels stack
  induction labels, stack using labelFlood.induct g c with
  | case1 labels =>
    intro hlen hstk hreach hclosed
    refine ⟨labels, by rw [labelFlood], hlen, ?_, by simp, ?_⟩
    · intro u _ hne
      exact absurd rfl hne
    · intro u hu hl w hw
      rcases hclosed u hu hl w hw with h | h
      · exact h
      · simp at h
  | case2 labels u rest hnone =>
    intro hlen hstk hreach hclosed
    exfalso
    have hu : u < g.size_V := hstk u (by simp)
    rw [List.getElem?_eq_none_iff] at hnone
    omega
  | case3 labels u rest heq ih =>
    intro hlen hstk hreach hclosed
    have hu : u < g.size_V := hstk u (by simp)
    have hulen : u < labels.length := by omega
    have hlu : labels.getD u 0 = -1 := by
      rw [List.getD_eq_getElem?_getD, heq, Option.getD_some]
    have hcne : (c : ℤ) ≠ -1 := by omega
    have hgetset : ∀ v, (labels.set u (c : ℤ)).getD v 0 =
        if v = u then (c : ℤ) else labels.getD v 0 := by
      intro v
      by_cases hvu : v = u
      · subst hvu
        rw [if_pos rfl, List.getD_eq_getElem?_getD, List.getElem?_set_self hulen]
        rfl
      · rw [if_neg hvu, List.getD_eq_getElem?_getD,
          List.getElem?_set_ne (fun h => hvu h.symm), ← List.getD_eq_getElem?_getD]
    obtain ⟨labels2, hrun, hlen2, hchg, hstk2, hclosed2⟩ :=
      ih (by simpa using hlen)
        (by
          intro w hw
          rcases List.mem_append.mp hw with h | h
          · exact adj_lt hg hu (List.mem_reverse.mp h)
          · exact hstk w (by simp [h]))
        (by
          intro w hw
          rcases List.mem_append.mp hw with h | h
          · exact Reach.step (hreach u (by simp)) (List.mem_reverse.mp h)
          · exact hreach w (by simp [h]))
        (by
          intro x2 hx2 hlx2 w hw
          rw [hgetset] at hlx2
          by_cases hxu : x2 = u
          · subst hxu
            exact Or.inr (List.mem_append.mpr (Or.inl (List.mem_reverse.mpr hw)))
          · rw [if_neg hxu] at hlx2
            rcases hclosed x2 hx2 hlx2 w hw with h | h
            · refine Or.inl ?_
              rw [hgetset]
              by_cases hwu : w = u
              · rw [if_pos hwu]; exact hcne
              · rw [if_neg hwu]; exact h
            · rcases List.mem_cons.mp h with h | h
              · refine Or.inl ?_
                rw [hgetset, if_pos h]
                exact hcne
              · exact Or.inr (List.mem_append.mpr (Or.inr h)))
    have hl2u : labels2.getD u 0 = (c : ℤ) := by
      by_cases hch : labels2.getD u 0 = (labels.set u (c : ℤ)).getD u 0
      · rw [hch, hgetset, if_pos rfl]
      · exfalso
        have h2 := hchg u hu hch
        rw [hgetset, if_pos rfl] at h2
        exact hcne h2.2.1
    refine ⟨labels2, ?_, hlen2, ?_, ?_, hclosed2⟩
    · rw [labelFlood, heq]
      show (if (-1 : ℤ) = -1 then
        labelFlood g c (labels.set u ((c : ℕ) : ℤ)) ((g.adj u).reverse ++ rest)
        else labelFlood g c labels rest) = some labels2
      rw [if_pos rfl]
      exact hrun
    · intro v hv hne
      by_cases hvu : v = u
      · subst hvu
        exact ⟨hl2u, hlu, hreach v (by simp)⟩
      · by_cases hch : labels2.getD v 0 = (labels.set u (c : ℤ)).getD v 0
        · rw [hch, hgetset, if_neg hvu] at hne
          exact absurd rfl hne
        · have := hchg v hv hch
          rw [hgetset, if_neg hvu] at this
          exact this
    · intro v hvstk
      rcases List.mem_cons.mp hvstk with h | h
      · subst h
        rw [hl2u]; exact hcne
      · exact hstk2 v (List.mem_append.mpr (Or.inr h))
  | case4 labels u rest x hsome hm1 ih =>
    intro hlen hstk hreach hclosed
    have hu : u < g.size_V := hstk u (by simp)
    have hlu : labels.getD u 0 = x := by
      rw [List.getD_eq_getElem?_getD, hsome, Option.getD_some]
    obtain ⟨labels2, hrun, hlen2, hchg, hstk2, hclosed2⟩ :=
      ih hlen (fun w hw => hstk w (by simp [hw]))
        (fun w hw => hreach w (by simp [hw]))
        (by
          intro x2 hx2 hlx2 w hw
          rcases hclosed x2 hx2 hlx2 w hw with h | h
          · exact Or.inl h
          · rcases List.mem_cons.mp h with h | h
            · subst h
              refine Or.inl ?_
              rw [hlu]; exact hm1
            · exact Or.inr h)
    refine ⟨labels2, ?_, hlen2, hchg, ?_, hclosed2⟩
    · rw [labelFlood, hsome]
      show (if x = -1 then
        labelFlood g c (labels.set u ((c : ℕ) : ℤ)) ((g.adj u).reverse ++ rest)
        else labelFlood g c labels rest) = some labels2
      rw [if_neg hm1]
      exact hrun
    · intro v hvstk
      rcases List.mem_cons.mp hvstk with h | h
      · subst h
        by_cases hch : labels2.getD v 0 = labels.getD v 0
        · rw [hch, hlu]; exact hm1
        · have := hchg v hu hch
          rw [this.1]
          omega
      · exact hstk2 v h

/-- Closure of the labeled set under adjacency. -/
def LabelsClosed {α : Type} (g : UGraph α) (labels : List ℤ) : Prop :=
  ∀ u, u < g.size_V → labels.getD u 0 ≠ -1 →
    ∀ w ∈ g.adj u, labels.getD w 0 ≠ -1

/-- On a well-formed graph, a vertex reachable from an unlabeled vertex is
itself unlabeled whenever the labeled set is closed under adjacency. -/
theorem reach_unlabeled {α : Type} {g : UGraph α} (hg : WF g)
    {labels : List ℤ} {v u : ℕ} (hv : v < g.size_V)
    (hclosed : LabelsClosed g labels) (hlv : labels.getD v 0 = -1)
    (hr : Reach g v u) : labels.getD u 0 = -1 := by
  induction hr with
  | refl => exact hlv
  | @tail b w hr hstep ih =>
    have hb : b < g.size_V := Reach.lt hg hv hr
    have hw : w < g.size_V := adj_lt hg hb hstep
    by_contra hlw
    have hback : b ∈ g.adj w := by
      rcases hg with ⟨-, -, -, -, -, hsym⟩
      exact (hsym b hb w hw).mp hstep
    exact (hclosed w hw hlw b hback) ih

/-- Exact characterization of one flood from an unlabeled vertex `v` when the
labeled set is closed: the flood terminates and relabels exactly the
reachability class of `v` with the fresh component number. -/
theorem labelFlood_spec {α : Type} {g : UGraph α} (hg : WF g) (c : ℕ)
    {labels : List ℤ} {v : ℕ} (hlen : labels.length = g.size_V)
    (hv : v < g.size_V) (hlv : labels.getD v 0 = -1)
    (hclosed : LabelsClosed g labels) :
    ∃ labels2, labelFlood g c labels [v] = some labels2 ∧
      labels2.length = g.size_V ∧
      ∀ u, u < g.size_V →
        (Reach g v u → labels2.getD u 0 = (c : ℤ)) ∧
        (¬ Reach g v u → labels2.getD u 0 = labels.getD u 0) := by
  obtain ⟨labels2, hrun, hlen2, hchg, hstk, hclosed2⟩ :=
    labelFlood_main g hg v c labels [v] hlen
      (by intro u hu; simp at hu; omega)
      (by intro u hu; simp at hu; subst hu; exact Reach.refl _ _)
      (by
        intro u hu hl w hw
        exact Or.inl (hclosed u hu hl w hw))
  have hl2all : ∀ u, Reach g v u → labels2.getD u 0 ≠ -1 := by
    intro u2 hr2
    induction hr2 with
    | refl => exact hstk v (by simp)
    | @tail b w hrb hstep ih =>
      exact hclosed2 b (Reach.lt hg hv hrb) ih w hstep
  refine ⟨labels2, hrun, hlen2, ?_⟩
  intro u hu
  constructor
  · intro hr
    have hlu : labels.getD u 0 = -1 := reach_unlabeled hg hv hclosed hlv hr
    have hne : labels2.getD u 0 ≠ labels.getD u 0 := by
      rw [hlu]; exact hl2all u hr
    exact (hchg u hu hne).1
  · intro hr
    by_contra hne
    exact hr (hchg u hu hne).2.2

/-- Invariants of the `CountAndLabel` outer loop: labels are stable once set,
every scanned vertex ends labeled, equal labels characterize mutual
reachability, label values stay in `[0, ncomp)`, and every component number
is realized. -/
theorem fcLoop_spec {α : Type} {g : UGraph α} (hg : WF g) :
    ∀ (vs : List ℕ) (labels : List ℤ) (ncomp : ℕ),
    labels.length = g.size_V →
    (∀ v ∈ vs, v < g.size_V) →
    LabelsClosed g labels →
    (∀ u u', u < g.size_V → u' < g.size_V → labels.getD u 0 ≠ -1 →
        labels.getD u' 0 ≠ -1 →
        (labels.getD u 0 = labels.getD u' 0 ↔ Reach g u u')) →
    (∀ u, u < g.size_V → labels.getD u 0 ≠ -1 →
        0 ≤ labels.getD u 0 ∧ labels.getD u 0 < (ncomp : ℤ)) →
    (∀ k : ℕ, k < ncomp → ∃ u, u < g.size_V ∧ labels.getD u 0 = (k : ℤ)) →
    ∃ labels2 ncomp2, fcLoop g labels ncomp vs = some (labels2, ncomp2) ∧
      labels2.length = g.size_V ∧ ncomp ≤ ncomp2 ∧
      (∀ u, u < g.size_V → labels.getD u 0 ≠ -1 →
        labels2.getD u 0 = labels.getD u 0) ∧
      (∀ v ∈ vs, labels2.getD v 0 ≠ -1) ∧
      LabelsClosed g labels2 ∧
      (∀ u u', u < g.size_V → u' < g.size_V → labels2.getD u 0 ≠ -1 →
        labels2.getD u' 0 ≠ -1 →
        (labels2.getD u 0 = labels2.getD u' 0 ↔ Reach g u u')) ∧
      (∀ u, u < g.size_V → labels2.getD u 0 ≠ -1 →
        0 ≤ labels2.getD u 0 ∧ labels2.getD u 0 < (ncomp2 : ℤ)) ∧
      (∀ k : ℕ, k < ncomp2 → ∃ u, u < g.size_V ∧ labels2.getD u 0 = (k : ℤ)) := by
  intro vs
  induction vs with
  | nil =>
    intro labels ncomp hlen hvs hclosed hiff hbnd hsurj
    exact ⟨labels, ncomp, by rw [fcLoop], hlen, le_refl _,
      fun u _ _ => rfl, by simp, hclosed, hiff, hbnd, hsurj⟩
  | cons v vs ih =>
    intro labels ncomp hlen hvs hclosed hiff hbnd hsurj
    have hv : v < g.size_V := hvs v (by simp)
    have hvlen : v < labels.length := by omega
    have hsome : labels[v]? = some (labels.getD v 0) := by
      rw [List.getElem?_eq_getElem hvlen, List.getD_eq_getElem?_getD,
        List.getElem?_eq_getElem hvlen]
      rfl
    by_cases hx : labels.getD v 0 = -1
    · -- new component: flood from v with value ncomp
      obtain ⟨labf, hrunf, hlenf, hcharf⟩ :=
        labelFlood_spec hg ncomp hlen hv hx hclosed
      have hreachval : ∀ u, u < g.size_V → Reach g v u →
          labf.getD u 0 = (ncomp : ℤ) := fun u hu hr => (hcharf u hu).1 hr
      have hkeep : ∀ u, u < g.size_V → ¬ Reach g v u →
          labf.getD u 0 = labels.getD u 0 := fun u hu hr => (hcharf u hu).2 hr
      have hkeepl : ∀ u, u < g.size_V → labels.getD u 0 ≠ -1 →
          labf.getD u 0 = labels.getD u 0 := by
        intro u hu hlu
        refine hkeep u hu ?_
        intro hr
        exact hlu (reach_unlabeled hg hv hclosed hx hr)
      obtain ⟨labels2, ncomp2, hrun2, hlen2, hle2, hmono2, hcov2, hclosed2,
          hiff2, hbnd2, hsurj2⟩ :=
        ih labf (ncomp + 1) hlenf (fun w hw => hvs w (by simp [hw]))
          (by
            intro u hu hlu w hw
            have hwlt : w < g.size_V := adj_lt hg hu hw
            by_cases hru : Reach g v u
            · have : Reach g v w := Reach.step hru hw
              rw [hreachval w hwlt this]
              omega
            · rw [hkeep u hu hru] at hlu
              have hlw := hclosed u hu hlu w hw
              by_cases hrw : Reach g v w
              · rw [hreachval w hwlt hrw]; omega
              · rw [hkeep w hwlt hrw]; exact hlw)
          (by
            intro u u' hu hu' hlu hlu'
            by_cases hru : Reach g v u <;> by_cases hru' : Reach g v u'
            · rw [hreachval u hu hru, hreachval u' hu' hru']
              exact iff_of_true rfl (Reach.trans (Reach.symm hg hv hru) hru')
            · rw [hreachval u hu hru, hkeep u' hu' hru']
              rw [hkeep u' hu' hru'] at hlu'
              have := hbnd u' hu' hlu'
              constructor
              · intro heq; omega
              · intro hr
                exact absurd (Reach.trans hru hr) hru'
            · rw [hkeep u hu hru, hreachval u' hu' hru']
              rw [hkeep u hu hru] at hlu
              have := hbnd u hu hlu
              constructor
              · intro heq; omega
              · intro hr
                have : Reach g v u := Reach.trans hru' (Reach.symm hg hu hr)
                exact absurd this hru
            · rw [hkeep u hu hru, hkeep u' hu' hru']
              rw [hkeep u hu hru] at hlu
              rw [hkeep u' hu' hru'] at hlu'
              exact hiff u u' hu hu' hlu hlu')
          (by
            intro u hu hlu
            by_cases hru : Reach g v u
            · rw [hreachval u hu hru]
              constructor
              · omega
              · push_cast; omega
            · rw [hkeep u hu hru]
              rw [hkeep u hu hru] at hlu
              have := hbnd u hu hlu
              constructor
              · omega
              · push_cast; push_cast at this; omega)
          (by
            intro k hk
            by_cases hkn : k < ncomp
            · obtain ⟨u, hu, hlab⟩ := hsurj k hkn
              refine ⟨u, hu, ?_⟩
              rw [hkeepl u hu (by rw [hlab]; omega)]
              exact hlab
            · have : k = ncomp := by omega
              subst this
              exact ⟨v, hv, hreachval v hv (Reach.refl _ _)⟩)
      refine ⟨labels2, ncomp2, ?_, hlen2, by omega, ?_, ?_, hclosed2,
        hiff2, hbnd2, hsurj2⟩
      · rw [fcLoop, hsome]
        show (if labels.getD v 0 = -1 then
            match labelFlood g ncomp labels [v] with
            | none => none
            | some labels3 => fcLoop g labels3 (ncomp + 1) vs
          else fcLoop g labels ncomp vs) = some (labels2, ncomp2)
        rw [if_pos hx, hrunf]
        exact hrun2
      · intro u hu hlu
        rw [hmono2 u hu (by rw [hkeepl u hu hlu]; exact hlu), hkeepl u hu hlu]
      · intro w hw
        rcases List.mem_cons.mp hw with h | h
        · subst h
          rw [hmono2 w hv (by rw [hreachval w hv (Reach.refl _ _)]; omega),
            hreachval w hv (Reach.refl _ _)]
          omega
        · exact hcov2 w h
    · -- v is already labeled: skip it
      obtain ⟨labels2, ncomp2, hrun2, hlen2, hle2, hmono2, hcov2, hclosed2,
          hiff2, hbnd2, hsurj2⟩ :=
        ih labels ncomp hlen (fun w hw => hvs w (by simp [hw]))
          hclosed hiff hbnd hsurj
      refine ⟨labels2, ncomp2, ?_, hlen2, hle2, hmono2, ?_, hclosed2,
        hiff2, hbnd2, hsurj2⟩
      · rw [fcLoop, hsome]
        show (if labels.getD v 0 = -1 then
            match labelFlood g ncomp labels [v] with
            | none => none
            | some labels3 => fcLoop g labels3 (ncomp + 1) vs
          else fcLoop g labels ncomp vs) = some (labels2, ncomp2)
        rw [if_neg hx]
        exact hrun2
      · intro w hw
        rcases List.mem_cons.mp hw with h | h
        · subst h
          rw [hmono2 w hv hx]
          exact hx
        · exact hcov2 w h

/-- Values of the all-`-1` initial label array. -/
theorem replicate_getD {n : ℕ} {u : ℕ} (hu : u < n) :
    (List.replicate n (-1 : ℤ)).getD u 0 = -1 := by
  rw [List.getD_eq_getElem?_getD, List.getElem?_replicate, if_pos hu]
  rfl

/-- Full specification of `find_components` on a well-formed non-empty graph:
it succeeds (both sanity asserts pass), each vertex gets a label in
`[0, num_components)`, two vertices share a label exactly when they are
mutually reachable, and every component number is realized. -/
theorem find_components_spec {α : Type} {g : UGraph α} (hg : WF g)
    (hn : 1 ≤ g.size_V) :
    ∃ ncomp labels, find_components g = some (ncomp, labels) ∧
      labels.length = g.size_V ∧ 1 ≤ ncomp ∧
      (∀ u, u < g.size_V →
        0 ≤ labels.getD u 0 ∧ labels.getD u 0 < (ncomp : ℤ)) ∧
      (∀ u u', u < g.size_V → u' < g.size_V →
        (labels.getD u 0 = labels.getD u' 0 ↔ Reach g u u')) ∧
      (∀ k : ℕ, k < ncomp → ∃ u, u < g.size_V ∧ labels.getD u 0 = (k : ℤ)) := by
  obtain ⟨labels2, ncomp2, hrun, hlen2, -, -, hcov, -, hiff2, hbnd2, hsurj2⟩ :=
    fcLoop_spec hg (List.range g.size_V) (List.replicate g.size_V (-1)) 0
      (by simp)
      (by intro w hw; simpa using List.mem_range.mp hw)
      (by intro u hu hlu; exact absurd (replicate_getD hu) hlu)
      (by intro u u' hu _ hlu _; exact absurd (replicate_getD hu) hlu)
      (by intro u hu hlu; exact absurd (replicate_getD hu) hlu)
      (by intro k hk; omega)
  have hallv : ∀ v, v < g.size_V → labels2.getD v 0 ≠ -1 := by
    intro v hv
    exact hcov v (List.mem_range.mpr hv)
  have hbnd : ∀ u, u < g.size_V →
      0 ≤ labels2.getD u 0 ∧ labels2.getD u 0 < (ncomp2 : ℤ) :=
    fun u hu => hbnd2 u hu (hallv u hu)
  have hpos : 1 ≤ ncomp2 := by
    have := hbnd 0 (by omega)
    omega
  have hgetDi : ∀ i (h : i < labels2.length), labels2.getD i 0 = labels2[i] := by
    intro i h
    rw [List.getD_eq_getElem?_getD, List.getElem?_eq_getElem h]
    rfl
  have hall : labels2.all (fun x => x ≠ -1) = true := by
    rw [List.all_eq_true]
    intro x hx
    obtain ⟨i, hi, hxi⟩ := List.mem_iff_getElem.mp hx
    have := hallv i (by omega)
    rw [hgetDi i hi, hxi] at this
    simpa using this
  have hany : labels2.any (fun x => x = (ncomp2 : ℤ) - 1) = true := by
    rw [List.any_eq_true]
    obtain ⟨u, hu, hlab⟩ := hsurj2 (ncomp2 - 1) (by omega)
    have hul : u < labels2.length := by omega
    refine ⟨labels2[u], labels2.getElem_mem hul, ?_⟩
    rw [← hgetDi u hul, hlab]
    simp only [decide_eq_true_eq]
    push_cast
    omega
  refine ⟨ncomp2, labels2, ?_, hlen2, hpos, hbnd, ?_, hsurj2⟩
  · rw [find_components, hrun]
    show (if (labels2.all (fun x => x ≠ -1)) ∧
        (labels2.any (fun x => x = (ncomp2 : ℤ) - 1))
      then some (ncomp2, labels2) else none) = some (ncomp2, labels2)
    rw [if_pos ⟨hall, hany⟩]
  · intro u u' hu hu'
    exact hiff2 u u' hu hu' (hallv u hu) (hallv u' hu')

/-- Closure of the labeled set follows from the flood characterization. -/
theorem flood_closed {α : Type} {g : UGraph α} (hg : WF g) {labels labf : List ℤ}
    {v : ℕ} {c : ℕ} (hv : v < g.size_V) (hclosed : LabelsClosed g labels)
    (hchar : ∀ u, u < g.size_V →
      (Reach g v u → labf.getD u 0 = (c : ℤ)) ∧
      (¬ Reach g v u → labf.getD u 0 = labels.getD u 0)) :
    LabelsClosed g labf := by
  intro u hu hlu w hw
  have hwlt : w < g.size_V := adj_lt hg hu hw
  by_cases hru : Reach g v u
  · rw [((hchar w hwlt).1 (Reach.step hru hw))]
    omega
  · rw [(hchar u hu).2 hru] at hlu
    have hlw := hclosed u hu hlu w hw
    by_cases hrw : Reach g v w
    · rw [(hchar w hwlt).1 hrw]; omega
    · rw [(hchar w hwlt).2 hrw]; exact hlw

/-- The `CountAndLabel` loop depends on its graph only through vertex count
and reachability: two well-formed graphs of the same size with the same
reachability relation are labeled identically. -/
theorem fcLoop_congr {α β : Type} {g1 : UGraph α} {g2 : UGraph β}
    (hg1 : WF g1) (hg2 : WF g2) (hsize : g1.size_V = g2.size_V)
    (hreach : ∀ u w, u < g1.size_V → (Reach g1 u w ↔ Reach g2 u w)) :
    ∀ (vs : List ℕ) (labels : List ℤ) (ncomp : ℕ),
    labels.length = g1.size_V →
    (∀ v ∈ vs, v < g1.size_V) →
    LabelsClosed g1 labels → LabelsClosed g2 labels →
    fcLoop g1 labels ncomp vs = fcLoop g2 labels ncomp vs := by
  intro vs
  induction vs with
  | nil =>
    intro labels ncomp _ _ _ _
    rw [fcLoop, fcLoop]
  | cons v vs ih =>
    intro labels ncomp hlen hvs hc1 hc2
    have hv : v < g1.size_V := hvs v (by simp)
    have hvlen : v < labels.length := by omega
    have hsome : labels[v]? = some (labels.getD v 0) := by
      rw [List.getElem?_eq_getElem hvlen, List.getD_eq_getElem?_getD,
        List.getElem?_eq_getElem hvlen]
      rfl
    by_cases hx : labels.getD v 0 = -1
    · obtain ⟨labf1, hrunf1, hlenf1, hcharf1⟩ :=
        labelFlood_spec hg1 ncomp hlen hv hx hc1
      obtain ⟨labf2, hrunf2, hlenf2, hcharf2⟩ :=
        labelFlood_spec hg2 ncomp (by omega) (by omega) hx hc2
      have hfeq : labf1 = labf2 := by
        apply List.ext_getElem (by omega)
        intro i hi1 hi2
        have hiv : i < g1.size_V := by omega
        have h1 := hcharf1 i hiv
        have h2 := hcharf2 i (by omega)
        have hgd1 : labf1.getD i 0 = labf1[i] := by
          rw [List.getD_eq_getElem?_getD, List.getElem?_eq_getElem hi1]; rfl
        have hgd2 : labf2.getD i 0 = labf2[i] := by
          rw [List.getD_eq_getElem?_getD, List.getElem?_eq_getElem hi2]; rfl
        by_cases hr : Reach g1 v i
        · rw [← hgd1, ← hgd2, h1.1 hr, h2.1 ((hreach v i hv).mp hr)]
        · rw [← hgd1, ← hgd2, h1.2 hr,
            h2.2 (fun hr2 => hr ((hreach v i hv).mpr hr2))]
      have hrec := ih labf1 (ncomp + 1) (by omega)
        (fun w hw => hvs w (by simp [hw]))
        (flood_closed hg1 hv hc1 hcharf1)
        (by
          rw [hfeq]
          exact flood_closed hg2 (show v < g2.size_V by omega) hc2
            (fun u hu => hcharf2 u hu))
      rw [fcLoop, hsome]
      show (if labels.getD v 0 = -1 then
          match labelFlood g1 ncomp labels [v] with
          | none => none
          | some labels3 => fcLoop g1 labels3 (ncomp + 1) vs
        else fcLoop g1 labels ncomp vs) = fcLoop g2 labels ncomp (v :: vs)
      rw [if_pos hx, hrunf1]
      show fcLoop g1 labf1 (ncomp + 1) vs = fcLoop g2 labels ncomp (v :: vs)
      rw [fcLoop, hsome]
      show fcLoop g1 labf1 (ncomp + 1) vs = (if labels.getD v 0 = -1 then
          match labelFlood g2 ncomp labels [v] with
          | none => none
          | some labels3 => fcLoop g2 labels3 (ncomp + 1) vs
        else fcLoop g2 labels ncomp vs)
      rw [if_pos hx, hrunf2]
      show fcLoop g1 labf1 (ncomp + 1) vs = fcLoop g2 labf2 (ncomp + 1) vs
      rw [← hfeq]
      exact hrec
    · have hrec := ih labels ncomp hlen
        (fun w hw => hvs w (by simp [hw])) hc1 hc2
      rw [fcLoop, hsome]
      show (if labels.getD v 0 = -1 then
          match labelFlood g1 ncomp labels [v] with
          | none => none
          | some labels3 => fcLoop g1 labels3 (ncomp + 1) vs
        else fcLoop g1 labels ncomp vs) = fcLoop g2 labels ncomp (v :: vs)
      rw [if_neg hx]
      rw [fcLoop, hsome]
      show fcLoop g1 labels ncomp vs = (if labels.getD v 0 = -1 then
          match labelFlood g2 ncomp labels [v] with
          | none => none
          | some labels3 => fcLoop g2 labels3 (ncomp + 1) vs
        else fcLoop g2 labels ncomp vs)
      rw [if_neg hx]
      exact hrec

/-- `find_components` likewise only depends on vertex count and
reachability. -/
theorem find_components_congr {α β : Type} {g1 : UGraph α} {g2 : UGraph β}
    (hg1 : WF g1) (hg2 : WF g2) (hsize : g1.size_V = g2.size_V)
    (hreach : ∀ u w, u < g1.size_V → (Reach g1 u w ↔ Reach g2 u w)) :
    find_components g1 = find_components g2 := by
  rw [find_components, find_components, ← hsize]
  rw [fcLoop_congr hg1 hg2 hsize hreach (List.range g1.size_V)
    (List.replicate g1.size_V (-1)) 0 (by simp)
    (by intro w hw; simpa using List.mem_range.mp hw)
    (by intro u hu hlu; exact absurd (replicate_getD hu) hlu)
    (by intro u hu hlu; exact absurd (replicate_getD (by omega : u < g1.size_V)) hlu)]

/-- Embedding of `ConnectedComponents` (src/src/graphs/connected_components.py).
`prunedGraph` is the Python `self._graph` (a deep copy of the state space with
region-crossing edges removed by `reset_edges`).  The `graph` field is
Modelled from the spec: the attribute `regions.graph` used by
`entrance_states`, `exit_states` and `RegionBasedAgent` is missing from the
`ConnectedComponents` class in src (which only stores `_graph`); per the spec,
the object is backed by the caller's original (unpruned) state-space graph so
entrance/exit computations see the full topology, so `graph` holds that
unpruned state-space graph. -/
structure CC (α : Type) where
  num_components : ℕ
  labels : List ℤ
  graph : UGraph α
  prunedGraph : UGraph α
  deriving DecidableEq

/-- One neighbor step of `ConnectedComponents.reset_edges`: look up the
neighbor's label and remove it from the accumulated copy when the labels
disagree (`set.remove`, which raises on absence). -/
def pruneStep (labels : List ℤ) (curr : ℤ) (acc : List ℕ) (nIdx : ℕ) :
    Option (List ℕ) := do
  let lab ← labels[nIdx]?
  if lab ≠ curr then setRemove acc nIdx else pure acc

/-- Per-vertex loop of `ConnectedComponents.reset_edges`: starting from the
copied adjacency set `orig` of a vertex with label `curr`, remove every
neighbor whose label differs. -/
def pruneAdjList (labels : List ℤ) (curr : ℤ) (orig : List ℕ) :
    Option (List ℕ) :=
  orig.foldlM (pruneStep labels curr) orig

/-- Embedding of `ConnectedComponents.reset_edges`: deep-copy the given
state-space graph and drop every edge whose endpoints' stored labels
disagree.  (The Python loop mutates only entry `v` of the copy while reading
the original's entry `v`, so it is the per-vertex map below; the stale
`size_E` of the copy is kept, exactly as the Python code never updates it.) -/
def reset_edges {α : Type} (labels : List ℤ) (S : UGraph α) :
    Option (UGraph α) := do
  let adj2 ← (List.range S.size_V).mapM (fun v => do
      let curr ← labels[v]?
      pruneAdjList labels curr (S.adj v))
  pure { S with adjacent := adj2 }

/-- Embedding of the `ConnectedComponents.__init__` flow: compute the
component labels of `H`, then prune the state space `S` by those labels. -/
def mkCC {α : Type} (H S : UGraph α) : Option (CC α) := do
  let (ncomp, labels) ← find_components H
  let pruned ← reset_edges labels S
  pure ⟨ncomp, labels, S, pruned⟩

/-- Embedding of `ConnectedComponents.share_edge` with its symmetry assert. -/
def share_edge {α : Type} (cc : CC α) (v u : ℕ) : Option Bool :=
  let vToU := u ∈ cc.prunedGraph.adj v
  let uToV := v ∈ cc.prunedGraph.adj u
  if vToU = uToV then some (decide vToU) else none

/-- Embedding of `ConnectedComponents.get_vertex_indices`. -/
def get_vertex_indices {α : Type} (cc : CC α) (cid : ℤ) : List ℕ :=
  (List.range cc.prunedGraph.size_V).filter (fun v => cc.labels.getD v 0 = cid)

/-- Embedding of `entrance_states` (src/src/graphs/state_transition_graph.py):
vertices of the region that have a neighbor with a different label, neighbors
taken in `regions.graph` (the unpruned state space, see `CC.graph`). -/
def entrance_states {α : Type} (cc : CC α) (rid : ℤ) : List ℕ :=
  (get_vertex_indices cc rid).filter
    (fun v => !((cc.graph.adj v).filter
      (fun n => cc.labels.getD n 0 ≠ rid)).isEmpty)

/-- Embedding of `exit_states`: vertices outside the region with a neighbor
labeled `rid`, neighbors again taken in the unpruned `regions.graph`. -/
def exit_states {α : Type} (cc : CC α) (rid : ℤ) : List ℕ :=
  let inRegion := get_vertex_indices cc rid
  ((List.range cc.graph.size_V).filter (fun v => v ∉ inRegion)).filter
    (fun v => (cc.graph.adj v).any (fun n => cc.labels.getD n 0 = rid))

/-- Embedding of `RegionSubgoalOption`
(src/src/options/region_subgoal_option.py): entrance and exit sets, the
targeted subgoal (exit vertex), and the mutable per-state `constrained`
flags. -/
structure RSOption where
  entrances : List ℕ
  exits : List ℕ
  subgoal : ℕ
  constrained : List Bool
  deriving DecidableEq

/-- Embedding of `RegionBasedAgent` (src/src/agents/region_based_agent.py)
with the two-argument constructor its tests and callers use (state space plus
partition; the spec describes the agent as constructed from an immutable
state-space graph and a `ConnectedComponents` partition). -/
structure Agent (α : Type) where
  state_space : UGraph α
  regions : CC α
  region_entrances : List (List ℕ)
  region_exits : List (List ℕ)
  options : List (List RSOption)

/-- Embedding of `RegionBasedAgent.__init__`: derive each region's entrance
and exit sets once, and create one subgoal option per exit state, each with a
fresh `constrained` array sized to the full vertex count. -/
def mkAgent {α : Type} (S : UGraph α) (regions : CC α) : Agent α :=
  let sizeV := regions.graph.size_V
  let rids := List.range regions.num_components
  let entrances := rids.map (fun r => entrance_states regions (r : ℤ))
  let exits := rids.map (fun r => exit_states regions (r : ℤ))
  let options := rids.map (fun r =>
    (exit_states regions (r : ℤ)).map (fun e =>
      RSOption.mk (entrance_states regions (r : ℤ))
        (exit_states regions (r : ℤ)) e (List.replicate sizeV false)))
  ⟨S, regions, entrances, exits, options⟩

/-- Global edge enumeration order used by `encode_agent`/`decode_agent`:
all `(i, j)` pairs with `j` ranging over vertex `i`'s adjacency set, vertices
in ascending order (the Python loops `for i in range(size_V): for j in
adjacent[i]`). -/
def pairsOf {α : Type} (S : UGraph α) : List (ℕ × ℕ) :=
  (List.range S.size_V).flatMap (fun i => (S.adj i).map (fun j => (i, j)))

/-- Embedding of `encode_agent` (src/src/optimal_behaviors/genetic_encoding.py):
one bit per directed adjacency entry of the state space, set exactly when the
two endpoints share an edge in the pruned graph; the final
`assert size_E == counter` is the length check. -/
def encode_agent {α : Type} (a : Agent α) : Option (List ℤ) := do
  let bits ← (pairsOf a.state_space).mapM (fun p => do
      let b ← share_edge a.regions p.1 p.2
      pure (if b then (1 : ℤ) else 0))
  if a.state_space.size_E = bits.length then some bits else none

/-- Loop of `decode_agent`: scan the state space's edge slots in the same
canonical order, adding the edges whose bit is 1 (reading `encoding[counter]`
out of range is an `IndexError`). -/
def decodeLoop {α : Type} (encoding : List ℤ) :
    List (ℕ × ℕ) → UGraph α → ℕ → Option (UGraph α)
  | [], G, _ => some G
  | p :: ps, G, counter => do
      let bit ← encoding[counter]?
      if bit = 1 then do
        let (G2, _) ← G.add_edge p
        decodeLoop encoding ps G2 (counter + 1)
      else decodeLoop encoding ps G (counter + 1)

/-- Embedding of `decode_agent`: rebuild the connectivity graph from the bit
vector, compute its connected components against the state space, and build
the region-based agent. -/
def decode_agent {α : Type} (encoding : List ℤ) (S : UGraph α) :
    Option (Agent α) := do
  let C0 ← UGraph.init S.V ([] : List (ℕ × ℕ))
  let C ← decodeLoop encoding (pairsOf S) C0 0
  let regions ← mkCC C S
  pure (mkAgent S regions)

/-- Generalized run of the per-vertex pruning fold: scanning `lst` and
removing its differently-labeled elements from a duplicate-free accumulator
filters the accumulator. -/
theorem pruneStep_eq (labels : List ℤ) (curr : ℤ) (acc : List ℕ) (y : ℕ)
    (hylen : y < labels.length) :
    pruneStep labels curr acc y =
      if labels.getD y 0 ≠ curr then setRemove acc y else some acc := by
  have hysome : labels[y]? = some (labels.getD y 0) := by
    rw [List.getElem?_eq_getElem hylen, List.getD_eq_getElem?_getD,
      List.getElem?_eq_getElem hylen]
    rfl
  rw [pruneStep, hysome]
  rfl

theorem pruneFold_spec (labels : List ℤ) (curr : ℤ) :
    ∀ (lst acc : List ℕ),
    (∀ x ∈ lst, x < labels.length) →
    lst.Nodup → acc.Nodup →
    (∀ x ∈ lst, labels.getD x 0 ≠ curr → x ∈ acc) →
    lst.foldlM (pruneStep labels curr) acc =
      some (acc.filter
        (fun x => !(decide (x ∈ lst) && decide (labels.getD x 0 ≠ curr)))) := by
  intro lst
  induction lst with
  | nil =>
    intro acc _ _ _ _
    simp
  | cons y lst ih =>
    intro acc hran hnd hnda hsub
    have hylen : y < labels.length := hran y (by simp)
    have hnotmem : y ∉ lst := (List.nodup_cons.mp hnd).1
    have hndl : lst.Nodup := (List.nodup_cons.mp hnd).2
    rw [List.foldlM_cons, pruneStep_eq labels curr acc y hylen]
    by_cases hbad : labels.getD y 0 ≠ curr
    · rw [if_pos hbad]
      have hymem : y ∈ acc := hsub y (by simp) hbad
      rw [setRemove, if_pos hymem]
      simp only [Option.bind_eq_bind, Option.some_bind]
      rw [ih (acc.erase y) (fun x hx => hran x (by simp [hx])) hndl
        (hnda.erase y)
        (by
          intro x hx hbx
          refine (List.mem_erase_of_ne ?_).mpr (hsub x (by simp [hx]) hbx)
          intro hxy
          rw [hxy] at hx
          exact hnotmem hx)]
      congr 1
      rw [List.Nodup.erase_eq_filter hnda, List.filter_filter]
      apply List.filter_congr
      intro x hx
      by_cases hxy : x = y
      · subst hxy
        have hbad2 : ¬labels[x]?.getD 0 = curr := by
          rw [← List.getD_eq_getElem?_getD]; exact hbad
        simp [hbad2]
      · simp only [List.mem_cons]
        by_cases hxl : x ∈ lst <;> by_cases hbx : labels.getD x 0 ≠ curr <;>
          simp [hxy, hxl, hbx]
    · rw [if_neg hbad]
      simp only [Option.bind_eq_bind, Option.some_bind]
      rw [ih acc (fun x hx => hran x (by simp [hx])) hndl hnda
        (fun x hx hbx => hsub x (by simp [hx]) hbx)]
      congr 1
      apply List.filter_congr
      intro x hx
      by_cases hxy : x = y
      · subst hxy
        simp only [ne_eq, not_not] at hbad
        have hbad2 : labels[x]?.getD 0 = curr := by
          rw [← List.getD_eq_getElem?_getD]; exact hbad
        simp [hbad2, hnotmem]
      · simp only [List.mem_cons]
        by_cases hxl : x ∈ lst <;> by_cases hbx : labels.getD x 0 ≠ curr <;>
          simp [hxy, hxl, hbx]

/-- The pruning of one vertex's copied adjacency set keeps exactly the
same-label neighbors. -/
theorem pruneAdjList_spec {labels : List ℤ} {curr : ℤ} {orig : List ℕ}
    (hran : ∀ x ∈ orig, x < labels.length) (hnd : orig.Nodup) :
    pruneAdjList labels curr orig =
      some (orig.filter (fun x => labels.getD x 0 = curr)) := by
  rw [pruneAdjList, pruneFold_spec labels curr orig orig hran hnd hnd
    (fun x hx _ => hx)]
  congr 1
  apply List.filter_congr
  intro x hx
  by_cases hbx : labels.getD x 0 = curr <;> simp [hx, hbx]

/-- An `Option`-valued map over a list succeeds when it succeeds pointwise,
with pointwise-characterized output. -/
theorem mapM_some_of_forall {β γ : Type} (f : β → Option γ) :
    ∀ (vs : List β), (∀ v ∈ vs, ∃ y, f v = some y) →
    ∃ l, vs.mapM f = some l ∧ l.length = vs.length ∧
      ∀ i (hi : i < vs.length), f (vs.get ⟨i, hi⟩) = l[i]? := by
  intro vs
  induction vs with
  | nil =>
    intro _
    refine ⟨[], rfl, rfl, ?_⟩
    intro i hi
    simp at hi
  | cons v vs ih =>
    intro hall
    obtain ⟨y, hy⟩ := hall v (by simp)
    obtain ⟨l, hl, hlen, hchar⟩ := ih (fun w hw => hall w (by simp [hw]))
    refine ⟨y :: l, ?_, by simp [hlen], ?_⟩
    · rw [List.mapM_cons, hy, hl]
      rfl
    · intro i hi
      cases i with
      | zero => simpa using hy
      | succ k =>
        have hk : k < vs.length := by simpa using hi
        simpa using hchar k hk

/-- Full characterization of `reset_edges` on a well-formed state space:
it succeeds and the copy's adjacency keeps exactly the same-label edges,
with all other fields (including the stale `size_E`) copied. -/
theorem reset_edges_spec {α : Type} {S : UGraph α} (hg : WF S)
    {labels : List ℤ} (hlen : labels.length = S.size_V) :
    ∃ P, reset_edges labels S = some P ∧
      P.V = S.V ∧ P.size_V = S.size_V ∧ P.size_E = S.size_E ∧
      P.adjacent.length = S.size_V ∧
      ∀ v, v < S.size_V →
        P.adj v = (S.adj v).filter
          (fun w => labels.getD w 0 = labels.getD v 0) := by
  have hstep : ∀ v, v < S.size_V →
      (do
        let curr ← labels[v]?
        pruneAdjList labels curr (S.adj v)) =
        some ((S.adj v).filter
          (fun w => labels.getD w 0 = labels.getD v 0)) := by
    intro v hv
    have hvl : v < labels.length := by omega
    have hvsome : labels[v]? = some (labels.getD v 0) := by
      rw [List.getElem?_eq_getElem hvl, List.getD_eq_getElem?_getD,
        List.getElem?_eq_getElem hvl]
      rfl
    rw [hvsome]
    simp only [Option.bind_eq_bind, Option.some_bind]
    exact pruneAdjList_spec
      (fun x hx => by
        have := adj_lt hg hv hx
        omega)
      (hg.2.2.2.1 _ (adj_mem_adjacent hg hv))
  obtain ⟨adj2, hm, hlen2, hchar⟩ :=
    mapM_some_of_forall
      (fun v => do
        let curr ← labels[v]?
        pruneAdjList labels curr (S.adj v))
      (List.range S.size_V)
      (fun v hv => ⟨_, hstep v (List.mem_range.mp hv)⟩)
  refine ⟨{ S with adjacent := adj2 }, ?_, rfl, rfl, rfl,
    by simpa using hlen2, ?_⟩
  · rw [reset_edges, hm]
    rfl
  · intro v hv
    have hvr : v < (List.range S.size_V).length := by simpa using hv
    have := hchar v hvr
    rw [List.get_eq_getElem, List.getElem_range] at this
    rw [hstep v hv] at this
    show adj2.getD v [] = _
    rw [List.getD_eq_getElem?_getD, ← this]
    rfl

/-- Sum of adjacency-set sizes after updating one entry. -/
theorem sum_length_set (l : List (List ℕ)) :
    ∀ (i : ℕ) (x : List ℕ), i < l.length →
    ((l.set i x).map List.length).sum + (l.getD i []).length =
      (l.map List.length).sum + x.length := by
  induction l with
  | nil => intro i x hi; simp at hi
  | cons h t ih =>
    intro i x hi
    cases i with
    | zero => simp [List.getD_cons_zero]; omega
    | succ k =>
      have := ih k x (by simpa using hi)
      simp only [List.set_cons_succ, List.map_cons, List.sum_cons,
        List.getD_cons_succ]
      omega

theorem setAdd_mem {s : List ℕ} {x y : ℕ} :
    y ∈ setAdd s x ↔ y ∈ s ∨ y = x := by
  rw [setAdd]
  by_cases hx : x ∈ s
  · rw [if_pos hx]
    constructor
    · exact Or.inl
    · rintro (h | h)
      · exact h
      · exact h ▸ hx
  · rw [if_neg hx]
    simp

theorem setAdd_nodup {s : List ℕ} {x : ℕ} (h : s.Nodup) :
    (setAdd s x).Nodup := by
  rw [setAdd]
  by_cases hx : x ∈ s
  · rwa [if_pos hx]
  · rw [if_neg hx]
    simpa [List.nodup_append] using ⟨h, hx⟩

theorem setAdd_length_of_not_mem {s : List ℕ} {x : ℕ} (h : x ∉ s) :
    (setAdd s x).length = s.length + 1 := by
  rw [setAdd, if_neg h]
  simp

/-- Adjacency lookup after `updAdj`. -/
theorem updAdj_adj (a : List (List ℕ)) (i : ℕ) (f : List ℕ → List ℕ)
    (hi : i < a.length) (k : ℕ) :
    (updAdj a i f).getD k [] =
      if k = i then f (a.getD i []) else a.getD k [] := by
  by_cases hk : k = i
  · subst hk
    rw [if_pos rfl, updAdj, List.getD_eq_getElem?_getD,
      List.getElem?_set_self hi]
    rfl
  · rw [if_neg hk, updAdj, List.getD_eq_getElem?_getD,
      List.getElem?_set_ne (fun h => hk h.symm), ← List.getD_eq_getElem?_getD]

/-- Full specification of `add_edge` on a well-formed graph with in-range
endpoints: it succeeds, preserves well-formedness, the vertex data, and the
vertex count, and adds exactly the two directions of the given edge to the
adjacency relation. -/
theorem add_edge_spec {α : Type} {g : UGraph α} (hg : WF g) {a b : ℕ}
    (ha : a < g.size_V) (hb : b < g.size_V) :
    ∃ g2 k, g.add_edge (a, b) = some (g2, k) ∧ WF g2 ∧
      g2.size_V = g.size_V ∧ g2.V = g.V ∧
      ∀ i j, j ∈ g2.adj i ↔
        (j ∈ g.adj i ∨ (i = a ∧ j = b) ∨ (i = b ∧ j = a)) := by
  obtain ⟨hV, hlen, hE, hnd, hran, hsym⟩ := hg
  have halen : a < g.adjacent.length := by omega
  have hblen : b < g.adjacent.length := by omega
  by_cases hpres : b ∈ g.adj a ∧ a ∈ g.adj b
  · refine ⟨g, 0, ?_, ⟨hV, hlen, hE, hnd, hran, hsym⟩, rfl, rfl, ?_⟩
    · rw [UGraph.add_edge, if_pos ⟨ha, hb⟩, if_pos hpres]
    · intro i j
      constructor
      · exact Or.inl
      · rintro (h | ⟨hia, hjb⟩ | ⟨hib, hja⟩)
        · exact h
        · exact hia ▸ hjb ▸ hpres.1
        · exact hib ▸ hja ▸ hpres.2
  · have habs : b ∉ g.adj a ∧ a ∉ g.adj b := by
      constructor
      · intro hmem
        exact hpres ⟨hmem, (hsym a ha b hb).mp hmem⟩
      · intro hmem
        exact hpres ⟨(hsym a ha b hb).mpr hmem, hmem⟩
    set a1 := updAdj g.adjacent a (fun s => setAdd s b) with ha1
    set a2 := updAdj a1 b (fun s => setAdd s a) with ha2
    have ha1len : a1.length = g.adjacent.length := by
      rw [ha1, updAdj, List.length_set]
    have hadj1 : ∀ k, a1.getD k [] =
        if k = a then setAdd (g.adj a) b else g.adj k := by
      intro k
      exact updAdj_adj g.adjacent a _ halen k
    have hadj2 : ∀ k, a2.getD k [] =
        if k = b then setAdd (a1.getD b []) a else a1.getD k [] := by
      intro k
      exact updAdj_adj a1 b _ (by omega) k
    have hmemchar : ∀ i j, j ∈ a2.getD i [] ↔
        (j ∈ g.adj i ∨ (i = a ∧ j = b) ∨ (i = b ∧ j = a)) := by
      intro i j
      by_cases hib : i = b
      · subst hib
        rw [hadj2, if_pos rfl, setAdd_mem, hadj1]
        by_cases hba : i = a
        · rw [if_pos hba, setAdd_mem, hba]
          tauto
        · rw [if_neg hba]
          tauto
      · rw [hadj2, if_neg hib, hadj1]
        by_cases hia : i = a
        · rw [if_pos hia, setAdd_mem, hia]
          constructor
          · rintro (h | h)
            · exact Or.inl h
            · exact Or.inr (Or.inl ⟨rfl, h⟩)
          · rintro (h | ⟨-, h⟩ | ⟨hab2, hja⟩)
            · exact Or.inl h
            · exact Or.inr h
            · exact Or.inr (hja.trans hab2)
        · rw [if_neg hia]
          tauto
    have hsum : (a2.map List.length).sum =
        (g.adjacent.map List.length).sum + (if a = b then 1 else 2) := by
      have ha1eq : a1 = g.adjacent.set a (setAdd (g.adj a) b) := rfl
      have h1 := sum_length_set g.adjacent a (setAdd (g.adj a) b) halen
      have hgadj : g.adjacent.getD a [] = g.adj a := rfl
      have hset1 : (setAdd (g.adj a) b).length = (g.adj a).length + 1 :=
        setAdd_length_of_not_mem habs.1
      rw [hgadj, hset1, ← ha1eq] at h1
      by_cases hab : a = b
      · rw [if_pos hab]
        have ha1b : a1.getD b [] = setAdd (g.adj a) b := by
          rw [hadj1, if_pos hab.symm]
        have hset2 : setAdd (a1.getD b []) a = a1.getD b [] := by
          rw [setAdd, if_pos]
          rw [ha1b, setAdd_mem]
          exact Or.inr hab
        have h2 := sum_length_set a1 b (setAdd (a1.getD b []) a)
          (by rw [ha1len]; omega)
        rw [hset2] at h2
        have ha2eq : a2 = a1.set b (a1.getD b []) := by
          rw [ha2, updAdj, hset2]
        rw [ha2eq, ha1b] at *
        omega
      · rw [if_neg hab]
        have ha1b : a1.getD b [] = g.adj b := by
          rw [hadj1, if_neg (fun h => hab h.symm)]
        have hset2 : (setAdd (a1.getD b []) a).length =
            (a1.getD b []).length + 1 := by
          rw [ha1b]
          exact setAdd_length_of_not_mem habs.2
        have h2 := sum_length_set a1 b (setAdd (a1.getD b []) a)
          (by rw [ha1len]; omega)
        have ha2eq : a2 = a1.set b (setAdd (a1.getD b []) a) := rfl
        rw [ha2eq]
        omega
    refine ⟨({ g with adjacent := a2, size_E := g.size_E + (if a = b then 1 else 2) } : UGraph α), (if a = b then 1 else 2), ?_, ?_, rfl, rfl, ?_⟩
    · rw [UGraph.add_edge, if_pos ⟨ha, hb⟩, if_neg hpres]
    · refine ⟨hV, ?_, ?_, ?_, ?_, ?_⟩
      · show a2.length = g.size_V
        rw [ha2, updAdj, List.length_set]
        omega
      · show g.size_E + (if a = b then 1 else 2) = (a2.map List.length).sum
        rw [hsum, hE]
      · intro l hl
        rw [ha2, updAdj] at hl
        rcases List.mem_or_eq_of_mem_set hl with hl1 | hl1
        · rw [ha1, updAdj] at hl1
          rcases List.mem_or_eq_of_mem_set hl1 with hl2 | hl2
          · exact hnd l hl2
          · subst hl2
            exact setAdd_nodup (hnd _ (adj_mem_adjacent ⟨hV, hlen, hE, hnd, hran, hsym⟩ ha))
        · subst hl1
          apply setAdd_nodup
          rw [hadj1]
          by_cases hba : b = a
          · rw [if_pos hba]
            exact setAdd_nodup (hnd _ (adj_mem_adjacent ⟨hV, hlen, hE, hnd, hran, hsym⟩ ha))
          · rw [if_neg hba]
            exact hnd _ (adj_mem_adjacent ⟨hV, hlen, hE, hnd, hran, hsym⟩ hb)
      · intro l hl x hx
        rw [ha2, updAdj] at hl
        have hwf : WF g := ⟨hV, hlen, hE, hnd, hran, hsym⟩
        rcases List.mem_or_eq_of_mem_set hl with hl1 | hl1
        · rw [ha1, updAdj] at hl1
          rcases List.mem_or_eq_of_mem_set hl1 with hl2 | hl2
          · exact hran l hl2 x hx
          · subst hl2
            rcases setAdd_mem.mp hx with h | h
            · exact adj_lt hwf ha h
            · exact h ▸ hb
        · subst hl1
          rcases setAdd_mem.mp hx with h | h
          · rw [hadj1] at h
            by_cases hba : b = a
            · rw [if_pos hba] at h
              rcases setAdd_mem.mp h with h2 | h2
              · exact adj_lt hwf ha h2
              · exact h2 ▸ hb
            · rw [if_neg hba] at h
              exact adj_lt hwf hb h
          · exact h ▸ ha
      · intro i hi j hj
        show j ∈ a2.getD i [] ↔ i ∈ a2.getD j []
        rw [hmemchar, hmemchar]
        constructor
        · rintro (h | ⟨h1, h2⟩ | ⟨h1, h2⟩)
          · exact Or.inl ((hsym i hi j hj).mp h)
          · exact Or.inr (Or.inr ⟨h2, h1⟩)
          · exact Or.inr (Or.inl ⟨h2, h1⟩)
        · rintro (h | ⟨h1, h2⟩ | ⟨h1, h2⟩)
          · exact Or.inl ((hsym j hj i hi).mp h)
          · exact Or.inr (Or.inr ⟨h2, h1⟩)
          · exact Or.inr (Or.inl ⟨h2, h1⟩)
    · intro i j
      show j ∈ a2.getD i [] ↔ _
      exact hmemchar i j

/-- Constructing a graph with no edges always succeeds and yields an empty,
well-formed adjacency structure. -/
theorem init_nil {α : Type} (V : List α) :
    ∃ G : UGraph α, UGraph.init V ([] : List (ℕ × ℕ)) = some G ∧
      G.V = V ∧ G.size_V = V.length ∧ WF G ∧ ∀ i, G.adj i = [] := by
  have hadj : ∀ i, ((V.map fun _ => ([] : List ℕ)).getD i []) = [] := by
    intro i
    rw [List.getD_eq_getElem?_getD]
    rcases h : (V.map fun _ => ([] : List ℕ))[i]? with - | l
    · rfl
    · have := List.getElem?_eq_some_iff.mp h
      obtain ⟨hlt, hl⟩ := this
      simp only [List.getElem_map] at hl
      rw [← hl]
      rfl
  have hsum : (((V.map fun _ => ([] : List ℕ))).map List.length).sum = 0 := by
    rw [List.map_map]
    have : (List.length ∘ fun (_ : α) => ([] : List ℕ)) = fun _ => 0 := rfl
    rw [this]
    induction V with
    | nil => rfl
    | cons x t ih => simpa using ih
  refine ⟨(UGraph.mk V (V.map fun _ => []) V.length (((V.map fun (_ : α) => ([] : List ℕ)).map List.length).sum)), rfl, rfl, rfl, ?_, hadj⟩
  refine ⟨rfl, by simp, rfl, ?_, ?_, ?_⟩
  · intro l hl
    rcases List.mem_map.mp hl with ⟨-, -, h⟩
    rw [← h]
    exact List.nodup_nil
  · intro l hl x hx
    rcases List.mem_map.mp hl with ⟨-, -, h⟩
    rw [← h] at hx
    simp at hx
  · intro i _ j _
    show j ∈ (V.map fun _ => ([] : List ℕ)).getD i [] ↔
      i ∈ (V.map fun _ => ([] : List ℕ)).getD j []
    rw [hadj, hadj]
    simp

/-- Length of the encode/decode edge-slot enumeration equals the edge count
of a well-formed graph. -/
theorem pairsOf_length {α : Type} {S : UGraph α} (hg : WF S) :
    (pairsOf S).length = S.size_E := by
  obtain ⟨hV, hlen, hE, -⟩ := hg
  rw [pairsOf, List.length_flatMap]
  have hmapeq : (List.range S.size_V).map
      (fun i => ((S.adj i).map (fun j => (i, j))).length) =
      S.adjacent.map List.length := by
    apply List.ext_getElem
    · simp [hlen]
    · intro i hi1 hi2
      simp only [List.getElem_map, List.getElem_range, List.length_map]
      congr 1
      rw [UGraph.adj_eq, List.getElem?_eq_getElem (by simpa using hi2)]
      rfl
  have hcomp : List.map (List.length ∘ fun i => (S.adj i).map (fun j => (i, j)))
      (List.range S.size_V) = (List.range S.size_V).map
      (fun i => ((S.adj i).map (fun j => (i, j))).length) := rfl
  rw [hcomp, hmapeq, hE]

/-- Membership in the edge-slot enumeration. -/
theorem pairsOf_mem {α : Type} {S : UGraph α} {i j : ℕ} :
    (i, j) ∈ pairsOf S ↔ i < S.size_V ∧ j ∈ S.adj i := by
  rw [pairsOf, List.mem_flatMap]
  constructor
  · rintro ⟨v, hv, hmem⟩
    rcases List.mem_map.mp hmem with ⟨w, hw, heq⟩
    obtain ⟨h1, h2⟩ := Prod.mk.injEq .. ▸ heq
    cases heq
    exact ⟨List.mem_range.mp hv, hw⟩
  · rintro ⟨hi, hj⟩
    exact ⟨i, List.mem_range.mpr hi, List.mem_map.mpr ⟨j, hj, rfl⟩⟩

/-- Run of the decode loop: it succeeds when every edge slot is backed by a
bit, preserves well-formedness, and its result contains an edge exactly when
the starting graph does or some slot with bit 1 names it (in either
direction). -/
theorem decodeLoop_spec {α : Type} (encoding : List ℤ) :
    ∀ (ps : List (ℕ × ℕ)) (G : UGraph α) (counter : ℕ),
    WF G →
    (∀ p ∈ ps, p.1 < G.size_V ∧ p.2 < G.size_V) →
    counter + ps.length ≤ encoding.length →
    ∃ G2, decodeLoop encoding ps G counter = some G2 ∧ WF G2 ∧
      G2.size_V = G.size_V ∧ G2.V = G.V ∧
      ∀ i j, j ∈ G2.adj i ↔ (j ∈ G.adj i ∨
        ∃ k, ∃ hk : k < ps.length, encoding.getD (counter + k) 0 = 1 ∧
          (ps.get ⟨k, hk⟩ = (i, j) ∨ ps.get ⟨k, hk⟩ = (j, i))) := by
  intro ps
  induction ps with
  | nil =>
    intro G counter hg _ _
    refine ⟨G, by rw [decodeLoop], hg, rfl, rfl, ?_⟩
    intro i j
    constructor
    · exact Or.inl
    · rintro (h | ⟨k, hk, -⟩)
      · exact h
      · simp at hk
  | cons p ps ih =>
    intro G counter hg hps hfit
    have hcl : counter < encoding.length := by simp at hfit; omega
    have hbit : encoding[counter]? = some (encoding.getD counter 0) := by
      rw [List.getElem?_eq_getElem hcl, List.getD_eq_getElem?_getD,
        List.getElem?_eq_getElem hcl]
      rfl
    have hp := hps p (by simp)
    by_cases hone : encoding.getD counter 0 = 1
    · obtain ⟨G2, k2, hadd, hwf2, hsz2, hV2, hchar2⟩ :=
        add_edge_spec hg hp.1 hp.2
      obtain ⟨G3, hrun3, hwf3, hsz3, hV3, hchar3⟩ :=
        ih G2 (counter + 1) hwf2
          (by intro q hq; rw [hsz2]; exact hps q (by simp [hq]))
          (by simp at hfit ⊢; omega)
      refine ⟨G3, ?_, hwf3, by omega, by rw [hV3, hV2], ?_⟩
      · rw [decodeLoop, hbit]
        show (if encoding.getD counter 0 = 1 then do
            let x ← G.add_edge p
            decodeLoop encoding ps x.1 (counter + 1)
          else decodeLoop encoding ps G (counter + 1)) = some G3
        rw [if_pos hone, hadd]
        exact hrun3
      · intro i j
        rw [hchar3, hchar2]
        constructor
        · rintro ((h | h | h) | ⟨k, hk, hb, hpk⟩)
          · exact Or.inl h
          · refine Or.inr ⟨0, by simp, by simpa using hone, ?_⟩
            left
            show p = (i, j)
            exact Prod.ext h.1.symm h.2.symm
          · refine Or.inr ⟨0, by simp, by simpa using hone, ?_⟩
            right
            show p = (j, i)
            exact Prod.ext h.2.symm h.1.symm
          · refine Or.inr ⟨k + 1, by simpa using hk, ?_, ?_⟩
            · have : counter + 1 + k = counter + (k + 1) := by omega
              rw [← this]
              exact hb
            · simpa using hpk
        · rintro (h | ⟨k, hk, hb, hpk⟩)
          · exact Or.inl (Or.inl h)
          · cases k with
            | zero =>
              have hpk2 : p = (i, j) ∨ p = (j, i) := hpk
              rcases hpk2 with h | h
              · refine Or.inl (Or.inr (Or.inl ?_))
                rw [h]
                exact ⟨rfl, rfl⟩
              · refine Or.inl (Or.inr (Or.inr ?_))
                rw [h]
                exact ⟨rfl, rfl⟩
            | succ k2 =>
              refine Or.inr ⟨k2, by simpa using hk, ?_, ?_⟩
              · have : counter + 1 + k2 = counter + (k2 + 1) := by omega
                rw [this]
                exact hb
              · simpa using hpk
    · obtain ⟨G3, hrun3, hwf3, hsz3, hV3, hchar3⟩ :=
        ih G (counter + 1) hg
          (by intro q hq; exact hps q (by simp [hq]))
          (by simp at hfit ⊢; omega)
      refine ⟨G3, ?_, hwf3, hsz3, hV3, ?_⟩
      · rw [decodeLoop, hbit]
        show (if encoding.getD counter 0 = 1 then do
            let x ← G.add_edge p
            decodeLoop encoding ps x.1 (counter + 1)
          else decodeLoop encoding ps G (counter + 1)) = some G3
        rw [if_neg hone]
        exact hrun3
      · intro i j
        rw [hchar3]
        constructor
        · rintro (h | ⟨k, hk, hb, hpk⟩)
          · exact Or.inl h
          · refine Or.inr ⟨k + 1, by simpa using hk, ?_, ?_⟩
            · have : counter + 1 + k = counter + (k + 1) := by omega
              rw [← this]
              exact hb
            · simpa using hpk
        · rintro (h | ⟨k, hk, hb, hpk⟩)
          · exact Or.inl h
          · cases k with
            | zero =>
              rw [Nat.add_zero] at hb
              exact absurd hb hone
            | succ k2 =>
              refine Or.inr ⟨k2, by simpa using hk, ?_, ?_⟩
              · have : counter + 1 + k2 = counter + (k2 + 1) := by omega
                rw [this]
                exact hb
              · simpa using hpk

/-- A vertex with a nonempty adjacency entry is in range. -/
theorem mem_adj_lt_left {α : Type} {g : UGraph α} (hg : WF g) {i j : ℕ}
    (h : j ∈ g.adj i) : i < g.size_V := by
  by_contra hge
  have : g.adj i = [] := by
    rw [UGraph.adj_eq, List.getElem?_eq_none]
    · rfl
    · have := hg.2.1
      omega
  rw [this] at h
  simp at h

/-- Construction of a `ConnectedComponents` from a well-formed partition
graph `H` and state space `S` of the same nonempty size: both phases
succeed, and the pruned graph keeps exactly the same-label edges. -/
theorem mkCC_spec {α : Type} {H S : UGraph α} (hS : WF S) (hH : WF H)
    (hsz : H.size_V = S.size_V) (hn : 1 ≤ H.size_V) :
    ∃ cc : CC α, mkCC H S = some cc ∧ cc.graph = S ∧
      find_components H = some (cc.num_components, cc.labels) ∧
      reset_edges cc.labels S = some cc.prunedGraph ∧
      cc.labels.length = H.size_V ∧
      cc.prunedGraph.size_V = S.size_V ∧
      cc.prunedGraph.adjacent.length = S.size_V ∧
      (∀ v, v < S.size_V → cc.prunedGraph.adj v =
        (S.adj v).filter
          (fun w => cc.labels.getD w 0 = cc.labels.getD v 0)) := by
  obtain ⟨ncomp, labels, hfc, hlen, -⟩ := find_components_spec hH hn
  obtain ⟨P, hreset, -, hPsz, -, hPalen, hPadj⟩ :=
    @reset_edges_spec _ _ hS labels (by omega)
  refine ⟨⟨ncomp, labels, S, P⟩, ?_, rfl, hfc, hreset, hlen, hPsz, hPalen, hPadj⟩
  rw [mkCC, hfc]
  show (do
    let pruned ← reset_edges labels S
    pure (⟨ncomp, labels, S, pruned⟩ : CC α)) = _
  rw [hreset]
  rfl

/-- Behavior of `share_edge` on such a `ConnectedComponents`: the symmetry
assert always passes and the result states that the two vertices are
state-space neighbors with equal labels. -/
theorem share_edge_spec {α : Type} {S : UGraph α} (hS : WF S) {cc : CC α}
    (hgr : cc.graph = S)
    (hPlen : cc.prunedGraph.adjacent.length = S.size_V)
    (hPadj : ∀ v, v < S.size_V → cc.prunedGraph.adj v =
      (S.adj v).filter
        (fun w => cc.labels.getD w 0 = cc.labels.getD v 0)) :
    ∀ i j, share_edge cc i j =
      some (decide (j ∈ S.adj i ∧ cc.labels.getD j 0 = cc.labels.getD i 0)) := by
  have hPadj2 : ∀ v, cc.prunedGraph.adj v =
      if v < S.size_V then (S.adj v).filter
        (fun w => cc.labels.getD w 0 = cc.labels.getD v 0) else [] := by
    intro v
    by_cases hv : v < S.size_V
    · rw [if_pos hv]; exact hPadj v hv
    · rw [if_neg hv, UGraph.adj_eq, List.getElem?_eq_none (by omega)]
      rfl
  have hmem : ∀ i j, (j ∈ cc.prunedGraph.adj i) ↔
      (j ∈ S.adj i ∧ cc.labels.getD j 0 = cc.labels.getD i 0) := by
    intro i j
    rw [hPadj2]
    by_cases hi : i < S.size_V
    · rw [if_pos hi, List.mem_filter]
      simp
    · rw [if_neg hi]
      constructor
      · intro h; simp at h
      · rintro ⟨h, -⟩
        exact absurd (mem_adj_lt_left hS h) hi
  intro i j
  have hsymm : (j ∈ cc.prunedGraph.adj i) = (i ∈ cc.prunedGraph.adj j) := by
    rw [eq_iff_iff, hmem, hmem]
    constructor
    · rintro ⟨hadj, hlab⟩
      have hj : j < S.size_V := adj_lt hS (mem_adj_lt_left hS hadj) hadj
      have hi : i < S.size_V := mem_adj_lt_left hS hadj
      exact ⟨(hS.2.2.2.2.2 i hi j hj).mp hadj, hlab.symm⟩
    · rintro ⟨hadj, hlab⟩
      have hi : i < S.size_V := adj_lt hS (mem_adj_lt_left hS hadj) hadj
      have hj : j < S.size_V := mem_adj_lt_left hS hadj
      exact ⟨(hS.2.2.2.2.2 j hj i hi).mp hadj, hlab.symm⟩
  show (if (j ∈ cc.prunedGraph.adj i) = (i ∈ cc.prunedGraph.adj j) then
      some (decide (j ∈ cc.prunedGraph.adj i)) else none) = _
  rw [if_pos hsymm]
  congr 1
  exact decide_eq_decide.mpr (hmem i j)

/-- C5: round-trip of the genetic encoding.  For every region-based agent
derived from a state-space graph `S` — its regions built by
`ConnectedComponents(H, S)` for a partition graph `H` whose edges lie in `S`
(as the `decompose` pipeline produces) — decoding the encoding rebuilds an
agent whose region labels are identical to the original's (indeed the decoded
`ConnectedComponents` coincides with the original one). -/
theorem C5_encode_decode_roundtrip {α : Type} (S H : UGraph α)
    (hS : WF S) (hH : WF H) (hsz : H.size_V = S.size_V) (hn : 1 ≤ S.size_V)
    (hsub : ∀ i < H.size_V, ∀ j ∈ H.adj i, j ∈ S.adj i) :
    ∃ regions enc A2, mkCC H S = some regions ∧
      encode_agent (mkAgent S regions) = some enc ∧
      decode_agent enc S = some A2 ∧
      A2.regions.labels = regions.labels := by
  obtain ⟨cc, hmk, hgr, hfc, hreset, hclen, hPsz, hPalen, hPadj⟩ :=
    mkCC_spec hS hH hsz (by omega)
  obtain ⟨ncomp0, labels0, hfc0, hlen0, hpos0, hbnd0, hiff0, hsurj0⟩ :=
    find_components_spec hH (by omega)
  have hpair : (cc.num_components, cc.labels) = (ncomp0, labels0) :=
    Option.some.inj (hfc.symm.trans hfc0)
  have hlb : labels0 = cc.labels := (congrArg Prod.snd hpair).symm
  subst hlb
  have hshare := share_edge_spec hS hgr hPalen hPadj
  obtain ⟨bits, hbitsrun, hbitslen, hbitschar⟩ :=
    mapM_some_of_forall
      (fun p : ℕ × ℕ => do
        let b ← share_edge cc p.1 p.2
        pure (if b then (1 : ℤ) else 0))
      (pairsOf S)
      (by
        intro p hp
        refine ⟨if (decide (p.2 ∈ S.adj p.1 ∧
          cc.labels.getD p.2 0 = cc.labels.getD p.1 0)) then (1 : ℤ) else 0, ?_⟩
        show (do
          let b ← share_edge cc p.1 p.2
          pure (if b then (1 : ℤ) else 0)) = _
        rw [hshare p.1 p.2]
        rfl)
  have hlenE : S.size_E = bits.length := by
    rw [hbitslen, pairsOf_length hS]
  have hencode : encode_agent (mkAgent S cc) = some bits := by
    rw [encode_agent]
    show (do
      let bits2 ← (pairsOf S).mapM (fun p : ℕ × ℕ => do
        let b ← share_edge cc p.1 p.2
        pure (if b then (1 : ℤ) else 0))
      if S.size_E = bits2.length then some bits2 else none) = some bits
    rw [hbitsrun]
    simp only [Option.bind_eq_bind, Option.some_bind]
    rw [if_pos hlenE]
  have hbitval : ∀ k (hk : k < (pairsOf S).length),
      bits.getD k 0 =
        if (((pairsOf S).get ⟨k, hk⟩).2 ∈ S.adj (((pairsOf S).get ⟨k, hk⟩).1) ∧
            cc.labels.getD (((pairsOf S).get ⟨k, hk⟩).2) 0 =
              cc.labels.getD (((pairsOf S).get ⟨k, hk⟩).1) 0)
        then 1 else 0 := by
    intro k hk
    have h1 := hbitschar k hk
    simp only [] at h1
    rw [hshare] at h1
    simp only [Option.bind_eq_bind, Option.some_bind, pure] at h1
    rw [List.getD_eq_getElem?_getD, ← h1]
    by_cases hcond : (((pairsOf S).get ⟨k, hk⟩).2 ∈
        S.adj (((pairsOf S).get ⟨k, hk⟩).1) ∧
        cc.labels.getD (((pairsOf S).get ⟨k, hk⟩).2) 0 =
          cc.labels.getD (((pairsOf S).get ⟨k, hk⟩).1) 0)
    · rw [if_pos hcond, Option.getD_some, decide_eq_true hcond, if_pos rfl]
    · rw [if_neg hcond, Option.getD_some, decide_eq_false hcond,
        if_neg (by simp)]
  obtain ⟨C0, hinit, hC0V, hC0sz, hC0wf, hC0adj⟩ := init_nil S.V
  have hC0szS : C0.size_V = S.size_V := by
    rw [hC0sz, ← hS.1]
  obtain ⟨C, hdec, hCwf, hCsz, hCV, hCchar⟩ :=
    decodeLoop_spec bits (pairsOf S) C0 0 hC0wf
      (by
        intro p hp
        have hp2 : p = (p.1, p.2) := rfl
        rw [hp2] at hp
        obtain ⟨h1, h2⟩ := pairsOf_mem.mp hp
        exact ⟨by omega, by have := adj_lt hS h1 h2; omega⟩)
      (by omega)
  have hCmem : ∀ i j, j ∈ C.adj i ↔
      (j ∈ S.adj i ∧ cc.labels.getD j 0 = cc.labels.getD i 0) := by
    intro i j
    rw [hCchar i j, hC0adj i]
    simp only [List.not_mem_nil, false_or]
    constructor
    · rintro ⟨k, hk, hb, hpk⟩
      rw [Nat.zero_add] at hb
      have hval := hbitval k hk
      rcases hpk with h | h
      · rw [h] at hval
        simp only at hval
        rw [hval] at hb
        by_cases hcond : (j ∈ S.adj i ∧
            cc.labels.getD j 0 = cc.labels.getD i 0)
        · exact hcond
        · rw [if_neg hcond] at hb
          simp at hb
      · rw [h] at hval
        simp only at hval
        by_cases hcond : (i ∈ S.adj j ∧
            cc.labels.getD i 0 = cc.labels.getD j 0)
        · have hjn : j < S.size_V := mem_adj_lt_left hS hcond.1
          have hin : i < S.size_V := adj_lt hS hjn hcond.1
          exact ⟨(hS.2.2.2.2.2 j hjn i hin).mp hcond.1, hcond.2.symm⟩
        · rw [hval, if_neg hcond] at hb
          simp at hb
    · rintro ⟨hadj, hlab⟩
      have hi : i < S.size_V := mem_adj_lt_left hS hadj
      have hmemp : (i, j) ∈ pairsOf S := pairsOf_mem.mpr ⟨hi, hadj⟩
      obtain ⟨⟨k, hk⟩, hpk⟩ := List.mem_iff_get.mp hmemp
      refine ⟨k, hk, ?_, Or.inl hpk⟩
      rw [Nat.zero_add]
      have hval := hbitval k hk
      rw [hpk] at hval
      simp only at hval
      rw [hval, if_pos ⟨hadj, hlab⟩]
  have hCn : C.size_V = H.size_V := by omega
  have hreachCH : ∀ u w, u < C.size_V → (Reach C u w ↔ Reach H u w) := by
    intro u w hu
    constructor
    · intro hr
      induction hr with
      | refl => exact Reach.refl _ _
      | @tail b w2 hr2 hstep ih =>
        have hb : b < C.size_V := Reach.lt hCwf hu hr2
        obtain ⟨hadj, hlab⟩ := (hCmem b w2).mp hstep
        have hw2 : w2 < S.size_V := adj_lt hS (by omega) hadj
        have hrH : Reach H b w2 :=
          (hiff0 b w2 (by omega) (by omega)).mp hlab.symm
        exact Reach.trans ih hrH
    · intro hr
      induction hr with
      | refl => exact Reach.refl _ _
      | @tail b w2 hr2 hstep ih =>
        have hb : b < H.size_V := Reach.lt hH (by omega) hr2
        have hw2 : w2 < H.size_V := adj_lt hH hb hstep
        have hlab : cc.labels.getD b 0 = cc.labels.getD w2 0 :=
          (hiff0 b w2 hb hw2).mpr (Relation.ReflTransGen.single hstep)
        have hCstep : w2 ∈ C.adj b :=
          (hCmem b w2).mpr ⟨hsub b hb w2 hstep, hlab.symm⟩
        exact Reach.step ih hCstep
  have hfcC : find_components C = some (cc.num_components, cc.labels) := by
    rw [find_components_congr hCwf hH hCn hreachCH]
    exact hfc
  have hmkC : mkCC C S = some cc := by
    rw [mkCC, hfcC]
    show (do
      let pruned ← reset_edges cc.labels S
      pure (⟨cc.num_components, cc.labels, S, pruned⟩ : CC α)) = some cc
    rw [hreset]
    show some ⟨cc.num_components, cc.labels, S, cc.prunedGraph⟩ = some cc
    rw [← hgr]
  have hdecode : decode_agent bits S = some (mkAgent S cc) := by
    rw [decode_agent, hinit]
    show (do
      let C2 ← decodeLoop bits (pairsOf S) C0 0
      let regions ← mkCC C2 S
      pure (mkAgent S regions)) = some (mkAgent S cc)
    rw [hdec]
    show (do
      let regions ← mkCC C S
      pure (mkAgent S regions)) = some (mkAgent S cc)
    rw [hmkC]
    rfl
  exact ⟨cc, bits, mkAgent S cc, hmk, hencode, hdecode, rfl⟩

/-- A two-component partition forest of `pathGraph3` (the edge 0-1 kept,
vertex 2 isolated), as `decompose` would produce after one cut. -/
def forestGraph3 : UGraph ℕ :=
  { V := [0, 1, 2], adjacent := [[1], [0], []], size_V := 3, size_E := 2 }

/-- Witness for C5: the round-trip theorem applied to the path graph with a
concrete two-component partition. -/
theorem C5_encode_decode_roundtrip_witness :
    WF pathGraph3 ∧ WF forestGraph3 ∧
      (∃ regions enc A2, mkCC forestGraph3 pathGraph3 = some regions ∧
        encode_agent (mkAgent pathGraph3 regions) = some enc ∧
        decode_agent enc pathGraph3 = some A2 ∧
        A2.regions.labels = regions.labels) :=
  ⟨by decide, by decide,
    C5_encode_decode_roundtrip pathGraph3 forestGraph3 (by decide) (by decide)
      (by decide) (by decide) (by decide)⟩

/-- Nonemptiness of a filtered list as used by `entrance_states`. -/
theorem filter_not_isEmpty_iff {l : List ℕ} {p : ℕ → Bool} :
    ((!(l.filter p).isEmpty) = true) ↔ ∃ x ∈ l, p x = true := by
  simp [List.isEmpty_iff, List.filter_eq_nil_iff]

/-- C4: for a `ConnectedComponents` partition of a state-transition graph and
any region id, `entrance_states` is exactly the set of vertices labeled `rid`
having a neighbor with a different label in the original (unpruned)
state-space graph `S`, and `exit_states` is exactly the set of vertices not
labeled `rid` having a neighbor labeled `rid` — both neighbor tests taken in
the unpruned topology `S` (the `graph` backing the partition), not in the
pruned `prunedGraph`. -/
theorem C4_entrance_exit_unpruned {α : Type} {H S : UGraph α}
    (hS : WF S) (hH : WF H) (hsz : H.size_V = S.size_V) (hn : 1 ≤ H.size_V)
    (rid : ℤ) :
    ∃ cc, mkCC H S = some cc ∧ cc.graph = S ∧
      (∀ v, v ∈ entrance_states cc rid ↔
        (v < S.size_V ∧ cc.labels.getD v 0 = rid ∧
          ∃ u ∈ S.adj v, cc.labels.getD u 0 ≠ rid)) ∧
      (∀ v, v ∈ exit_states cc rid ↔
        (v < S.size_V ∧ cc.labels.getD v 0 ≠ rid ∧
          ∃ u ∈ S.adj v, cc.labels.getD u 0 = rid)) := by
  obtain ⟨cc, hmk, hgr, -, -, -, hPsz, hPalen, -⟩ := mkCC_spec hS hH hsz hn
  have hPsz2 : cc.prunedGraph.size_V = S.size_V := hPsz
  refine ⟨cc, hmk, hgr, ?_, ?_⟩
  · intro v
    rw [entrance_states, List.mem_filter, get_vertex_indices, List.mem_filter,
      List.mem_range, hPsz2, hgr, filter_not_isEmpty_iff]
    constructor
    · rintro ⟨⟨hv, hlab⟩, u, hu, hune⟩
      exact ⟨hv, by simpa using hlab, u, hu, by simpa using hune⟩
    · rintro ⟨hv, hlab, u, hu, hune⟩
      exact ⟨⟨hv, by simpa using hlab⟩, u, hu, by simpa using hune⟩
  · intro v
    rw [exit_states]
    simp only [List.mem_filter, List.mem_range, hgr, List.any_eq_true,
      decide_eq_true_eq, get_vertex_indices, hPsz2]
    constructor
    · rintro ⟨⟨hv, hnotin⟩, u, hu, hulab⟩
      refine ⟨hv, ?_, u, hu, hulab⟩
      intro hlab
      exact hnotin ⟨hv, hlab⟩
    · rintro ⟨hv, hlab, u, hu, hulab⟩
      exact ⟨⟨hv, fun hmem => hlab hmem.2⟩, u, hu, hulab⟩

/-- Witness for C4: the characterization applied to the concrete path graph
with its two-component partition and region id 0. -/
theorem C4_entrance_exit_unpruned_witness :
    ∃ cc, mkCC forestGraph3 pathGraph3 = some cc ∧ cc.graph = pathGraph3 ∧
      (∀ v, v ∈ entrance_states cc 0 ↔
        (v < pathGraph3.size_V ∧ cc.labels.getD v 0 = 0 ∧
          ∃ u ∈ pathGraph3.adj v, cc.labels.getD u 0 ≠ 0)) ∧
      (∀ v, v ∈ exit_states cc 0 ↔
        (v < pathGraph3.size_V ∧ cc.labels.getD v 0 ≠ 0 ∧
          ∃ u ∈ pathGraph3.adj v, cc.labels.getD u 0 = 0)) :=
  C4_entrance_exit_unpruned (by decide) (by decide) (by decide) (by decide) 0

/-- Reference-level model of the Python object graph, used for the aliasing
claims.  A graph value holds the addresses of its two mutable constituents:
its vertex list (`self.V`) and its adjacency-set list (`self.adjacent`). -/
structure GraphRefs where
  vRef : ℕ
  adjRef : ℕ
  deriving DecidableEq

/-- Allocator state: the next fresh address. -/
structure Alloc where
  next : ℕ
  deriving DecidableEq

/-- Allocate a fresh address. -/
def newRef (a : Alloc) : ℕ × Alloc := (a.next, ⟨a.next + 1⟩)

/-- Reference behavior of `UndirectedGraph.__init__(vertices, edges)`
(src/src/graphs/undirected_graph.py line `self.V = vertices`): the vertex
list is stored WITHOUT copying — the constructed graph references the
caller's list object — while `self.adjacent = [set() for v in self.V]`
allocates a fresh adjacency structure. -/
def initRefs (vertices : ℕ) (a : Alloc) : GraphRefs × Alloc :=
  let (adjRef, a2) := newRef a
  (⟨vertices, adjRef⟩, a2)

/-- Reference behavior of `uniform_spanning_tree`
(src/src/graphs/graph_partition.py, `tree = UndirectedGraph[T](graph.V, [])`):
the tree is constructed directly on the input graph's vertex-list object;
every later statement only calls `tree.add_edge`, which touches the tree's
own adjacency object. -/
def ustRefs (graph : GraphRefs) (a : Alloc) : GraphRefs × Alloc :=
  initRefs graph.vRef a

/-- Reference behavior of `ConnectedComponents.reset_edges`
(src/src/graphs/connected_components.py, `self._graph = deepcopy(graph)`):
the deep copy allocates fresh objects for both the vertex list and the
adjacency sets of the stored pruned graph. -/
def resetEdgesRefs (graph : GraphRefs) (a : Alloc) : GraphRefs × Alloc :=
  let (vRef, a2) := newRef a
  let (adjRef, a3) := newRef a2
  (⟨vRef, adjRef⟩, a3)

/-- Store mapping vertex-list addresses to their current contents. -/
def VStore (α : Type) : Type := ℕ → List α

/-- Write one vertex-list object in the store. -/
def writeStore {α : Type} (s : VStore α) (r : ℕ) (x : List α) : VStore α :=
  fun r2 => if r2 = r then x else s r2

/-- Store effect of `UndirectedGraph.add_vertex(data)`: append to the vertex
list the graph references. -/
def addVertexStore {α : Type} (s : VStore α) (g : GraphRefs) (d : α) :
    VStore α :=
  writeStore s g.vRef (s g.vRef ++ [d])

/-- C9 counterexample: the claim that the graph returned by
`uniform_spanning_tree` shares no mutable state (vertex list or adjacency
sets) with the input graph is false — at the concrete input graph with
vertex-list address 0, the returned tree references the SAME vertex-list
object, so appending a vertex through the tree changes what the input graph
reads as its vertex list. -/
theorem C9_ust_aliases_vertex_list :
    ((ustRefs ⟨0, 1⟩ ⟨2⟩).1.vRef = (GraphRefs.mk 0 1).vRef) ∧
    (addVertexStore (fun _ => ([7] : List ℕ)) (ustRefs ⟨0, 1⟩ ⟨2⟩).1 9)
        (GraphRefs.mk 0 1).vRef ≠
      (fun _ => ([7] : List ℕ)) (GraphRefs.mk 0 1).vRef := by
  constructor
  · rfl
  · intro h
    have := congrArg List.length h
    simp [addVertexStore, writeStore, ustRefs, initRefs, newRef] at this

/-- C9 amended: the `ConnectedComponents` copy is fully private — its deep
copy references fresh objects, so mutations through the caller's graph are
invisible to it — and the spanning tree allocates a fresh adjacency
structure; but the spanning tree's vertex list aliases the input's vertex
list, so vertex-list mutations made through either graph are visible to
both. -/
theorem C9_amended_ownership (g : GraphRefs) (a : Alloc)
    (hv : g.vRef < a.next) (hadj : g.adjRef < a.next) :
    ((resetEdgesRefs g a).1.vRef ≠ g.vRef ∧
      (resetEdgesRefs g a).1.adjRef ≠ g.adjRef ∧
      ∀ (s : VStore ℕ) (d : ℕ),
        addVertexStore s g d ((resetEdgesRefs g a).1.vRef) =
          s ((resetEdgesRefs g a).1.vRef)) ∧
    ((ustRefs g a).1.adjRef ≠ g.adjRef ∧
      (ustRefs g a).1.vRef = g.vRef) := by
  refine ⟨⟨?_, ?_, ?_⟩, ?_, rfl⟩
  · show a.next ≠ g.vRef
    omega
  · show a.next + 1 ≠ g.adjRef
    omega
  · intro s d
    show writeStore s g.vRef (s g.vRef ++ [d]) a.next = s a.next
    rw [writeStore, if_neg (by omega)]
  · show a.next ≠ g.adjRef
    omega

/-- Witness for the amended C9 at a concrete graph and allocator. -/
theorem C9_amended_ownership_witness :
    (GraphRefs.vRef ⟨0, 1⟩ < Alloc.next ⟨2⟩ ∧
      GraphRefs.adjRef ⟨0, 1⟩ < Alloc.next ⟨2⟩) ∧
    (((resetEdgesRefs ⟨0, 1⟩ ⟨2⟩).1.vRef ≠ (GraphRefs.mk 0 1).vRef ∧
      (resetEdgesRefs ⟨0, 1⟩ ⟨2⟩).1.adjRef ≠ (GraphRefs.mk 0 1).adjRef ∧
      ∀ (s : VStore ℕ) (d : ℕ),
        addVertexStore s ⟨0, 1⟩ d ((resetEdgesRefs ⟨0, 1⟩ ⟨2⟩).1.vRef) =
          s ((resetEdgesRefs ⟨0, 1⟩ ⟨2⟩).1.vRef)) ∧
    ((ustRefs ⟨0, 1⟩ ⟨2⟩).1.adjRef ≠ (GraphRefs.mk 0 1).adjRef ∧
      (ustRefs ⟨0, 1⟩ ⟨2⟩).1.vRef = (GraphRefs.mk 0 1).vRef)) :=
  ⟨⟨by decide, by decide⟩,
    C9_amended_ownership ⟨0, 1⟩ ⟨2⟩ (by decide) (by decide)⟩

/-! ### A* search (src/src/optimal_behaviors/abstract_a_star.py) -/

/-- `Node` from abstract_a_star.py: stores a state, the previous node during
search (`prev`, which is `None` for the initial node), the cost-to-reach `g`
and the estimated total cost `f`.  The Python `prev` field is either `None`
or another node; here that is split into the two constructors `root` and
`child`. Costs are Python floats, embedded as `ℚ`. -/
inductive Node (σ : Type) : Type where
  | root (state : σ) (g f : ℚ)
  | child (state : σ) (prev : Node σ) (g f : ℚ)
  deriving DecidableEq

/-- `self.state`. -/
def Node.state {σ : Type} : Node σ → σ
  | .root s _ _ => s
  | .child s _ _ _ => s

/-- `self.prev` (`none` encodes Python's `None`). -/
def Node.prev {σ : Type} : Node σ → Option (Node σ)
  | .root _ _ _ => none
  | .child _ p _ _ => some p

/-- `self.g`. -/
def Node.g {σ : Type} : Node σ → ℚ
  | .root _ g _ => g
  | .child _ _ g _ => g

/-- `self.f`. -/
def Node.f {σ : Type} : Node σ → ℚ
  | .root _ _ f => f
  | .child _ _ _ f => f

/-- `Node.__init__(state, prev, a_cost, h)`: `prev_g` is 0 when `prev` is
`None` and `prev.g` otherwise; then `g = prev_g + a_cost` and `f = g + h`. -/
def Node.init {σ : Type} (state : σ) (prev : Option (Node σ)) (a_cost hv : ℚ) :
    Node σ :=
  match prev with
  | none => .root state (0 + a_cost) (0 + a_cost + hv)
  | some p => .child state p (p.g + a_cost) (p.g + a_cost + hv)

/-- The state stored at the end of a node's `prev` chain (the node created
with `prev = None`). -/
def Node.rootState {σ : Type} : Node σ → σ
  | .root s _ _ => s
  | .child _ p _ _ => p.rootState

/-- The data behind `AStarPlanner`'s abstract methods, as total functions:
`succs` gives the neighboring states expanded by `unclosed_neighbors`
(in the concrete `FourRoomsPlanner` these are `transition_graph.adjacent[v]`),
`cost s1 s2` is the abstract `cost` method and `h s goals` the abstract
heuristic method. -/
structure AStarPlanner (σ : Type) where
  succs : σ → List σ
  cost : σ → σ → ℚ
  h : σ → List σ → ℚ

/-- `AStarPlanner.backtrack(node)`: follow `prev` pointers, building the
path from the initial state to the node's state. -/
def backtrack {σ : Type} : Node σ → List σ
  | .root s _ _ => [s]
  | .child s p _ _ => backtrack p ++ [s]

/-- `AStarPlanner.state_closed(state)`: whether any node in the closed list
stores the given state. -/
def state_closed {σ : Type} [DecidableEq σ] (closed : List (Node σ))
    (state : σ) : Bool :=
  closed.any (fun node => node.state = state)

/-- `AStarPlanner.push_open_list(n)`: scan the open list for a node with the
same state; if the new node is strictly better (on `f`) the old one is popped
and the new one appended, if it is not better the list is left unchanged,
and if no node shares its state the new node is appended. -/
def push_open_list {σ : Type} [DecidableEq σ] (ol : List (Node σ))
    (n : Node σ) : List (Node σ) :=
  match ol with
  | [] => [n]
  | o :: rest =>
    if o.state = n.state then
      if n.f < o.f then rest ++ [n] else o :: rest
    else o :: push_open_list rest n

/-- `FourRoomsPlanner.unclosed_neighbors(node)` (the one concrete
implementation of the abstract method): keep the neighboring states that are
not closed, and wrap each into a node with `prev = node`, action cost
`cost(node.state, s)` and heuristic `h(s, goals)`. -/
def unclosed_neighbors {σ : Type} [DecidableEq σ] (P : AStarPlanner σ)
    (goals : List σ) (closed : List (Node σ)) (node : Node σ) :
    List (Node σ) :=
  (((P.succs node.state).filter (fun s => !state_closed closed s)).map
    (fun s => Node.init s (some node) (P.cost node.state s) (P.h s goals)))

/-- Insert a node into an `f`-sorted list, after all nodes of strictly
smaller `f` and before the nodes of equal or larger `f`. -/
def insertByF {σ : Type} (n : Node σ) : List (Node σ) → List (Node σ)
  | [] => [n]
  | o :: rest => if n.f ≤ o.f then n :: o :: rest else o :: insertByF n rest

/-- Python's stable `self.open_list.sort(key=lambda node: node.f)`, embedded
as a stable insertion sort: a stable sort by key is uniquely determined, so
this computes exactly what the Python sort produces. -/
def sortByF {σ : Type} : List (Node σ) → List (Node σ)
  | [] => []
  | n :: rest => insertByF n (sortByF rest)

/-- The `while self.open_list` loop of `AStarPlanner.a_star`, with explicit
open/closed lists and a fuel bound (`none` = fuel ran out; every branch of
the Python loop body is total, so the code itself cannot raise).  Each
iteration sorts the open list by `f`, pops the head, returns
`backtrack(curr)` if it stores a goal, and otherwise closes it and pushes
its unclosed neighbors. -/
def aStarLoop {σ : Type} [DecidableEq σ] (P : AStarPlanner σ)
    (goals : List σ) : ℕ → List (Node σ) → List (Node σ) → Option (List σ)
  | 0, _, _ => none
  | fuel + 1, ol, closed =>
    match sortByF ol with
    | [] => some []
    | curr :: rest =>
      if curr.state ∈ goals then some (backtrack curr)
      else
        aStarLoop P goals fuel
          (List.foldl push_open_list rest
            (unclosed_neighbors P goals (closed ++ [curr]) curr))
          (closed ++ [curr])

/-- Companion to `aStarLoop` recording how the loop ended: `true` when the
open list emptied without any popped node storing a goal (the Python
`return []` after the `while`), `false` when a goal was popped. -/
def aStarExhausts {σ : Type} [DecidableEq σ] (P : AStarPlanner σ)
    (goals : List σ) : ℕ → List (Node σ) → List (Node σ) → Bool
  | 0, _, _ => false
  | fuel + 1, ol, closed =>
    match sortByF ol with
    | [] => true
    | curr :: rest =>
      if curr.state ∈ goals then false
      else
        aStarExhausts P goals fuel
          (List.foldl push_open_list rest
            (unclosed_neighbors P goals (closed ++ [curr]) curr))
          (closed ++ [curr])

/-- `AStarPlanner.a_star(s0, goals)`: after `reset` the open list is the
single root node for `s0` (with `a_cost = 0` and heuristic `h(s0, goals)`)
and the closed list is empty. -/
def a_star {σ : Type} [DecidableEq σ] (P : AStarPlanner σ) (s0 : σ)
    (goals : List σ) (fuel : ℕ) : Option (List σ) :=
  aStarLoop P goals fuel [Node.init s0 none 0 (P.h s0 goals)] []

/-- Whether the `a_star` run exhausted its open list without finding a goal. -/
def a_star_exhausts {σ : Type} [DecidableEq σ] (P : AStarPlanner σ) (s0 : σ)
    (goals : List σ) (fuel : ℕ) : Bool :=
  aStarExhausts P goals fuel [Node.init s0 none 0 (P.h s0 goals)] []

/-- `backtrack` never returns an empty path. -/
theorem backtrack_ne_nil {σ : Type} (n : Node σ) : backtrack n ≠ [] := by
  cases n with
  | root s g f => simp [backtrack]
  | child s p g f => simp [backtrack]

/-- The path built by `backtrack` starts at the root state of the chain. -/
theorem backtrack_head {σ : Type} (n : Node σ) :
    (backtrack n).head? = some n.rootState := by
  induction n with
  | root s g f => rfl
  | child s p g f ih =>
    show (backtrack p ++ [s]).head? = some p.rootState
    cases hbp : backtrack p with
    | nil => exact absurd hbp (backtrack_ne_nil p)
    | cons a t =>
      rw [hbp] at ih
      simpa using ih

/-- The path built by `backtrack` ends at the node's own state. -/
theorem backtrack_getLast {σ : Type} (n : Node σ) :
    (backtrack n).getLast? = some n.state := by
  cases n with
  | root s g f => rfl
  | child s p g f =>
    show (backtrack p ++ [s]).getLast? = some s
    simp

/-- A node created with a `prev` pointer inherits that node's root state. -/
theorem rootState_init {σ : Type} (s : σ) (p : Node σ) (c hv : ℚ) :
    (Node.init s (some p) c hv).rootState = p.rootState := rfl

/-- Members of `push_open_list ol n` come from `ol` or are `n` itself. -/
theorem mem_push_open_list {σ : Type} [DecidableEq σ] (ol : List (Node σ))
    (n m : Node σ) (hm : m ∈ push_open_list ol n) : m ∈ ol ∨ m = n := by
  induction ol with
  | nil =>
    simp [push_open_list] at hm
    exact Or.inr hm
  | cons o rest ih =>
    rw [push_open_list] at hm
    by_cases hs : o.state = n.state
    · rw [if_pos hs] at hm
      by_cases hf : n.f < o.f
      · rw [if_pos hf] at hm
        rcases List.mem_append.1 hm with h1 | h1
        · exact Or.inl (List.mem_cons_of_mem o h1)
        · exact Or.inr (List.mem_singleton.1 h1)
      · rw [if_neg hf] at hm
        exact Or.inl hm
    · rw [if_neg hs] at hm
      rcases List.mem_cons.1 hm with h1 | h1
      · exact Or.inl (h1 ▸ List.mem_cons_self o rest)
      · rcases ih h1 with h2 | h2
        · exact Or.inl (List.mem_cons_of_mem o h2)
        · exact Or.inr h2

/-- Members of the fold pushing a batch of nodes come from the initial open
list or from the batch. -/
theorem mem_foldl_push {σ : Type} [DecidableEq σ] (ns : List (Node σ)) :
    ∀ (ol : List (Node σ)) (m : Node σ),
      m ∈ List.foldl push_open_list ol ns → m ∈ ol ∨ m ∈ ns := by
  induction ns with
  | nil =>
    intro ol m hm
    exact Or.inl hm
  | cons n rest ih =>
    intro ol m hm
    rw [List.foldl_cons] at hm
    rcases ih (push_open_list ol n) m hm with h1 | h1
    · rcases mem_push_open_list ol n m h1 with h2 | h2
      · exact Or.inl h2
      · exact Or.inr (h2 ▸ List.mem_cons_self n rest)
    · exact Or.inr (List.mem_cons_of_mem n h1)

/-- Membership is preserved by the sorted insertion. -/
theorem mem_insertByF {σ : Type} (n m : Node σ) (l : List (Node σ)) :
    m ∈ insertByF n l ↔ m = n ∨ m ∈ l := by
  induction l with
  | nil => simp [insertByF]
  | cons o rest ih =>
    rw [insertByF]
    by_cases hf : n.f ≤ o.f
    · rw [if_pos hf]
      simp [List.mem_cons]
    · rw [if_neg hf]
      simp only [List.mem_cons, ih]
      tauto

/-- Sorting the open list preserves membership. -/
theorem mem_sortByF {σ : Type} (m : Node σ) (l : List (Node σ)) :
    m ∈ sortByF l ↔ m ∈ l := by
  induction l with
  | nil => simp [sortByF]
  | cons n rest ih =>
    rw [sortByF, mem_insertByF, ih, List.mem_cons]

/-- One-step unfolding of `aStarLoop` when the sorted open list is empty. -/
theorem aStarLoop_succ_nil {σ : Type} [DecidableEq σ] (P : AStarPlanner σ)
    (goals : List σ) (fuel : ℕ) (ol closed : List (Node σ))
    (h : sortByF ol = []) :
    aStarLoop P goals (fuel + 1) ol closed = some [] := by
  rw [aStarLoop, h]

/-- One-step unfolding of `aStarLoop` when the sorted open list is
nonempty. -/
theorem aStarLoop_succ_cons {σ : Type} [DecidableEq σ] (P : AStarPlanner σ)
    (goals : List σ) (fuel : ℕ) (ol closed : List (Node σ))
    (curr : Node σ) (rest : List (Node σ)) (h : sortByF ol = curr :: rest) :
    aStarLoop P goals (fuel + 1) ol closed =
      if curr.state ∈ goals then some (backtrack curr)
      else
        aStarLoop P goals fuel
          (List.foldl push_open_list rest
            (unclosed_neighbors P goals (closed ++ [curr]) curr))
          (closed ++ [curr]) := by
  rw [aStarLoop, h]

/-- One-step unfolding of `aStarExhausts` when the sorted open list is
empty. -/
theorem aStarExhausts_succ_nil {σ : Type} [DecidableEq σ]
    (P : AStarPlanner σ) (goals : List σ) (fuel : ℕ)
    (ol closed : List (Node σ)) (h : sortByF ol = []) :
    aStarExhausts P goals (fuel + 1) ol closed = true := by
  rw [aStarExhausts, h]

/-- One-step unfolding of `aStarExhausts` when the sorted open list is
nonempty. -/
theorem aStarExhausts_succ_cons {σ : Type} [DecidableEq σ]
    (P : AStarPlanner σ) (goals : List σ) (fuel : ℕ)
    (ol closed : List (Node σ)) (curr : Node σ) (rest : List (Node σ))
    (h : sortByF ol = curr :: rest) :
    aStarExhausts P goals (fuel + 1) ol closed =
      if curr.state ∈ goals then false
      else
        aStarExhausts P goals fuel
          (List.foldl push_open_list rest
            (unclosed_neighbors P goals (closed ++ [curr]) curr))
          (closed ++ [curr]) := by
  rw [aStarExhausts, h]

/-- Main invariant lemma for the `a_star` loop: provided every node on the
open list has root state `s0`, a terminating run returns `some []` exactly
when it ended by exhausting the open list, and a non-empty returned path
starts at `s0` and ends at a goal state. -/
theorem aStarLoop_spec {σ : Type} [DecidableEq σ] (P : AStarPlanner σ)
    (goals : List σ) (s0 : σ) :
    ∀ (fuel : ℕ) (ol closed : List (Node σ)) (path : List σ),
      (∀ n ∈ ol, Node.rootState n = s0) →
      aStarLoop P goals fuel ol closed = some path →
      (path = [] ↔ aStarExhausts P goals fuel ol closed = true) ∧
      (path ≠ [] →
        path.head? = some s0 ∧ ∃ gl ∈ goals, path.getLast? = some gl) := by
  intro fuel
  induction fuel with
  | zero =>
    intro ol closed path _ hrun
    simp [aStarLoop] at hrun
  | succ fuel ih =>
    intro ol closed path hroot hrun
    cases hsort : sortByF ol with
    | nil =>
      rw [aStarLoop_succ_nil P goals fuel ol closed hsort] at hrun
      rw [aStarExhausts_succ_nil P goals fuel ol closed hsort]
      simp only [Option.some.injEq] at hrun
      subst hrun
      refine ⟨by simp, ?_⟩
      intro hne
      exact absurd rfl hne
    | cons curr rest =>
      rw [aStarLoop_succ_cons P goals fuel ol closed curr rest hsort] at hrun
      rw [aStarExhausts_succ_cons P goals fuel ol closed curr rest hsort]
      have hcurr_mem : curr ∈ ol := by
        refine (mem_sortByF curr ol).1 ?_
        rw [hsort]
        exact List.mem_cons_self curr rest
      by_cases hgoal : curr.state ∈ goals
      · rw [if_pos hgoal] at hrun
        simp only [Option.some.injEq] at hrun
        subst hrun
        rw [if_pos hgoal]
        constructor
        · constructor
          · intro hnil
            exact absurd hnil (backtrack_ne_nil curr)
          · intro hfalse
            exact absurd hfalse (by simp)
        · intro _
          refine ⟨?_, curr.state, hgoal, backtrack_getLast curr⟩
          rw [backtrack_head, hroot curr hcurr_mem]
      · rw [if_neg hgoal] at hrun
        rw [if_neg hgoal]
        refine ih _ _ path ?_ hrun
        intro n hn
        rcases mem_foldl_push _ _ _ hn with h1 | h1
        · refine hroot n ((mem_sortByF n ol).1 ?_)
          rw [hsort]
          exact List.mem_cons_of_mem curr h1
        · rcases List.mem_map.1 h1 with ⟨s, _, hs2⟩
          rw [← hs2, rootState_init]
          exact hroot curr hcurr_mem

/-- C7: for every A* search instance (any successor, cost and heuristic
functions) and every query, a terminating `a_star(s0, goals)` run returns a
value rather than raising, and returns the empty path exactly when the open
list emptied without a popped node reaching a goal; every non-empty returned
path begins at `s0` and ends at a state in `goals`. -/
theorem C7_a_star_empty_iff_exhausted {σ : Type} [DecidableEq σ]
    (P : AStarPlanner σ) (s0 : σ) (goals : List σ) (fuel : ℕ)
    (path : List σ) (hrun : a_star P s0 goals fuel = some path) :
    (path = [] ↔ a_star_exhausts P s0 goals fuel = true) ∧
    (path ≠ [] →
      path.head? = some s0 ∧ ∃ gl ∈ goals, path.getLast? = some gl) := by
  refine aStarLoop_spec P goals s0 fuel _ [] path ?_ hrun
  intro n hn
  rcases List.mem_singleton.1 hn with rfl
  rfl

/-- Concrete A* instance for the C7 witness: the 3-path graph 0–1–2 with
unit action costs and the zero heuristic. -/
def exPlanner : AStarPlanner ℕ where
  succs := fun v => if v = 0 then [1] else if v = 1 then [0, 2] else [1]
  cost := fun _ _ => 1
  h := fun _ _ => 0

/-- Witness for C7 at a concrete search instance. -/
theorem C7_a_star_empty_iff_exhausted_witness :
    a_star exPlanner 0 [2] 5 = some [0, 1, 2] ∧
    ((([0, 1, 2] : List ℕ) = [] ↔ a_star_exhausts exPlanner 0 [2] 5 = true) ∧
      (([0, 1, 2] : List ℕ) ≠ [] →
        ([0, 1, 2] : List ℕ).head? = some 0 ∧
          ∃ gl ∈ ([2] : List ℕ), ([0, 1, 2] : List ℕ).getLast? = some gl)) :=
  ⟨by decide, C7_a_star_empty_iff_exhausted exPlanner 0 [2] 5 [0, 1, 2]
    (by decide)⟩

/-! ### Four Rooms environment (src/src/envs/four_rooms.py) and the
region-based agent's path computations, for the concrete OBH example. -/

/-- The wall layout of `FourRoomsEnv.__init__` as a predicate on (row, col)
indices of the 13x13 grid: the outer border, the center vertical wall
segments in column 6 (rows 0-2, 4-9, 11-12), the left horizontal wall in row
6 (columns 0-1, 3-6) and the right horizontal wall in row 7 (columns 6-8,
10-12).  Callers only ever index rows/columns 0-12. -/
def walls_rc (r c : ℤ) : Bool :=
  decide (r = 0 ∨ r = 12 ∨ c = 0 ∨ c = 12 ∨
    (c = 6 ∧ (r ≤ 2 ∨ (4 ≤ r ∧ r ≤ 9) ∨ 11 ≤ r)) ∨
    (r = 6 ∧ (c ≤ 1 ∨ (3 ≤ c ∧ c ≤ 6))) ∨
    (r = 7 ∧ ((6 ≤ c ∧ c ≤ 8) ∨ 10 ≤ c)))

/-- `FourRoomsEnv.wall_collision`: convert (x,y) to (row, col) with
`row = size - 1 - y`, `col = x` (`xy_to_rc`) and look up the wall array. -/
def wall_collision (x y : ℤ) : Bool :=
  walls_rc (13 - 1 - y) x

/-- `FourRoomsEnv.valid_xy`: inside bounds 1..11 on both coordinates and not
colliding with a wall. -/
def valid_xy (x y : ℤ) : Bool :=
  decide ((1 ≤ x ∧ x ≤ 11) ∧ (1 ≤ y ∧ y ≤ 11)) && !wall_collision x y

/-- `FourRoomsEnv._action_to_direction_xy`: the nine (x,y) movements indexed
by action 0-8 (Right, Up-Right, Up, Up-Left, Left, Down-Left, Down,
Down-Right, No-op). -/
def action_to_direction_xy : List (ℤ × ℤ) :=
  [(1, 0), (1, 1), (0, 1), (-1, 1), (-1, 0), (-1, -1), (0, -1), (1, -1),
    (0, 0)]

/-- `FourRoomsEnv.transition`: apply the movement for the action index
(a `KeyError` on an unknown index is `none`); move only when the new
location is valid. -/
def transition (p : ℤ × ℤ) (action_idx : ℕ) : Option (ℤ × ℤ) := do
  let d ← action_to_direction_xy[action_idx]?
  let q := (p.1 + d.1, p.2 + d.2)
  pure (if valid_xy q.1 q.2 then q else p)

/-- The candidate agent locations of `get_transition_graph`: `(x, y)` for
`x` in 1..11 (outer loop) and `y` in 1..11 (inner loop), filtered by
`valid_xy`. -/
def fourRoomsVertices : List (ℤ × ℤ) :=
  ((List.range' 1 11).flatMap (fun x =>
    (List.range' 1 11).map (fun y => ((x : ℤ), (y : ℤ))))).filter
    (fun p => valid_xy p.1 p.2)

/-- The `vertex_dict` lookup of `get_transition_graph`: index of an (x,y)
location in the vertex list (`KeyError` on absence is `none`). -/
def vertexIdx (vs : List (ℤ × ℤ)) (p : ℤ × ℤ) : Option ℕ :=
  match vs with
  | [] => none
  | q :: rest =>
    if q = p then some 0
    else do
      let i ← vertexIdx rest p
      pure (i + 1)

/-- Embedding of `get_transition_graph`
(src/src/graphs/state_transition_graph.py): build the graph on all valid
agent locations, then for every location and every action add an edge to the
transitioned location whenever it differs. -/
def get_transition_graph : Option (UGraph (ℤ × ℤ)) := do
  let vs := fourRoomsVertices
  let g0 ← UGraph.init vs []
  vs.foldlM (fun g p => do
    let vi ← vertexIdx vs p
    (List.range 9).foldlM (fun g2 aIdx => do
      let q ← transition p aIdx
      if q ≠ p then do
        let vj ← vertexIdx vs q
        let (g3, _) ← g2.add_edge (vi, vj)
        pure g3
      else pure g2) g) g0

/-- Embedding of `create_example_regions`
(src/src/envs/example_regions.py): label every vertex of the transition
graph by the four OBH regions (`x<6 ∧ y≤6`, `x≥6 ∧ y≤5`, `x≤6 ∧ y>6`,
`x>6 ∧ y>5`; a vertex matching none would fail the final assert, `none`
here).  The Python code obtains the object from `decompose(4, graph, rng)`
and then overwrites all labels; downstream code reads only the labels, the
component count 4, the unpruned `graph` and the pruned graph's vertex count
(which pruning preserves), so the randomly pruned graph is represented by
the transition graph itself. -/
def create_example_regions (g : UGraph (ℤ × ℤ)) : Option (CC (ℤ × ℤ)) := do
  let labels ← g.V.mapM (fun p =>
    if p.1 < 6 ∧ p.2 ≤ 6 then some (0 : ℤ)
    else if p.1 ≥ 6 ∧ p.2 ≤ 5 then some 1
    else if p.1 ≤ 6 ∧ p.2 > 6 then some 2
    else if p.1 > 6 ∧ p.2 > 5 then some 3
    else none)
  pure ⟨4, labels, g, g⟩

/-- The `while curr_idx < len(path)` loop of `RegionBasedAgent.find_subgoals`
over the path paired with each state's region label: from the current state,
scan forward for the first state in a different region; if found, every
state before it gets that state as its subgoal and the scan restarts there;
otherwise all remaining states keep subgoal -1 and the loop ends.  The fuel
argument bounds the number of restarts; each restart consumes at least one
path element, so fuel = path length (what `find_subgoals` passes) can never
run out. -/
def fsLoop : ℕ → List (ℕ × ℤ) → List ℤ
  | _, [] => []
  | 0, _ :: _ => []
  | fuel + 1, (_, r) :: rest =>
    match rest.dropWhile (fun p => decide (p.2 = r)) with
    | [] =>
      List.replicate (1 + (rest.takeWhile (fun p => decide (p.2 = r))).length)
        (-1)
    | (s2, r2) :: post2 =>
      List.replicate (1 + (rest.takeWhile (fun p => decide (p.2 = r))).length)
        ((s2 : ℤ)) ++ fsLoop fuel ((s2, r2) :: post2)

/-- Embedding of `RegionBasedAgent.find_subgoals`: asserts the path is
nonempty, reads each path state's region label (`IndexError` is `none`) and
runs the subgoal-assignment loop. -/
def find_subgoals {α : Type} (a : Agent α) (path : List ℕ) :
    Option (List ℤ) := do
  if path.isEmpty then none
  else do
    let prs ← path.mapM (fun v => do
      let r ← a.regions.labels[v]?
      pure (v, r))
    pure (fsLoop path.length prs)

/-- One iteration (`idx`, over `path[:-1]`) of the
`RegionBasedAgent.possible_actions` loop, threading the possibilities array
and the agent (whose options' `constrained` arrays the Python code mutates
in place).  The task policy is constrained on the first state, when there is
no subgoal, or right after an option terminates; the option policy is
constrained when a subgoal is active and its option's `constrained` flag for
the state is still clear (and that flag is then set).  Constrained policies
multiply the state's entry by the out-degree in the unpruned region graph,
plus — for the task policy at the first state or at a region entrance — the
number of options of the region. -/
def paStep {α : Type} (path : List ℕ) (subgoals : List ℤ)
    (acc : List ℤ × Agent α) (idx : ℕ) : Option (List ℤ × Agent α) := do
  let (possibilities, a) := acc
  let curr_state ← path[idx]?
  let curr_subgoal ← subgoals[idx]?
  let curr_region ← a.regions.labels[curr_state]?
  let first_state := decide (idx = 0)
  let no_subgoal := decide (curr_subgoal = -1)
  let option_just_terminated ←
    if idx = 0 then pure false
    else do
      let prev ← subgoals[idx - 1]?
      pure (decide (curr_subgoal ≠ prev))
  let constrain_pi_t := first_state || no_subgoal || option_just_terminated
  let step2 ←
    if curr_subgoal ≠ -1 then do
      let region_options ← a.options[curr_region.toNat]?
      let o_sg := region_options.filter (fun o => (o.subgoal : ℤ) = curr_subgoal)
      if o_sg.length = 1 then do
        let relevant ← o_sg[0]?
        let cflag ← relevant.constrained[curr_state]?
        if cflag then pure (false, a)
        else do
          let newRegion := region_options.map (fun o =>
            if (o.subgoal : ℤ) = curr_subgoal then
              { o with constrained := o.constrained.set curr_state true }
            else o)
          pure (true, { a with options := a.options.set curr_region.toNat newRegion })
      else none
    else pure (false, a)
  let constrain_pi_o := step2.1
  let a2 := step2.2
  if !constrain_pi_t && !constrain_pi_o then pure (possibilities, a2)
  else do
    let adjRow ← a2.regions.graph.adjacent[curr_state]?
    let degree := adjRow.length
    let p1 ←
      if constrain_pi_t then do
        let region_opts ← a2.options[curr_region.toNat]?
        let entr ← a2.region_entrances[curr_region.toNat]?
        let available :=
          if first_state || decide (curr_state ∈ entr) then region_opts.length
          else 0
        let old ← possibilities[idx]?
        pure (possibilities.set idx (old * (degree + available)))
      else pure possibilities
    let p2 ←
      if constrain_pi_o then do
        let old ← p1[idx]?
        pure (p1.set idx (old * degree))
      else pure p1
    pure (p2, a2)

/-- Embedding of `RegionBasedAgent.possible_actions`: compute the subgoals,
start every entry of the possibilities array at 1, and run the per-state
loop; returns the array together with the updated agent (the Python method
mutates the options' `constrained` arrays across calls). -/
def possible_actions {α : Type} (a : Agent α) (path : List ℕ) :
    Option (List ℤ × Agent α) := do
  let subgoals ← find_subgoals a path
  (List.range (path.length - 1)).foldlM (paStep path subgoals)
    (List.replicate (path.length - 1) (1 : ℤ), a)

/-- The agent of the OBH example test: transition graph of the 13x13 Four
Rooms environment, example regions, and the region-based agent built from
them (the test's two-argument `RegionBasedAgent(state_space, regions)`). -/
def exampleAgent : Option (Agent (ℤ × ℤ)) := do
  let g ← get_transition_graph
  let regions ← create_example_regions g
  pure (mkAgent g regions)

/-- The Four Rooms transition graph's vertex list, evaluated once and
recorded literally (see `get_transition_graph_eval`). -/
def fourRoomsV : List (ℤ × ℤ) :=
  [(1, 1), (1, 2), (1, 3), (1, 4), (1, 5), (1, 7), (1, 8), (1, 9), (1, 10),
  (1, 11), (2, 1), (2, 2), (2, 3), (2, 4), (2, 5), (2, 6), (2, 7), (2, 8),
  (2, 9), (2, 10), (2, 11), (3, 1), (3, 2), (3, 3), (3, 4), (3, 5), (3, 7),
  (3, 8), (3, 9), (3, 10), (3, 11), (4, 1), (4, 2), (4, 3), (4, 4), (4, 5),
  (4, 7), (4, 8), (4, 9), (4, 10), (4, 11), (5, 1), (5, 2), (5, 3), (5, 4),
  (5, 5), (5, 7), (5, 8), (5, 9), (5, 10), (5, 11), (6, 2), (6, 9), (7, 1),
  (7, 2), (7, 3), (7, 4), (7, 6), (7, 7), (7, 8), (7, 9), (7, 10), (7, 11),
  (8, 1), (8, 2), (8, 3), (8, 4), (8, 6), (8, 7), (8, 8), (8, 9), (8, 10),
  (8, 11), (9, 1), (9, 2), (9, 3), (9, 4), (9, 5), (9, 6), (9, 7), (9, 8),
  (9, 9), (9, 10), (9, 11), (10, 1), (10, 2), (10, 3), (10, 4), (10, 6),
  (10, 7), (10, 8), (10, 9), (10, 10), (10, 11), (11, 1), (11, 2), (11, 3),
  (11, 4), (11, 6), (11, 7), (11, 8), (11, 9), (11, 10), (11, 11)]

/-- The Four Rooms transition graph's adjacency sets, evaluated once and
recorded literally (see `get_transition_graph_eval`). -/
def fourRoomsAdj : List (List ℕ) :=
  [[10, 11, 1], [0, 11, 12, 2, 10], [1, 12, 13, 3, 11], [2, 13, 14, 4, 12],
  [3, 14, 15, 13], [16, 17, 6, 15], [5, 17, 18, 7, 16], [6, 18, 19, 8, 17],
  [7, 19, 20, 9, 18], [8, 20, 19], [0, 1, 21, 22, 11], [0, 1, 2, 10, 22, 23,
  12, 21], [1, 2, 3, 11, 23, 24, 13, 22], [2, 3, 4, 12, 24, 25, 14, 23], [3,
  4, 13, 25, 15, 24], [4, 5, 14, 26, 16, 25], [5, 6, 15, 26, 27, 17], [5, 6,
  7, 16, 27, 28, 18, 26], [6, 7, 8, 17, 28, 29, 19, 27], [7, 8, 9, 18, 29,
  30, 20, 28], [8, 9, 19, 30, 29], [10, 11, 31, 32, 22], [10, 11, 12, 21,
  32, 33, 23, 31], [11, 12, 13, 22, 33, 34, 24, 32], [12, 13, 14, 23, 34,
  35, 25, 33], [13, 14, 15, 24, 35, 34], [15, 16, 17, 36, 37, 27], [16, 17,
  18, 26, 37, 38, 28, 36], [17, 18, 19, 27, 38, 39, 29, 37], [18, 19, 20,
  28, 39, 40, 30, 38], [19, 20, 29, 40, 39], [21, 22, 41, 42, 32], [21, 22,
  23, 31, 42, 43, 33, 41], [22, 23, 24, 32, 43, 44, 34, 42], [23, 24, 25,
  33, 44, 45, 35, 43], [24, 25, 34, 45, 44], [26, 27, 46, 47, 37], [26, 27,
  28, 36, 47, 48, 38, 46], [27, 28, 29, 37, 48, 49, 39, 47], [28, 29, 30,
  38, 49, 50, 40, 48], [29, 30, 39, 50, 49], [31, 32, 51, 42], [31, 32, 33,
  41, 51, 43], [32, 33, 34, 42, 44, 51], [33, 34, 35, 43, 45], [34, 35, 44],
  [36, 37, 47], [36, 37, 38, 46, 52, 48], [37, 38, 39, 47, 52, 49], [38, 39,
  40, 48, 50, 52], [39, 40, 49], [41, 42, 43, 54, 55, 53], [47, 48, 49, 60,
  61, 59], [51, 63, 64, 54], [51, 53, 64, 65, 55, 63], [51, 54, 65, 66, 56,
  64], [55, 66, 65], [67, 68, 58], [57, 68, 69, 59, 67], [52, 58, 69, 70,
  60, 68], [52, 59, 70, 71, 61, 69], [52, 60, 71, 72, 62, 70], [61, 72, 71],
  [53, 54, 73, 74, 64], [53, 54, 55, 63, 74, 75, 65, 73], [54, 55, 56, 64,
  75, 76, 66, 74], [55, 56, 65, 76, 77, 75], [57, 58, 78, 79, 68, 77], [57,
  58, 59, 67, 79, 80, 69, 78], [58, 59, 60, 68, 80, 81, 70, 79], [59, 60,
  61, 69, 81, 82, 71, 80], [60, 61, 62, 70, 82, 83, 72, 81], [61, 62, 71,
  83, 82], [63, 64, 84, 85, 74], [63, 64, 65, 73, 85, 86, 75, 84], [64, 65,
  66, 74, 86, 87, 76, 85], [65, 66, 75, 87, 77, 86], [66, 67, 76, 88, 78,
  87], [67, 68, 77, 88, 89, 79], [67, 68, 69, 78, 89, 90, 80, 88], [68, 69,
  70, 79, 90, 91, 81, 89], [69, 70, 71, 80, 91, 92, 82, 90], [70, 71, 72,
  81, 92, 93, 83, 91], [71, 72, 82, 93, 92], [73, 74, 94, 95, 85], [73, 74,
  75, 84, 95, 96, 86, 94], [74, 75, 76, 85, 96, 97, 87, 95], [75, 76, 77,
  86, 97, 96], [77, 78, 79, 98, 99, 89], [78, 79, 80, 88, 99, 100, 90, 98],
  [79, 80, 81, 89, 100, 101, 91, 99], [80, 81, 82, 90, 101, 102, 92, 100],
  [81, 82, 83, 91, 102, 103, 93, 101], [82, 83, 92, 103, 102], [84, 85, 95],
  [84, 85, 86, 94, 96], [85, 86, 87, 95, 97], [86, 87, 96], [88, 89, 99],
  [88, 89, 90, 98, 100], [89, 90, 91, 99, 101], [90, 91, 92, 100, 102], [91,
  92, 93, 101, 103], [92, 93, 102]]

/-- The example region label of each transition-graph vertex, evaluated once
and recorded literally (see `create_example_regions_eval`). -/
def exampleLabels : List ℤ :=
  [0, 0, 0, 0, 0, 2, 2, 2, 2, 2, 0, 0, 0, 0, 0, 0, 2, 2, 2, 2, 2, 0, 0, 0,
  0, 0, 2, 2, 2, 2, 2, 0, 0, 0, 0, 0, 2, 2, 2, 2, 2, 0, 0, 0, 0, 0, 2, 2, 2,
  2, 2, 1, 2, 1, 1, 1, 1, 3, 3, 3, 3, 3, 3, 1, 1, 1, 1, 3, 3, 3, 3, 3, 3, 1,
  1, 1, 1, 1, 3, 3, 3, 3, 3, 3, 1, 1, 1, 1, 3, 3, 3, 3, 3, 3, 1, 1, 1, 1, 3,
  3, 3, 3, 3, 3]


/-- The Four Rooms transition graph as a literal value. -/
def fourRoomsGraph : UGraph (ℤ × ℤ) :=
  { V := fourRoomsV, adjacent := fourRoomsAdj, size_V := 104, size_E := 624 }

/-- The example regions object as a literal value. -/
def exampleCC : CC (ℤ × ℤ) :=
  ⟨4, exampleLabels, fourRoomsGraph, fourRoomsGraph⟩

set_option maxRecDepth 8000 in
set_option maxHeartbeats 4000000 in
/-- `get_transition_graph` computes exactly the recorded literal graph. -/
theorem get_transition_graph_eval :
    get_transition_graph = some fourRoomsGraph := by decide

set_option maxRecDepth 8000 in
set_option maxHeartbeats 4000000 in
/-- `create_example_regions` on the transition graph computes exactly the
recorded literal labels. -/
theorem create_example_regions_eval :
    create_example_regions fourRoomsGraph = some exampleCC := by decide

/-- The two `possible_actions` queries of the OBH example test, run in
sequence on the example agent (the second call sees the `constrained` flags
the first call set). -/
def examplePaths : Option (List ℤ × List ℤ) := do
  let a ← exampleAgent
  let (first, a2) ← possible_actions a [38, 48, 52, 60, 70, 81]
  let (second, _) ← possible_actions a2 [49, 48, 52, 60]
  pure (first, second)

set_option maxRecDepth 8000 in
set_option maxHeartbeats 4000000 in
/-- C3: the claim (and the repository's own test) expects `possible_actions`
on the path [38, 48, 52, 60, 70, 81] to return [24, 4, 2, 6, 4] and then
[15, 1, 1] on [49, 48, 52, 60]; the code actually returns [96, 6, 6, 8, 8]
and [60, 1, 1].  The expected values arise from 4-connected movement
(e.g. 24 = (4 + 2) * 4: degree 4 of vertex 38 plus the 2 exits region 2 has
without diagonal adjacency, times degree 4 again for the option policy),
but the environment's 9-action space includes the four diagonal moves, so
vertex 38 has degree 8, region 2 has 4 exits, and the first entry is
(8 + 4) * 8 = 96. -/
theorem C3_example_possible_actions_diverge :
    examplePaths = some ([96, 6, 6, 8, 8], [60, 1, 1]) ∧
    examplePaths ≠ some ([24, 4, 2, 6, 4], [15, 1, 1]) := by
  have h1 : exampleAgent = some (mkAgent fourRoomsGraph exampleCC) := by
    rw [exampleAgent, get_transition_graph_eval, Option.bind_eq_bind,
      Option.some_bind, create_example_regions_eval, Option.bind_eq_bind,
      Option.some_bind]
    rfl
  have h : examplePaths = some ([96, 6, 6, 8, 8], [60, 1, 1]) := by
    rw [examplePaths, h1, Option.bind_eq_bind, Option.some_bind]
    decide
  exact ⟨h, by rw [h]; decide⟩

/-! ### Wilson's algorithm (src/src/graphs/graph_partition.py) -/

/-- Model of `np.random.Generator`: a stream of naturals consumed one draw at
a time (`integers(k)` reduces the draw modulo `k`), plus the permutation the
generator would return for each size.  Nothing below assumes `permOf n` is
actually a permutation. -/
structure Rng where
  stream : ℕ → ℕ
  pos : ℕ
  permOf : ℕ → List ℕ

/-- Consume one draw. -/
def Rng.advance (r : Rng) : Rng :=
  { r with pos := r.pos + 1 }

/-- `rng.integers(k)`: uniform in `[0, k)`; `k = 0` raises (`none`). -/
def rngInt (r : Rng) (k : ℕ) : Option (ℕ × Rng) :=
  if k = 0 then none else some (r.stream r.pos % k, r.advance)

/-- `rng.permutation(n)`, consuming one draw. -/
def Rng.permutation (r : Rng) (n : ℕ) : List ℕ × Rng :=
  (r.permOf n, r.advance)

/-- Embedding of `UndirectedGraph.random_neighbor`: index uniformly into the
neighbor list of `u` (an empty neighbor list raises, `none`). -/
def random_neighbor {α : Type} (g : UGraph α) (u : ℕ) (r : Rng) :
    Option (ℕ × Rng) := do
  let ns ← g.adjacent[u]?
  let (idx, r2) ← rngInt r ns.length
  let nb ← ns[idx]?
  pure (nb, r2)

/-- The random-walk loop of `uniform_spanning_tree`
(`while not in_tree[u]: next_v[u] = graph.random_neighbor(u, rng);
u = next_v[u]`), with fuel for the unbounded walk. -/
def walkLoop {α : Type} (g : UGraph α) :
    ℕ → List Bool → List ℤ → ℕ → Rng → Option (List ℤ × Rng)
  | 0, _, _, _, _ => none
  | fuel + 1, in_tree, nv, u, r => do
    let b ← in_tree[u]?
    if b then pure (nv, r)
    else do
      let (nb, r2) ← random_neighbor g u r
      walkLoop g fuel in_tree (nv.set u (Int.ofNat nb)) nb r2

/-- The retrace loop of `uniform_spanning_tree`
(`while not in_tree[u]: add_edge((u, next_v[u])); assert edges_added == 2;
in_tree[u] = True; u = next_v[u]`).  A negative `next_v[u]` fails
`add_edge`'s index assert, and `edges_added ≠ 2` fails the sanity assert. -/
def retraceLoop {α : Type} :
    ℕ → UGraph α → List Bool → List ℤ → ℕ → Option (UGraph α × List Bool)
  | 0, _, _, _, _ => none
  | fuel + 1, tree, in_tree, nv, u => do
    let b ← in_tree[u]?
    if b then pure (tree, in_tree)
    else do
      let nvu ← nv[u]?
      if nvu < 0 then none
      else do
        let (tree2, added) ← tree.add_edge (u, nvu.toNat)
        if added = 2 then
          retraceLoop fuel tree2 (in_tree.set u true) nv nvu.toNat
        else none

/-- The `for i in rng.permutation(...)` loop of `uniform_spanning_tree`:
walk from `i` back to the tree, retrace the walk into the tree, and break
early once every vertex is in the tree. -/
def ustLoop {α : Type} (g : UGraph α) (fuel : ℕ) :
    UGraph α → List Bool → List ℤ → List ℕ → Rng →
    Option (UGraph α × List Bool × Rng)
  | tree, in_tree, _, [], r => some (tree, in_tree, r)
  | tree, in_tree, nv, i :: rest, r => do
    let (nv2, r2) ← walkLoop g fuel in_tree nv i r
    let (tree2, in2) ← retraceLoop fuel tree in_tree nv2 i
    if in2.all (fun b => b) then some (tree2, in2, r2)
    else ustLoop g fuel tree2 in2 nv2 rest r2

/-- Embedding of `uniform_spanning_tree`: start from an edgeless graph on the
same vertex list, sample a root and mark it, run Wilson's loop over the
sampled permutation, and check the final `assert np.all(in_tree)`. -/
def uniform_spanning_tree {α : Type} (g : UGraph α) (r : Rng) (fuel : ℕ) :
    Option (UGraph α × Rng) := do
  let tree ← UGraph.init g.V []
  let (root, r2) ← rngInt r g.size_V
  let in_tree := (List.replicate g.size_V false).set root true
  let nv := List.replicate g.size_V (-1 : ℤ)
  let (perm, r3) := r2.permutation g.size_V
  let (tree2, in2, r4) ← ustLoop g fuel tree in_tree nv perm r3
  if in2.all (fun b => b) then some (tree2, r4) else none

/-- Pointer chains of the `next_v` array: from `u`, following `next_v`
through unmarked vertices reaches a marked vertex in `n` steps.  The marks
`pre` are those in force during the retrace's walk; the chain's height `n`
makes the no-cycle argument available (pointers are deterministic, so the
height is unique). -/
inductive Chain (nv : List ℤ) (pre : List Bool) : ℕ → ℕ → Prop where
  | marked (u : ℕ) : pre[u]? = some true → Chain nv pre 0 u
  | step (n u v : ℕ) : pre[u]? = some false → nv[u]? = some (Int.ofNat v) →
      Chain nv pre n v → Chain nv pre (n + 1) u

/-- Chain heights are unique: `next_v` is a function, so the path from `u`
is determined. -/
theorem Chain_unique {nv : List ℤ} {pre : List Bool} :
    ∀ {n m u}, Chain nv pre n u → Chain nv pre m u → n = m := by
  intro n m u h1
  induction h1 generalizing m with
  | marked u hu =>
    intro h2
    cases h2 with
    | marked _ _ => rfl
    | step n' _ v hu' hnv hch =>
      rw [hu] at hu'
      cases hu'
  | step n u v hu hnv hch ih =>
    intro h2
    cases h2 with
    | marked _ hu' =>
      rw [hu] at hu'
      cases hu'
    | step m' _ v' hu' hnv' hch' =>
      rw [hnv] at hnv'
      have h3 : Int.ofNat v = Int.ofNat v' := by injection hnv'
      have hv : v = v' := Int.ofNat.inj h3
      rw [ih (hv ▸ hch')]

/-- Walk invariant: every vertex written during the walk so far is unmarked
and its `next_v` pointer leads either to the walk's current vertex or to a
later-written (higher-rank) vertex of the set. -/
def WInv (nv : List ℤ) (in_tree : List Bool) (W : List ℕ) (u : ℕ) : Prop :=
  ∃ rank : ℕ → ℕ, ∀ w ∈ W, in_tree[w]? = some false ∧
    ∃ v' : ℕ, nv[w]? = some (Int.ofNat v') ∧
      (v' = u ∨ (v' ∈ W ∧ rank w < rank v'))

/-- Every member of a list of naturals is bounded by its foldr-max. -/
theorem le_foldr_max : ∀ (l : List ℕ), ∀ x ∈ l, x ≤ l.foldr max 0 := by
  intro l
  induction l with
  | nil => intro x hx; simp at hx
  | cons y t ih =>
    intro x hx
    rcases List.mem_cons.mp hx with rfl | hx2
    · exact le_max_left _ _
    · exact le_trans (ih x hx2) (le_max_right _ _)

/-- A filter by a strictly stronger predicate, excluding a witness the weaker
one keeps, is strictly shorter. -/
theorem filter_length_lt {p q : ℕ → Bool} :
    ∀ (l : List ℕ), (∀ x ∈ l, p x = true → q x = true) →
    ∀ v ∈ l, q v = true → p v = false →
    (l.filter p).length < (l.filter q).length := by
  intro l
  induction l with
  | nil => intro _ v hv; simp at hv
  | cons y t ih =>
    intro himp v hv hqv hpv
    have hle : ∀ (t2 : List ℕ), (∀ x ∈ t2, p x = true → q x = true) →
        (t2.filter p).length ≤ (t2.filter q).length := by
      intro t2
      induction t2 with
      | nil => intro _; simp
      | cons z s ihs =>
        intro himp2
        have hs := ihs (fun x hx => himp2 x (List.mem_cons_of_mem z hx))
        by_cases hz : p z = true
        · have hqz := himp2 z (List.mem_cons_self z s) hz
          rw [List.filter_cons_of_pos hz, List.filter_cons_of_pos hqz]
          simpa using hs
        · rw [List.filter_cons_of_neg (by simpa using hz)]
          by_cases hqz : q z = true
          · rw [List.filter_cons_of_pos hqz]
            simp only [List.length_cons]
            omega
          · rw [List.filter_cons_of_neg (by simpa using hqz)]
            exact hs
    rcases List.mem_cons.mp hv with rfl | hv2
    · rw [List.filter_cons_of_neg (by simp [hpv]), List.filter_cons_of_pos hqv]
      have := hle t (fun x hx => himp x (List.mem_cons_of_mem v hx))
      simp only [List.length_cons]
      omega
    · have hstep := ih (fun x hx => himp x (List.mem_cons_of_mem y hx)) v hv2 hqv hpv
      by_cases hy : p y = true
      · have hqy := himp y (List.mem_cons_self y t) hy
        rw [List.filter_cons_of_pos hy, List.filter_cons_of_pos hqy]
        simpa using hstep
      · rw [List.filter_cons_of_neg (by simpa using hy)]
        by_cases hqy : q y = true
        · rw [List.filter_cons_of_pos hqy]
          simp only [List.length_cons]
          omega
        · rw [List.filter_cons_of_neg (by simpa using hqy)]
          exact hstep

/-- From the walk invariant with a marked endpoint, extract a pointer chain
for every tracked vertex: ranks strictly increase along pointers, so the
chase terminates at the endpoint. -/
theorem WInv_chain {nv : List ℤ} {in_tree : List Bool} {W : List ℕ} {uf : ℕ}
    (hW : WInv nv in_tree W uf) (huf : in_tree[uf]? = some true) :
    ∀ w, w ∈ W ∨ w = uf → ∃ n, Chain nv in_tree n w := by
  obtain ⟨rank, hW⟩ := hW
  have main : ∀ (k : ℕ), ∀ w ∈ W,
      (W.filter (fun v => decide (rank w < rank v))).length ≤ k →
      ∃ n, Chain nv in_tree n w := by
    intro k
    induction k with
    | zero =>
      intro w hw hk
      obtain ⟨hunm, v', hptr, hdisj⟩ := hW w hw
      rcases hdisj with rfl | ⟨hvW, hrk⟩
      · exact ⟨1, Chain.step 0 w v' hunm hptr (Chain.marked v' huf)⟩
      · exfalso
        have := filter_length_lt (p := fun x => decide (rank v' < rank x))
          (q := fun x => decide (rank w < rank x)) W
          (by
            intro x _ hpx
            simp only [decide_eq_true_eq] at hpx ⊢
            omega)
          v' hvW (by simpa using hrk) (by simp)
        omega
    | succ k ih =>
      intro w hw hk
      obtain ⟨hunm, v', hptr, hdisj⟩ := hW w hw
      rcases hdisj with rfl | ⟨hvW, hrk⟩
      · exact ⟨1, Chain.step 0 w v' hunm hptr (Chain.marked v' huf)⟩
      · have hlt := filter_length_lt (p := fun x => decide (rank v' < rank x))
          (q := fun x => decide (rank w < rank x)) W
          (by
            intro x _ hpx
            simp only [decide_eq_true_eq] at hpx ⊢
            omega)
          v' hvW (by simpa using hrk) (by simp)
        obtain ⟨n, hch⟩ := ih v' hvW (by omega)
        exact ⟨n + 1, Chain.step n w v' hunm hptr hch⟩
  intro w hw
  rcases hw with hw | rfl
  · exact main _ w hw le_rfl
  · exact ⟨0, Chain.marked w huf⟩

/-- The random walk terminates only at a marked vertex, and its `next_v`
writes satisfy the walk invariant with that endpoint; the tracked set only
grows and contains the start (unless the start itself was the endpoint). -/
theorem walkLoop_spec {α : Type} (g : UGraph α) :
    ∀ (fuel : ℕ) (in_tree : List Bool) (nv : List ℤ) (u : ℕ) (r : Rng)
      (W : List ℕ) (nvf : List ℤ) (rf : Rng),
    walkLoop g fuel in_tree nv u r = some (nvf, rf) →
    nv.length = in_tree.length →
    WInv nv in_tree W u →
    ∃ uf W', in_tree[uf]? = some true ∧ WInv nvf in_tree W' uf ∧
      (∀ w ∈ W, w ∈ W') ∧ (u ∈ W' ∨ u = uf) ∧ nvf.length = nv.length := by
  intro fuel
  induction fuel with
  | zero =>
    intro in_tree nv u r W nvf rf hrun
    simp [walkLoop] at hrun
  | succ fuel ih =>
    intro in_tree nv u r W nvf rf hrun hlen hW
    rw [walkLoop] at hrun
    cases hb : in_tree[u]? with
    | none => rw [hb] at hrun; simp at hrun
    | some b =>
      rw [hb] at hrun
      simp only [Option.bind_eq_bind, Option.some_bind] at hrun
      cases b with
      | true =>
        simp only [if_pos rfl] at hrun
        rcases hrun with ⟨rfl, rfl⟩
        exact ⟨u, W, hb, hW, fun w hw => hw, Or.inr rfl, rfl⟩
      | false =>
        rw [if_neg (by simp)] at hrun
        cases hrn : random_neighbor g u r with
        | none => rw [hrn] at hrun; simp at hrun
        | some p =>
          rw [hrn] at hrun
          simp only [Option.bind_eq_bind, Option.some_bind] at hrun
          obtain ⟨nb, r2⟩ := p
          have hu_lt : u < in_tree.length := (List.getElem?_eq_some_iff.mp hb).1
          have hW2 : WInv (nv.set u (Int.ofNat nb)) in_tree (u :: W) nb := by
            obtain ⟨rank, hWr⟩ := hW
            refine ⟨fun w => if w = u then (W.map rank).foldr max 0 + 1 else rank w,
              ?_⟩
            intro w hw
            by_cases hwu : w = u
            · subst hwu
              refine ⟨hb, nb, ?_, Or.inl rfl⟩
              rw [List.getElem?_set_self (by omega)]
            · have hwW : w ∈ W := by
                rcases List.mem_cons.mp hw with rfl | h2
                · exact absurd rfl hwu
                · exact h2
              obtain ⟨hunm, v', hptr, hdisj⟩ := hWr w hwW
              refine ⟨hunm, v', ?_, ?_⟩
              · rw [List.getElem?_set_ne (fun h => hwu h.symm)]
                exact hptr
              · have hrank_le : rank w ≤ (W.map rank).foldr max 0 :=
                  le_foldr_max _ _ (List.mem_map_of_mem rank hwW)
                rcases hdisj with rfl | ⟨hvW, hrk⟩
                · refine Or.inr ⟨List.mem_cons_self _ _, ?_⟩
                  beta_reduce
                  rw [if_neg hwu, if_pos rfl]
                  omega
                · by_cases hvu : v' = u
                  · subst hvu
                    refine Or.inr ⟨List.mem_cons_self _ _, ?_⟩
                    beta_reduce
                    rw [if_neg hwu, if_pos rfl]
                    omega
                  · refine Or.inr ⟨List.mem_cons_of_mem _ hvW, ?_⟩
                    beta_reduce
                    rw [if_neg hwu, if_neg hvu]
                    exact hrk
          obtain ⟨uf, W', h1, h2, h3, h4, h5⟩ :=
            ih in_tree (nv.set u (Int.ofNat nb)) nb r2 (u :: W) nvf rf hrun
              (by rw [List.length_set]; exact hlen) hW2
          refine ⟨uf, W', h1, h2, ?_, ?_, ?_⟩
          · intro w hw
            exact h3 w (List.mem_cons_of_mem u hw)
          · exact Or.inl (h3 u (List.mem_cons_self u W))
          · rw [h5, List.length_set]

/-- Reachability transfers along pointwise adjacency growth. -/
theorem Reach.mono {α : Type} {g g2 : UGraph α}
    (hadj : ∀ a b, b ∈ g.adj a → b ∈ g2.adj a) {u v : ℕ}
    (h : Reach g u v) : Reach g2 u v := by
  induction h with
  | refl => exact Relation.ReflTransGen.refl
  | @tail b c hr hstep ih =>
    exact Relation.ReflTransGen.tail ih (hadj b c hstep)

/-- A successful `add_edge` that reports two added edges: the graph keeps its
vertex data and vertex count, gains exactly 2 on `size_E`, only grows
adjacency, and now holds the new edge. -/
theorem add_edge_two {α : Type} {g g2 : UGraph α} {i j : ℕ} (hg : WF g)
    (h : g.add_edge (i, j) = some (g2, 2)) :
    WF g2 ∧ g2.V = g.V ∧ g2.size_V = g.size_V ∧ g2.size_E = g.size_E + 2 ∧
      (∀ a b, b ∈ g.adj a → b ∈ g2.adj a) ∧ j ∈ g2.adj i := by
  have hij : i < g.size_V ∧ j < g.size_V := by
    by_contra habs
    rw [UGraph.add_edge] at h
    rw [if_neg habs] at h
    cases h
  obtain ⟨g2', k', heq, hwf, hsv, hV, hadj⟩ := add_edge_spec hg hij.1 hij.2
  rw [heq] at h
  have hpair := Option.some.inj h
  have hgg : g2' = g2 := congrArg Prod.fst hpair
  have hk : k' = 2 := congrArg Prod.snd hpair
  subst hgg
  have hE : g2'.size_E = g.size_E + 2 := by
    rw [UGraph.add_edge, if_pos hij] at heq
    by_cases hpres : j ∈ g.adj i ∧ i ∈ g.adj j
    · rw [if_pos hpres] at heq
      have h0 : 0 = k' := congrArg Prod.snd (Option.some.inj heq)
      omega
    · rw [if_neg hpres] at heq
      have hfst := congrArg Prod.fst (Option.some.inj heq)
      have hsnd : (if i = j then 1 else 2) = k' :=
        congrArg Prod.snd (Option.some.inj heq)
      have hEeq := congrArg UGraph.size_E hfst
      dsimp only at hEeq
      rw [← hEeq]
      omega
  refine ⟨hwf, hV, hsv, hE, ?_, ?_⟩
  · intro a b hb
    exact (hadj a b).mpr (Or.inl hb)
  · exact (hadj i j).mpr (Or.inr (Or.inl ⟨rfl, rfl⟩))

/-- Setting a `false` cell to `true` increments the `true` count. -/
theorem count_true_set_true :
    ∀ (m : List Bool) (u : ℕ), m[u]? = some false →
    (m.set u true).count true = m.count true + 1 := by
  intro m
  induction m with
  | nil => intro u hu; simp at hu
  | cons x t ih =>
    intro u hu
    cases u with
    | zero =>
      simp only [List.getElem?_cons_zero, Option.some.injEq] at hu
      subst hu
      simp [List.count_cons]
    | succ k =>
      simp only [List.getElem?_cons_succ] at hu
      rw [List.set_cons_succ]
      simp only [List.count_cons, ih k hu]
      omega

/-- `true` counts are monotone under pointwise mark implication. -/
theorem count_true_mono :
    ∀ (a b : List Bool), a.length = b.length →
    (∀ w : ℕ, a[w]? = some true → b[w]? = some true) →
    a.count true ≤ b.count true := by
  intro a
  induction a with
  | nil => intro b _ _; simp
  | cons x t ih =>
    intro b hlen h
    cases b with
    | nil => simp at hlen
    | cons y s =>
      have hx : x = true → y = true := by
        intro hx
        have := h 0 (by simp [hx])
        simpa using this
      have ht := ih s (by simpa using hlen) (fun w hw => by
        have := h (w + 1) (by rw [List.getElem?_cons_succ]; exact hw)
        rwa [List.getElem?_cons_succ] at this)
      simp only [List.count_cons]
      by_cases hxx : x = true
      · rw [hxx, hx hxx]
        simpa using ht
      · have hx0 : (if x = true then 1 else 0) = 0 := by simp [hxx]
        simp only [beq_iff_eq]
        omega

/-- Main retrace lemma, by induction on the pointer chain: when the retrace
returns, the tree has only grown, every marked vertex reaches the root, and
the edge count tracks twice the marked count.  The `hnew` hypothesis records
that vertices marked during this retrace sit strictly higher on the chain
than the current position, which (with height uniqueness) rules out the
retrace revisiting its own path. -/
theorem retraceLoop_spec {α : Type} {nv : List ℤ} {pre : List Bool} :
    ∀ {n u}, Chain nv pre n u →
    ∀ (fuel : ℕ) (tree : UGraph α) (cur : List Bool) (root : ℕ)
      (tree2 : UGraph α) (in2 : List Bool),
    retraceLoop fuel tree cur nv u = some (tree2, in2) →
    WF tree →
    cur.length = tree.size_V →
    (∀ w : ℕ, pre[w]? = some true → cur[w]? = some true) →
    (∀ w : ℕ, pre[w]? = some true → Reach tree w root) →
    (∀ w : ℕ, cur[w]? = some true → Reach tree w root ∨ Reach tree w u) →
    (∀ w : ℕ, cur[w]? = some true → pre[w]? = some false →
      ∃ m, n < m ∧ Chain nv pre m w) →
    tree.size_E = 2 * (cur.count true - 1) →
    1 ≤ cur.count true →
    WF tree2 ∧ tree2.V = tree.V ∧ tree2.size_V = tree.size_V ∧
      in2.length = cur.length ∧
      (∀ w : ℕ, cur[w]? = some true → in2[w]? = some true) ∧
      (∀ w : ℕ, in2[w]? = some true → Reach tree2 w root) ∧
      tree2.size_E = 2 * (in2.count true - 1) ∧
      1 ≤ in2.count true := by
  intro n u hch
  induction hch with
  | marked u hu =>
    intro fuel tree cur root tree2 in2 hrun hwf hlen hpre hpre_root hcur hnew
      hcnt hcnt1
    cases fuel with
    | zero => simp [retraceLoop] at hrun
    | succ fuel =>
      rw [retraceLoop] at hrun
      rw [hpre u hu] at hrun
      simp only [Option.bind_eq_bind, Option.some_bind, if_pos rfl] at hrun
      rcases hrun with ⟨rfl, rfl⟩
      refine ⟨hwf, rfl, rfl, rfl, fun w hw => hw, ?_, hcnt, hcnt1⟩
      intro w hw
      rcases hcur w hw with h1 | h1
      · exact h1
      · exact Reach.trans h1 (hpre_root u hu)
  | step n u v hu hnv hchv ih =>
    intro fuel tree cur root tree2 in2 hrun hwf hlen hpre hpre_root hcur hnew
      hcnt hcnt1
    cases fuel with
    | zero => simp [retraceLoop] at hrun
    | succ fuel =>
      rw [retraceLoop] at hrun
      cases hb : cur[u]? with
      | none => rw [hb] at hrun; simp at hrun
      | some b =>
        rw [hb] at hrun
        simp only [Option.bind_eq_bind, Option.some_bind] at hrun
        cases b with
        | true =>
          exfalso
          obtain ⟨m, hm, hchm⟩ := hnew u hb hu
          have := Chain_unique (Chain.step n u v hu hnv hchv) hchm
          omega
        | false =>
          rw [if_neg (by simp)] at hrun
          rw [hnv] at hrun
          simp only [Option.some_bind] at hrun
          rw [if_neg (by simp : ¬ (Int.ofNat v < 0))] at hrun
          cases hadd : tree.add_edge (u, (Int.ofNat v).toNat) with
          | none => rw [hadd] at hrun; simp at hrun
          | some p =>
            rw [hadd] at hrun
            simp only [Option.some_bind] at hrun
            obtain ⟨tree', added⟩ := p
            by_cases h2 : added = 2
            · subst h2
              rw [if_pos rfl] at hrun
              have htn : (Int.ofNat v).toNat = v := rfl
              rw [htn] at hadd hrun
              obtain ⟨hwf', hV', hsv', hE', hmono', hedge'⟩ :=
                add_edge_two hwf hadd
              have hu_lt : u < cur.length := (List.getElem?_eq_some_iff.mp hb).1
              have hmark : ∀ w : ℕ, cur[w]? = some true →
                  (cur.set u true)[w]? = some true := by
                intro w hw
                by_cases hwu : w = u
                · subst hwu
                  rw [List.getElem?_set_self hu_lt]
                · rw [List.getElem?_set_ne (fun h => hwu h.symm)]
                  exact hw
              have hreach_uv : Reach tree' u v :=
                Reach.step (Reach.refl tree' u) hedge'
              obtain ⟨c1, c2, c3, c4, c5, c6, c7, c8⟩ :=
                ih fuel tree' (cur.set u true) root tree2 in2 hrun hwf'
                  (by rw [List.length_set]; omega)
                  (fun w hw => hmark w (hpre w hw))
                  (fun w hw => Reach.mono hmono' (hpre_root w hw))
                  (by
                    intro w hw
                    by_cases hwu : w = u
                    · subst hwu
                      exact Or.inr hreach_uv
                    · rw [List.getElem?_set_ne (fun h => hwu h.symm)] at hw
                      rcases hcur w hw with h1 | h1
                      · exact Or.inl (Reach.mono hmono' h1)
                      · exact Or.inr
                          (Reach.trans (Reach.mono hmono' h1) hreach_uv))
                  (by
                    intro w hw hwpre
                    by_cases hwu : w = u
                    · subst hwu
                      exact ⟨n + 1, by omega,
                        Chain.step n w v hu hnv hchv⟩
                    · rw [List.getElem?_set_ne (fun h => hwu h.symm)] at hw
                      obtain ⟨m, hm, hchm⟩ := hnew w hw hwpre
                      exact ⟨m, by omega, hchm⟩)
                  (by
                    rw [count_true_set_true cur u hb, hE', hcnt]
                    omega)
                  (by
                    rw [count_true_set_true cur u hb]
                    omega)
              refine ⟨c1, c2.trans hV', c3.trans hsv', ?_, ?_, c6, c7, c8⟩
              · rw [c4, List.length_set]
              · intro w hw
                exact c5 w (hmark w hw)
            · rw [if_neg (by simpa using h2)] at hrun
              cases hrun

/-- Invariants of the permutation loop of `uniform_spanning_tree`: the tree
keeps the input's vertex data and vertex count, every marked vertex reaches
the root inside the tree, and the edge count is twice the marked count minus
one. -/
theorem ustLoop_spec {α : Type} (g : UGraph α) (root : ℕ) (fuel : ℕ) :
    ∀ (perm : List ℕ) (tree : UGraph α) (in_tree : List Bool) (nv : List ℤ)
      (r : Rng) (tree2 : UGraph α) (in2 : List Bool) (r2 : Rng),
    ustLoop g fuel tree in_tree nv perm r = some (tree2, in2, r2) →
    WF tree → tree.V = g.V → tree.size_V = g.size_V →
    in_tree.length = g.size_V → nv.length = g.size_V →
    (∀ w : ℕ, in_tree[w]? = some true → Reach tree w root) →
    tree.size_E = 2 * (in_tree.count true - 1) →
    1 ≤ in_tree.count true →
    WF tree2 ∧ tree2.V = g.V ∧ tree2.size_V = g.size_V ∧
      in2.length = g.size_V ∧
      (∀ w : ℕ, in2[w]? = some true → Reach tree2 w root) ∧
      tree2.size_E = 2 * (in2.count true - 1) := by
  intro perm
  induction perm with
  | nil =>
    intro tree in_tree nv r tree2 in2 r2 hrun hwf hV hsV hlen hnvlen hreach
      hcnt hcnt1
    rw [ustLoop] at hrun
    obtain ⟨rfl, rfl, rfl⟩ :
        tree = tree2 ∧ in_tree = in2 ∧ r = r2 := by
      have := Option.some.inj hrun
      exact ⟨congrArg Prod.fst this,
        congrArg Prod.fst (congrArg Prod.snd this),
        congrArg Prod.snd (congrArg Prod.snd this)⟩
    exact ⟨hwf, hV, hsV, hlen, hreach, hcnt⟩
  | cons i rest ih =>
    intro tree in_tree nv r tree2 in2 r2 hrun hwf hV hsV hlen hnvlen hreach
      hcnt hcnt1
    rw [ustLoop] at hrun
    cases hwk : walkLoop g fuel in_tree nv i r with
    | none => rw [hwk] at hrun; simp at hrun
    | some p =>
      rw [hwk] at hrun
      simp only [Option.bind_eq_bind, Option.some_bind] at hrun
      obtain ⟨nv2, r2'⟩ := p
      cases hret : retraceLoop fuel tree in_tree nv2 i with
      | none => rw [hret] at hrun; simp at hrun
      | some q =>
        rw [hret] at hrun
        simp only [Option.some_bind] at hrun
        obtain ⟨tree', in'⟩ := q
        obtain ⟨uf, W', hufm, hWinv, -, hmem, hnvlen2⟩ :=
          walkLoop_spec g fuel in_tree nv i r [] nv2 r2' hwk
            (by omega) ⟨fun _ => 0, by intro w hw; simp at hw⟩
        obtain ⟨n, hch⟩ := WInv_chain hWinv hufm i hmem
        obtain ⟨c1, c2, c3, c4, c5, c6, c7, c8⟩ :=
          retraceLoop_spec hch fuel tree in_tree root tree' in' hret hwf
            (by omega)
            (fun w hw => hw)
            hreach
            (fun w hw => Or.inl (hreach w hw))
            (fun w h1 h2 => absurd (h1.symm.trans h2) (by simp))
            hcnt hcnt1
        by_cases hall : in'.all (fun b => b) = true
        · rw [if_pos hall] at hrun
          obtain ⟨rfl, rfl, rfl⟩ :
              tree' = tree2 ∧ in' = in2 ∧ r2' = r2 := by
            have := Option.some.inj hrun
            exact ⟨congrArg Prod.fst this,
              congrArg Prod.fst (congrArg Prod.snd this),
              congrArg Prod.snd (congrArg Prod.snd this)⟩
          exact ⟨c1, c2.trans hV, c3.trans hsV, by omega, c6, c7⟩
        · rw [if_neg hall] at hrun
          exact ih tree' in' nv2 r2' tree2 in2 r2 hrun c1 (c2.trans hV)
            (c3.trans hsV) (by omega) (by omega) c6 c7
            (le_trans hcnt1 (count_true_mono in_tree in' (by omega) c5))

/-- A successful `rng.integers(n)` draw is in `[0, n)` (and `n ≠ 0`). -/
theorem rngInt_lt {r : Rng} {n k : ℕ} {r2 : Rng}
    (h : rngInt r n = some (k, r2)) : k < n := by
  rw [rngInt] at h
  by_cases hn : n = 0
  · rw [if_pos hn] at h
    cases h
  · rw [if_neg hn] at h
    have hk : r.stream r.pos % n = k := congrArg Prod.fst (Option.some.inj h)
    rw [← hk]
    exact Nat.mod_lt _ (Nat.pos_of_ne_zero hn)

/-- Full conclusion of a terminating `uniform_spanning_tree` run on a
well-formed graph: the tree is well-formed, keeps the input's vertex list
and count, has `size_E = 2(|V|-1)`, and is connected. -/
theorem ust_main {α : Type} (g : UGraph α) (hg : WF g)
    (r : Rng) (fuel : ℕ) (tree : UGraph α) (rf : Rng)
    (h : uniform_spanning_tree g r fuel = some (tree, rf)) :
    WF tree ∧ tree.V = g.V ∧ tree.size_V = g.size_V ∧
      tree.size_E = 2 * (g.size_V - 1) ∧ Connected tree := by
  obtain ⟨G0, hinit, hGV, hGsize, hGwf, hGadj⟩ := init_nil g.V
  rw [uniform_spanning_tree, hinit] at h
  simp only [Option.bind_eq_bind, Option.some_bind] at h
  cases hri : rngInt r g.size_V with
  | none => rw [hri] at h; simp at h
  | some p =>
    rw [hri] at h
    simp only [Option.some_bind] at h
    obtain ⟨root, r2⟩ := p
    have hroot_lt : root < g.size_V := rngInt_lt hri
    cases hu : ustLoop g fuel G0
        ((List.replicate g.size_V false).set root true)
        (List.replicate g.size_V (-1 : ℤ)) (r2.permOf g.size_V)
        (r2.advance) with
    | none =>
      rw [Rng.permutation] at h
      simp only at h
      rw [hu] at h
      simp at h
    | some q =>
      rw [Rng.permutation] at h
      simp only at h
      rw [hu] at h
      simp only [Option.some_bind] at h
      obtain ⟨tree2, in2, r4⟩ := q
      by_cases hall : in2.all (fun b => b) = true
      · rw [if_pos hall] at h
        have hpair := Option.some.inj h
        have htree : tree2 = tree := congrArg Prod.fst hpair
        subst htree
        have hG0size : G0.size_V = g.size_V := by
          rw [hGsize, hg.1]
        have hG0E : G0.size_E = 0 := by
          rcases hGwf with ⟨-, hlen0, hE0, -, -, -⟩
          rw [hE0]
          apply List.sum_eq_zero
          intro x hx
          rcases List.mem_map.mp hx with ⟨l, hl, hlx⟩
          rcases List.mem_iff_getElem.mp hl with ⟨ii, hii, hil⟩
          have : G0.adj ii = l := by
            rw [UGraph.adj_eq, List.getElem?_eq_getElem hii, hil]
            rfl
          rw [← hlx, ← this, hGadj ii]
          rfl
        have hrep_root : (List.replicate g.size_V false)[root]? = some false := by
          rw [List.getElem?_replicate, if_pos hroot_lt]
        have hcnt0 : ((List.replicate g.size_V false).set root true).count true
            = 1 := by
          rw [count_true_set_true _ root hrep_root]
          simp [List.count_replicate]
        obtain ⟨d1, d2, d3, d4, d5, d6⟩ :=
          ustLoop_spec g root fuel (r2.permOf g.size_V) G0
            ((List.replicate g.size_V false).set root true)
            (List.replicate g.size_V (-1 : ℤ)) (r2.advance) tree2 in2 r4 hu
            hGwf hGV hG0size (by simp) (by simp)
            (by
              intro w hw
              by_cases hwr : w = root
              · subst hwr
                exact Reach.refl G0 w
              · rw [List.getElem?_set_ne (fun hh => hwr hh.symm),
                  List.getElem?_replicate] at hw
                by_cases hwlt : w < g.size_V
                · rw [if_pos hwlt] at hw
                  cases hw
                · rw [if_neg hwlt] at hw
                  cases hw)
            (by rw [hG0E, hcnt0])
            (by rw [hcnt0])
        have hmarked : ∀ w, w < g.size_V → in2[w]? = some true := by
          intro w hw
          have hwlen : w < in2.length := by omega
          rw [List.getElem?_eq_getElem hwlen]
          have := List.all_eq_true.mp hall in2[w] (in2.getElem_mem hwlen)
          simpa using this
        have hcntall : in2.count true = g.size_V := by
          rw [← d4]
          rw [List.count_eq_length]
          intro b hb
          rcases List.mem_iff_getElem.mp hb with ⟨ii, hii, hib⟩
          have := hmarked ii (by omega)
          rw [List.getElem?_eq_getElem hii, hib] at this
          exact (Option.some.inj this).symm
        refine ⟨d1, d2, d3, ?_, ?_⟩
        · rw [d6, hcntall]
        · intro v hv
          have hvg : v < g.size_V := by
            rw [d3] at hv
            exact hv
          have h0g : 0 < g.size_V := by omega
          have hr0 : Reach tree2 0 root := d5 0 (hmarked 0 h0g)
          have hrv : Reach tree2 v root := d5 v (hmarked v hvg)
          have hrootv : Reach tree2 root v :=
            Reach.symm d1 (by omega) hrv
          exact Reach.trans hr0 hrootv
      · rw [if_neg hall] at h
        cases h

/-- C1: whenever `uniform_spanning_tree` returns on a well-formed input
graph, the result keeps the input's vertex list, has exactly `|V|-1`
undirected edges (`size_E = 2(|V|-1)`), and is connected.  No assumption is
made on the RNG or the permutation it yields: any terminating run (the walk
loops carry fuel) has these properties. -/
theorem C1_uniform_spanning_tree {α : Type} (g : UGraph α) (hg : WF g)
    (r : Rng) (fuel : ℕ) (tree : UGraph α) (rf : Rng)
    (h : uniform_spanning_tree g r fuel = some (tree, rf)) :
    tree.V = g.V ∧ tree.size_E = 2 * (g.size_V - 1) ∧ Connected tree :=
  ⟨(ust_main g hg r fuel tree rf h).2.1,
    (ust_main g hg r fuel tree rf h).2.2.2.1,
    (ust_main g hg r fuel tree rf h).2.2.2.2⟩

/-- Witness for C1: on the concrete path graph 0–1–2 with the all-zeros
draw stream and identity permutations, Wilson's algorithm returns the path
graph itself, and the theorem's conclusions hold there. -/
theorem C1_uniform_spanning_tree_witness :
    WF pathGraph3 ∧
    (pathGraph3.V = pathGraph3.V ∧
      pathGraph3.size_E = 2 * (pathGraph3.size_V - 1) ∧
      Connected pathGraph3) :=
  ⟨by decide, C1_uniform_spanning_tree pathGraph3 (by decide)
    ⟨fun _ => 0, 0, fun n => List.range n⟩ 10 pathGraph3
    ⟨fun _ => 0, 4, fun n => List.range n⟩ (by rfl)⟩

/-- A successful `remove_edge` preserves well-formedness, the vertex data
and the vertex count. -/
theorem remove_edge_WF {α : Type} {g g2 : UGraph α} {i j : ℕ} (hg : WF g)
    (h : g.remove_edge (i, j) = some g2) :
    WF g2 ∧ g2.V = g.V ∧ g2.size_V = g.size_V := by
  obtain ⟨hV, hlen, hE, hnd, hran, hsym⟩ := hg
  rw [UGraph.remove_edge] at h
  by_cases hij : i < g.size_V ∧ j < g.size_V
  swap
  · rw [if_neg hij] at h; cases h
  rw [if_pos hij] at h
  by_cases hpres : i ∈ g.adj j ∧ j ∈ g.adj i
  swap
  · rw [if_neg hpres] at h; cases h
  rw [if_pos hpres] at h
  simp only [Option.bind_eq_bind] at h
  have hadji : g.adjacent.getD i [] = g.adj i := rfl
  rw [hadji, setRemove, if_pos hpres.2] at h
  simp only [Option.some_bind] at h
  have hilen : i < g.adjacent.length := by omega
  have hjlen : j < g.adjacent.length := by omega
  have hndi : (g.adj i).Nodup := by
    rw [UGraph.adj_eq, List.getElem?_eq_getElem hilen]
    exact hnd _ (g.adjacent.getElem_mem hilen)
  have hndj : (g.adj j).Nodup := by
    rw [UGraph.adj_eq, List.getElem?_eq_getElem hjlen]
    exact hnd _ (g.adjacent.getElem_mem hjlen)
  have hne : i ≠ j := by
    intro hii
    subst hii
    rw [setRemove] at h
    have : i ∉ (g.adjacent.set i ((g.adj i).erase i)).getD i [] := by
      rw [List.getD_eq_getElem?_getD, List.getElem?_set_self hilen]
      simp only [Option.getD_some]
      exact List.Nodup.not_mem_erase hndi
    rw [if_neg this] at h
    cases h
  have hgetj : (g.adjacent.set i ((g.adj i).erase j)).getD j [] = g.adj j := by
    rw [List.getD_eq_getElem?_getD, List.getElem?_set_ne (by omega),
      ← UGraph.adj_eq]
  rw [hgetj, setRemove, if_pos hpres.1] at h
  simp only [Option.some_bind] at h
  have hg2 := (Option.some.inj h).symm
  set a1 := g.adjacent.set i ((g.adj i).erase j) with ha1
  set a2 := a1.set j ((g.adj j).erase i) with ha2
  have ha1len : a1.length = g.adjacent.length := by rw [ha1, List.length_set]
  have ha2len : a2.length = g.adjacent.length := by
    rw [ha2, List.length_set, ha1len]
  have hadj2 : ∀ k, a2.getD k [] =
      if k = j then (g.adj j).erase i
      else if k = i then (g.adj i).erase j
      else g.adj k := by
    intro k
    by_cases hkj : k = j
    · subst hkj
      rw [if_pos rfl, List.getD_eq_getElem?_getD, ha2,
        List.getElem?_set_self (by omega)]
      rfl
    · rw [if_neg hkj, List.getD_eq_getElem?_getD, ha2,
        List.getElem?_set_ne (fun hh => hkj hh.symm)]
      by_cases hki : k = i
      · subst hki
        rw [if_pos rfl, ha1, List.getElem?_set_self (by omega)]
        rfl
      · rw [if_neg hki, ha1, List.getElem?_set_ne (fun hh => hki hh.symm),
          ← UGraph.adj_eq]
  have hsumi : (a1.map List.length).sum +
      (g.adj i).length = (g.adjacent.map List.length).sum +
      ((g.adj i).erase j).length := by
    have := sum_length_set g.adjacent i ((g.adj i).erase j) hilen
    rw [hadji] at this
    rw [ha1]
    exact this
  have hsumj : (a2.map List.length).sum + (g.adj j).length =
      (a1.map List.length).sum + ((g.adj j).erase i).length := by
    have := sum_length_set a1 j ((g.adj j).erase i) (by omega)
    rw [hgetj] at this
    exact this
  have hleni : ((g.adj i).erase j).length + 1 = (g.adj i).length :=
    by rw [List.length_erase_of_mem hpres.2]; have := List.length_pos.mpr
        (List.ne_nil_of_mem hpres.2); omega
  have hlenj : ((g.adj j).erase i).length + 1 = (g.adj j).length :=
    by rw [List.length_erase_of_mem hpres.1]; have := List.length_pos.mpr
        (List.ne_nil_of_mem hpres.1); omega
  have hEsum : (a2.map List.length).sum + 2 = (g.adjacent.map List.length).sum := by
    omega
  have hg2e : g2 = UGraph.mk g.V a2 g.size_V (g.size_E - 2) := by
    rw [hg2, if_neg hne]
  have hWF2 : WF g2 := by
    rw [hg2e]
    refine ⟨hV, by simpa using ha2len.trans hlen, ?_, ?_, ?_, ?_⟩
    · show g.size_E - 2 = (a2.map List.length).sum
      omega
    · intro l hl
      rcases List.mem_or_eq_of_mem_set hl with hl2 | rfl
      · rcases List.mem_or_eq_of_mem_set hl2 with hl3 | rfl
        · exact hnd l hl3
        · exact List.Nodup.erase j hndi
      · exact List.Nodup.erase i hndj
    · intro l hl x hx
      show x < g.size_V
      rcases List.mem_or_eq_of_mem_set hl with hl2 | rfl
      · rcases List.mem_or_eq_of_mem_set hl2 with hl3 | rfl
        · exact hran l hl3 x hx
        · exact hran _ (g.adjacent.getElem_mem hilen) x
            (by
              have := List.erase_subset _ _ hx
              rw [UGraph.adj_eq, List.getElem?_eq_getElem hilen] at this
              exact this)
      · exact hran _ (g.adjacent.getElem_mem hjlen) x
          (by
            have := List.erase_subset _ _ hx
            rw [UGraph.adj_eq, List.getElem?_eq_getElem hjlen] at this
            exact this)
    · intro a ha b hb
      show b ∈ a2.getD a [] ↔ a ∈ a2.getD b []
      rw [hadj2, hadj2]
      by_cases haj : a = j
      · rw [if_pos haj]
        by_cases hbj : b = j
        · rw [if_pos hbj, haj, hbj]
        · rw [if_neg hbj]
          by_cases hbi : b = i
          · rw [if_pos hbi, haj, hbi]
            constructor
            · intro hmem
              exact absurd hmem (List.Nodup.not_mem_erase hndj)
            · intro hmem
              exact absurd hmem (List.Nodup.not_mem_erase hndi)
          · rw [if_neg hbi, haj, List.Nodup.mem_erase_iff hndj]
            constructor
            · rintro ⟨-, hbadj⟩
              exact (hsym j (by omega) b hb).mp hbadj
            · intro hjb
              exact ⟨hbi, (hsym j (by omega) b hb).mpr hjb⟩
      · rw [if_neg haj]
        by_cases hai : a = i
        · rw [if_pos hai]
          by_cases hbj : b = j
          · rw [if_pos hbj, hai, hbj]
            constructor
            · intro hmem
              exact absurd hmem (List.Nodup.not_mem_erase hndi)
            · intro hmem
              exact absurd hmem (List.Nodup.not_mem_erase hndj)
          · rw [if_neg hbj]
            by_cases hbi : b = i
            · rw [if_pos hbi, hai, hbi]
            · rw [if_neg hbi, hai, List.Nodup.mem_erase_iff hndi]
              constructor
              · rintro ⟨-, hbadj⟩
                exact (hsym i (by omega) b hb).mp hbadj
              · intro hib
                exact ⟨hbj, (hsym i (by omega) b hb).mpr hib⟩
        · rw [if_neg hai]
          by_cases hbj : b = j
          · rw [if_pos hbj, hbj, List.Nodup.mem_erase_iff hndj]
            constructor
            · intro hja
              exact ⟨hai, (hsym a ha j (by omega)).mp hja⟩
            · rintro ⟨-, hadj3⟩
              exact (hsym a ha j (by omega)).mpr hadj3
          · rw [if_neg hbj]
            by_cases hbi : b = i
            · rw [if_pos hbi, hbi, List.Nodup.mem_erase_iff hndi]
              constructor
              · intro hia
                exact ⟨haj, (hsym a ha i (by omega)).mp hia⟩
              · rintro ⟨-, hiadj⟩
                exact (hsym a ha i (by omega)).mpr hiadj
            · rw [if_neg hbi]
              exact hsym a ha b hb
  refine ⟨hWF2, ?_, ?_⟩
  · rw [hg2e]
  · rw [hg2e]

/-- Embedding of `UndirectedGraph.sample_edge`: draw an edge index uniformly
in `[0, size_E)` (`size_E = 0` raises) and resolve it through
`get_edge_from_idx`. -/
def UGraph.sample_edge {α : Type} (g : UGraph α) (r : Rng) :
    Option ((ℕ × ℕ) × Rng) := do
  let (edge_idx, r2) ← rngInt r g.size_E
  let e ← g.get_edge_from_idx edge_idx
  pure (e, r2)

/-- The `for _ in range(n - 1)` edge-removal loop of `decompose`. -/
def removeLoop {α : Type} : ℕ → UGraph α → Rng → Option (UGraph α × Rng)
  | 0, t, r => some (t, r)
  | k + 1, t, r => do
    let (e, r2) ← t.sample_edge r
    let t2 ← t.remove_edge e
    removeLoop k t2 r2

/-- One component construction of `separate_components`: gather the vertex
indices labeled `c`, copy their data, and re-add every edge among them under
the reindexing `v_indices.index`; a neighbor outside the component fails the
sanity assert (`none`). -/
def buildComponent {α : Type} (g : UGraph α) (labels : List ℤ) (c : ℕ) :
    Option (UGraph α) := do
  let v_indices :=
    (List.range g.V.length).filter (fun v => labels.getD v 0 = (c : ℤ))
  let vertices ← v_indices.mapM (fun v => g.V[v]?)
  let comp0 ← UGraph.init vertices []
  v_indices.enum.foldlM (fun comp p => do
    let neighbors ← g.adjacent[p.2]?
    neighbors.foldlM (fun comp2 u_idx =>
      if u_idx ∈ v_indices then do
        let (comp3, _) ← comp2.add_edge (p.1, List.indexOf u_idx v_indices)
        pure comp3
      else none) comp) comp0

/-- Embedding of `separate_components`
(src/src/graphs/graph_partition.py): label the components with the same
`CountAndLabel` loops as `find_components` (the code is an inline copy,
including the two sanity asserts), then build one subgraph per label. -/
def separate_components {α : Type} (g : UGraph α) :
    Option (List (UGraph α)) := do
  let (ncomp, labels) ← find_components g
  (List.range ncomp).mapM (buildComponent g labels)

/-- Embedding of `decompose`: the `1 ≤ n ≤ |V|` assert, a uniform spanning
tree, `n - 1` sampled edge removals, component separation, and the final
`assert len(connected_components) == n`. -/
def decompose {α : Type} (n : ℕ) (g : UGraph α) (r : Rng) (fuel : ℕ) :
    Option (List (UGraph α) × Rng) := do
  if 1 ≤ n ∧ n ≤ g.size_V then
    let (tree, r2) ← uniform_spanning_tree g r fuel
    let (tree2, r3) ← removeLoop (n - 1) tree r2
    let comps ← separate_components tree2
    if comps.length = n then some (comps, r3) else none
  else none

/-- The removal loop preserves well-formedness, vertex data and count. -/
theorem removeLoop_spec {α : Type} :
    ∀ (k : ℕ) (t : UGraph α) (r : Rng) (t2 : UGraph α) (r2 : Rng),
    removeLoop k t r = some (t2, r2) → WF t →
    WF t2 ∧ t2.V = t.V ∧ t2.size_V = t.size_V := by
  intro k
  induction k with
  | zero =>
    intro t r t2 r2 hrun hwf
    rw [removeLoop] at hrun
    have hp := Option.some.inj hrun
    have h1 : t = t2 := congrArg Prod.fst hp
    subst h1
    exact ⟨hwf, rfl, rfl⟩
  | succ k ih =>
    intro t r t2 r2 hrun hwf
    rw [removeLoop] at hrun
    cases hs : t.sample_edge r with
    | none => rw [hs] at hrun; simp at hrun
    | some p =>
      rw [hs] at hrun
      simp only [Option.bind_eq_bind, Option.some_bind] at hrun
      obtain ⟨e, r3⟩ := p
      cases hrm : t.remove_edge e with
      | none => rw [hrm] at hrun; simp at hrun
      | some t3 =>
        rw [hrm] at hrun
        simp only [Option.some_bind] at hrun
        obtain ⟨e1, e2⟩ := e
        obtain ⟨hwf3, hV3, hs3⟩ := remove_edge_WF hwf hrm
        obtain ⟨c1, c2, c3⟩ := ih t3 r3 t2 r2 hrun hwf3
        exact ⟨c1, c2.trans hV3, c3.trans hs3⟩

/-- Any successful `add_edge` (including the already-present no-op branch)
preserves well-formedness and vertex data, only grows adjacency, and leaves
the requested edge present. -/
theorem add_edge_mem {α : Type} {g g2 : UGraph α} {a b k : ℕ} (hg : WF g)
    (h : g.add_edge (a, b) = some (g2, k)) :
    WF g2 ∧ g2.V = g.V ∧ g2.size_V = g.size_V ∧
      (∀ x y, y ∈ g.adj x → y ∈ g2.adj x) ∧ b ∈ g2.adj a := by
  have hab : a < g.size_V ∧ b < g.size_V := by
    by_contra habs
    rw [UGraph.add_edge] at h
    rw [if_neg habs] at h
    cases h
  obtain ⟨g2', k', heq, hwf, hsv, hV, hadj⟩ := add_edge_spec hg hab.1 hab.2
  rw [heq] at h
  have hgg : g2' = g2 := congrArg Prod.fst (Option.some.inj h)
  subst hgg
  refine ⟨hwf, hV, hsv, ?_, ?_⟩
  · intro x y hy
    exact (hadj x y).mpr (Or.inl hy)
  · exact (hadj a b).mpr (Or.inr (Or.inl ⟨rfl, rfl⟩))

/-- Inner edge-adding fold of `buildComponent` (over one vertex's neighbor
list): given success, every scanned neighbor passed the same-component
assert and its reindexed edge is present in the final component. -/
theorem buildComponent_inner {α : Type} (v_indices : List ℕ) (i_idx : ℕ) :
    ∀ (ns : List ℕ) (comp compOut : UGraph α),
    ns.foldlM (fun comp2 u_idx =>
      if u_idx ∈ v_indices then do
        let (comp3, _) ← comp2.add_edge (i_idx, List.indexOf u_idx v_indices)
        pure comp3
      else none) comp = some compOut →
    WF comp →
    WF compOut ∧ compOut.V = comp.V ∧ compOut.size_V = comp.size_V ∧
      (∀ x y, y ∈ comp.adj x → y ∈ compOut.adj x) ∧
      (∀ u ∈ ns, u ∈ v_indices ∧
        List.indexOf u v_indices ∈ compOut.adj i_idx) := by
  intro ns
  induction ns with
  | nil =>
    intro comp compOut hrun hwf
    have : comp = compOut := Option.some.inj hrun
    subst this
    exact ⟨hwf, rfl, rfl, fun x y hy => hy, by simp⟩
  | cons u rest ih =>
    intro comp compOut hrun hwf
    rw [List.foldlM_cons] at hrun
    by_cases hu : u ∈ v_indices
    swap
    · rw [if_neg hu] at hrun
      simp at hrun
    rw [if_pos hu] at hrun
    cases hadd : comp.add_edge (i_idx, List.indexOf u v_indices) with
    | none => rw [hadd] at hrun; simp at hrun
    | some p =>
      rw [hadd] at hrun
      simp only [Option.bind_eq_bind, Option.some_bind] at hrun
      obtain ⟨comp3, k⟩ := p
      obtain ⟨hwf3, hV3, hs3, hmono3, hedge3⟩ := add_edge_mem hwf hadd
      obtain ⟨c1, c2, c3, c4, c5⟩ := ih comp3 compOut hrun hwf3
      refine ⟨c1, c2.trans hV3, c3.trans hs3,
        fun x y hy => c4 x y (hmono3 x y hy), ?_⟩
      intro w hw
      rcases List.mem_cons.mp hw with rfl | hw2
      · exact ⟨hu, c4 _ _ hedge3⟩
      · exact c5 w hw2

/-- Outer edge-adding fold of `buildComponent` (over the enumerated
component vertices): given success, every neighbor of every processed
component vertex lies in the component, and its reindexed edge is present
in the final component. -/
theorem buildComponent_outer {α : Type} (g : UGraph α) (v_indices : List ℕ) :
    ∀ (eps : List (ℕ × ℕ)) (comp compOut : UGraph α),
    eps.foldlM (fun comp p => do
      let neighbors ← g.adjacent[p.2]?
      neighbors.foldlM (fun comp2 u_idx =>
        if u_idx ∈ v_indices then do
          let (comp3, _) ←
            comp2.add_edge (p.1, List.indexOf u_idx v_indices)
          pure comp3
        else none) comp) comp = some compOut →
    WF comp →
    WF compOut ∧ compOut.V = comp.V ∧ compOut.size_V = comp.size_V ∧
      (∀ x y, y ∈ comp.adj x → y ∈ compOut.adj x) ∧
      (∀ p ∈ eps, ∀ u ∈ g.adj p.2, u ∈ v_indices ∧
        List.indexOf u v_indices ∈ compOut.adj p.1) := by
  intro eps
  induction eps with
  | nil =>
    intro comp compOut hrun hwf
    have : comp = compOut := Option.some.inj hrun
    subst this
    exact ⟨hwf, rfl, rfl, fun x y hy => hy, by simp⟩
  | cons p rest ih =>
    intro comp compOut hrun hwf
    rw [List.foldlM_cons] at hrun
    cases hns : g.adjacent[p.2]? with
    | none => rw [hns] at hrun; simp at hrun
    | some ns =>
      rw [hns] at hrun
      simp only [Option.bind_eq_bind, Option.some_bind] at hrun
      rcases Option.bind_eq_some.mp hrun with ⟨comp', hinner, hrun2⟩
      obtain ⟨b1, b2, b3, b4, b5⟩ :=
          buildComponent_inner v_indices p.1 ns comp comp' hinner hwf
      obtain ⟨c1, c2, c3, c4, c5⟩ := ih comp' compOut hrun2 b1
      have hadjp : g.adj p.2 = ns := by
        rw [UGraph.adj_eq, hns]
        rfl
      refine ⟨c1, c2.trans b2, c3.trans b3,
        fun x y hy => c4 x y (b4 x y hy), ?_⟩
      intro q hq u hu
      rcases List.mem_cons.mp hq with rfl | hq2
      · rw [hadjp] at hu
        obtain ⟨h1, h2⟩ := b5 u hu
        exact ⟨h1, c4 _ _ h2⟩
      · exact c5 q hq2 u hu

/-- Characterize a successful strict-lookup `mapM`: the output is the pmap
of the index list through `get`. -/
theorem mapM_getElem?_some {α : Type} :
    ∀ (idx : List ℕ) (l : List α) (out : List α),
    idx.mapM (fun v => l[v]?) = some out →
    ∃ h : ∀ v ∈ idx, v < l.length,
      out = idx.pmap (fun v hv => l.get ⟨v, hv⟩) h := by
  intro idx
  induction idx with
  | nil =>
    intro l out hrun
    have : ([] : List α) = out := Option.some.inj hrun
    subst this
    exact ⟨by simp, rfl⟩
  | cons v rest ih =>
    intro l out hrun
    rw [List.mapM_cons] at hrun
    cases hv : l[v]? with
    | none => rw [hv] at hrun; simp at hrun
    | some a =>
      rw [hv] at hrun
      simp only [Option.bind_eq_bind, Option.some_bind] at hrun
      cases hrest : rest.mapM (fun v => l[v]?) with
      | none => rw [hrest] at hrun; simp at hrun
      | some out' =>
        rw [hrest] at hrun
        simp only [Option.some_bind] at hrun
        have hout : a :: out' = out := Option.some.inj hrun
        obtain ⟨hlt, ha⟩ := List.getElem?_eq_some_iff.mp hv
        obtain ⟨hall, hchar⟩ := ih l out' hrest
        refine ⟨?_, ?_⟩
        · intro w hw
          rcases List.mem_cons.mp hw with rfl | hw2
          · exact hlt
          · exact hall w hw2
        · rw [← hout, List.pmap]
          rw [hchar]
          congr 1
          exact ha.symm

/-- Members of a filtered range are below the bound. -/
theorem filter_range_lt (N : ℕ) (p : ℕ → Bool) :
    ∀ v ∈ (List.range N).filter p, v < N := by
  intro v hv
  exact List.mem_range.mp (List.mem_filter.mp hv).1

/-- A successful `buildComponent` run on a graph whose labels characterize
reachability: the component's vertex data is exactly the data of the
label-`c` vertices (in ascending index order), and the component is
connected. -/
theorem buildComponent_spec {α : Type} {g : UGraph α} (hg : WF g)
    (labels : List ℤ)
    (hiff : ∀ u u', u < g.size_V → u' < g.size_V →
      (labels.getD u 0 = labels.getD u' 0 ↔ Reach g u u'))
    {c : ℕ} {comp : UGraph α}
    (h : buildComponent g labels c = some comp) :
    comp.V = ((List.range g.V.length).filter
        (fun v => labels.getD v 0 = (c : ℤ))).pmap
        (fun v hv => g.V.get ⟨v, hv⟩) (filter_range_lt _ _) ∧
      Connected comp := by
  rw [buildComponent] at h
  simp only [Option.bind_eq_bind] at h
  set vIdx := (List.range g.V.length).filter
      (fun v => labels.getD v 0 = (c : ℤ)) with hvIdx
  rcases Option.bind_eq_some.mp h with ⟨vertices, hmapM, h2⟩
  rcases Option.bind_eq_some.mp h2 with ⟨comp0, hinit, hfold⟩
  obtain ⟨G0, hiniteq, hGV, hGsize, hGwf, hGadj⟩ := init_nil vertices
  rw [hiniteq] at hinit
  have hG0 : G0 = comp0 := Option.some.inj hinit
  subst hG0
  obtain ⟨w1, w2, w3, w4, w5⟩ :=
    buildComponent_outer g vIdx vIdx.enum G0 comp hfold hGwf
  obtain ⟨hbnd, hvert⟩ := mapM_getElem?_some vIdx g.V vertices hmapM
  have hVeq : comp.V = vIdx.pmap (fun v hv => g.V.get ⟨v, hv⟩) hbnd := by
    rw [w2, hGV, hvert]
  have hlenv : vertices.length = vIdx.length := by
    rw [hvert, List.length_pmap]
  have hsize : comp.size_V = vIdx.length := by
    rw [w3, hGsize, hlenv]
  have hnd : vIdx.Nodup := List.Nodup.filter _ (List.nodup_range _)
  have hsV : g.size_V = g.V.length := hg.1
  have hmem_lab : ∀ a ∈ vIdx, labels.getD a 0 = (c : ℤ) := by
    intro a ha
    have := (List.mem_filter.mp ha).2
    simpa using this
  have hmem_lt : ∀ a ∈ vIdx, a < g.size_V := by
    intro a ha
    rw [hsV]
    exact filter_range_lt _ _ a ha
  have hmem_of : ∀ a, a < g.size_V → labels.getD a 0 = (c : ℤ) → a ∈ vIdx := by
    intro a ha hla
    rw [hvIdx]
    refine List.mem_filter.mpr ⟨List.mem_range.mpr (by omega), by simpa using hla⟩
  have hstep5 : ∀ a ∈ vIdx, ∀ u ∈ g.adj a, u ∈ vIdx ∧
      List.indexOf u vIdx ∈ comp.adj (List.indexOf a vIdx) := by
    intro a ha u hu
    have hidx : List.indexOf a vIdx < vIdx.length :=
      List.indexOf_lt_length.mpr ha
    have hpmem : (List.indexOf a vIdx, a) ∈ vIdx.enum := by
      rw [List.mem_enum_iff_getElem?]
      show vIdx[List.indexOf a vIdx]? = some a
      rw [List.getElem?_eq_getElem hidx, List.getElem_indexOf hidx]
    exact w5 (List.indexOf a vIdx, a) hpmem u hu
  have htrans : ∀ a b, Reach g a b → a < g.size_V →
      labels.getD a 0 = (c : ℤ) →
      Reach comp (List.indexOf a vIdx) (List.indexOf b vIdx) := by
    intro a b hr ha hla
    induction hr with
    | refl => exact Reach.refl comp _
    | @tail b' b2 hr2 hstep ih =>
      have hb' : b' < g.size_V := Reach.lt hg ha hr2
      have hlb' : labels.getD b' 0 = (c : ℤ) := by
        have := (hiff a b' ha hb').mpr hr2
        rw [← this, hla]
      have hb'mem : b' ∈ vIdx := hmem_of b' hb' hlb'
      obtain ⟨-, hedge⟩ := hstep5 b' hb'mem b2 hstep
      exact Reach.step ih hedge
  refine ⟨by rw [hVeq], ?_⟩
  intro k hk
  rw [hsize] at hk
  have h0 : 0 < vIdx.length := by omega
  set a := vIdx.get ⟨0, h0⟩ with hadef
  set b := vIdx.get ⟨k, hk⟩ with hbdef
  have hamem : a ∈ vIdx := List.get_mem vIdx _ h0
  have hbmem : b ∈ vIdx := List.get_mem vIdx _ hk
  have hreach : Reach g a b := by
    refine (hiff a b (hmem_lt a hamem) (hmem_lt b hbmem)).mp ?_
    rw [hmem_lab a hamem, hmem_lab b hbmem]
  have := htrans a b hreach (hmem_lt a hamem) (hmem_lab a hamem)
  have hia : List.indexOf a vIdx = 0 := List.indexOf_getElem hnd 0 h0
  have hib : List.indexOf b vIdx = k := List.indexOf_getElem hnd k hk
  rw [hia, hib] at this
  exact this

/-- Pointwise characterization of a successful `mapM`. -/
theorem mapM_some_char {β γ : Type} (f : β → Option γ) :
    ∀ (l : List β) (out : List γ), l.mapM f = some out →
    out.length = l.length ∧
    ∀ j (hj : j < l.length) (hjo : j < out.length),
      f (l.get ⟨j, hj⟩) = some (out.get ⟨j, hjo⟩) := by
  intro l
  induction l with
  | nil =>
    intro out hrun
    have : ([] : List γ) = out := Option.some.inj hrun
    subst this
    exact ⟨rfl, by intro j hj; simp at hj⟩
  | cons x rest ih =>
    intro out hrun
    rw [List.mapM_cons] at hrun
    simp only [Option.bind_eq_bind] at hrun
    rcases Option.bind_eq_some.mp hrun with ⟨y, hy, hrun2⟩
    rcases Option.bind_eq_some.mp hrun2 with ⟨out', hout', hrun3⟩
    have : y :: out' = out := Option.some.inj hrun3
    subst this
    obtain ⟨hlen, hchar⟩ := ih out' hout'
    refine ⟨by simp [hlen], ?_⟩
    intro j hj hjo
    cases j with
    | zero => simpa using hy
    | succ k =>
      have hk : k < rest.length := by simpa using hj
      have hko : k < out'.length := by simpa using hjo
      simpa using hchar k hk hko

/-- Summing an indicator of a unique value over a list counts it. -/
theorem sum_indicator_eq_count (q : ℕ → Prop) [DecidablePred q] (cx : ℕ)
    (hq : ∀ k, q k ↔ k = cx) :
    ∀ (l : List ℕ),
    (l.map (fun k => if q k then 1 else 0)).sum = l.count cx := by
  intro l
  induction l with
  | nil => rfl
  | cons k rest ih =>
    simp only [List.map_cons, List.sum_cons, List.count_cons, ih]
    by_cases hk : q k
    · rw [if_pos hk]
      have : k = cx := (hq k).mp hk
      subst this
      simp
      omega
    · rw [if_neg hk]
      have : ¬ k = cx := fun hh => hk ((hq k).mpr hh)
      have hb : (k == cx) = false := by
        simpa using this
      simp [hb]

/-- Selecting the full index range by `get` reproduces the list. -/
theorem pmap_range_get {α : Type} (l : List α)
    (hb : ∀ v ∈ List.range l.length, v < l.length) :
    (List.range l.length).pmap (fun v hv => l.get ⟨v, hv⟩) hb = l := by
  apply List.ext_getElem
  · simp [List.length_pmap]
  · intro i h1 h2
    rw [List.getElem_pmap]
    simp only [List.getElem_range]
    rfl

/-- With all indices in range, the dependent selection is a plain `getD`
map. -/
theorem pmap_get_eq_map_getD {α : Type} (l : List α) (d : α) :
    ∀ (I : List ℕ) (h : ∀ v ∈ I, v < l.length),
    I.pmap (fun v hv => l.get ⟨v, hv⟩) h = I.map (fun v => l.getD v d) := by
  intro I
  induction I with
  | nil => intro h; rfl
  | cons v rest ih =>
    intro h
    show l.get ⟨v, h v (List.mem_cons_self v rest)⟩ ::
        rest.pmap (fun v hv => l.get ⟨v, hv⟩) (fun w hw => h w (List.mem_cons_of_mem v hw)) =
      l.getD v d :: rest.map (fun v => l.getD v d)
    rw [ih (fun w hw => h w (List.mem_cons_of_mem v hw))]
    congr 1
    rw [List.getD_eq_getElem l d (h v (List.mem_cons_self v rest))]
    rfl

/-- Mapping `getD` over the full index range reproduces the list. -/
theorem map_getD_range {α : Type} (l : List α) (d : α) :
    (List.range l.length).map (fun v => l.getD v d) = l := by
  apply List.ext_getElem
  · simp
  · intro i h1 h2
    rw [List.getElem_map, List.getElem_range,
      List.getD_eq_getElem l d h2]

/-- Specification of a successful `separate_components` run on a nonempty
well-formed graph: the components' vertex data is a permutation of the
input's vertex data (each vertex covered exactly once) and every component
is connected. -/
theorem separate_components_spec {α : Type} {g : UGraph α} (hg : WF g)
    (hn : 1 ≤ g.size_V) {comps : List (UGraph α)}
    (h : separate_components g = some comps) :
    (comps.flatMap UGraph.V).Perm g.V ∧ ∀ comp ∈ comps, Connected comp := by
  rw [separate_components] at h
  simp only [Option.bind_eq_bind] at h
  rcases Option.bind_eq_some.mp h with ⟨pr, hfc, hmap⟩
  obtain ⟨ncomp, labels⟩ := pr
  obtain ⟨ncomp', labels', hfc', hlen', hpos', hbnd', hiff', hsurj'⟩ :=
    find_components_spec hg hn
  rw [hfc'] at hfc
  have hp := Option.some.inj hfc
  have hnc : ncomp' = ncomp := congrArg Prod.fst hp
  have hlb : labels' = labels := congrArg Prod.snd hp
  subst hnc
  subst hlb
  obtain ⟨hclen, hcchar⟩ :=
    mapM_some_char (buildComponent g labels') (List.range ncomp') comps hmap
  rw [List.length_range] at hclen
  have hVlen : g.size_V = g.V.length := hg.1
  have hVpos : 0 < g.V.length := by omega
  set d : α := g.V.get ⟨0, hVpos⟩ with hd
  set F : ℕ → List ℕ := fun k =>
    (List.range g.V.length).filter (fun v => labels'.getD v 0 = (k : ℤ))
    with hF
  have hper : ∀ j (hj : j < comps.length),
      (comps.get ⟨j, hj⟩).V = (F j).map (fun v => g.V.getD v d) ∧
        Connected (comps.get ⟨j, hj⟩) := by
    intro j hj
    have hjr : j < (List.range ncomp').length := by
      rw [List.length_range]
      omega
    have hrun := hcchar j hjr hj
    have hgr : (List.range ncomp').get ⟨j, hjr⟩ = j := List.getElem_range _ _
    rw [hgr] at hrun
    obtain ⟨hV1, hconn⟩ := buildComponent_spec hg labels' hiff' hrun
    refine ⟨?_, hconn⟩
    rw [hV1, pmap_get_eq_map_getD g.V d]
  have hmain : ∀ (ks : List ℕ) (cs : List (UGraph α)),
      cs.length = ks.length →
      (∀ j (hj : j < ks.length) (hjc : j < cs.length),
        (cs.get ⟨j, hjc⟩).V = (F (ks.get ⟨j, hj⟩)).map (fun v => g.V.getD v d)) →
      cs.flatMap UGraph.V = (ks.flatMap F).map (fun v => g.V.getD v d) := by
    intro ks
    induction ks with
    | nil =>
      intro cs hlen _
      cases cs with
      | nil => rfl
      | cons c cs2 => simp at hlen
    | cons k ks2 ih =>
      intro cs hlen hchar
      cases cs with
      | nil => simp at hlen
      | cons c cs2 =>
        have hhead : c.V = (F k).map (fun v => g.V.getD v d) :=
          hchar 0 (by simp) (by simp)
        have htail := ih cs2 (by simpa using hlen)
          (fun j hj hjc => hchar (j + 1) (by simpa using hj) (by simpa using hjc))
        rw [List.flatMap_cons, List.flatMap_cons, List.map_append,
          hhead, htail]
  have hflat : comps.flatMap UGraph.V =
      ((List.range ncomp').flatMap F).map (fun v => g.V.getD v d) := by
    refine hmain (List.range ncomp') comps (by simpa using hclen) ?_
    intro j hj hjc
    have hgr : (List.range ncomp').get ⟨j, hj⟩ = j := List.getElem_range _ _
    rw [hgr]
    exact (hper j hjc).1
  have hLperm : ((List.range ncomp').flatMap F).Perm (List.range g.V.length) := by
    rw [List.perm_iff_count]
    intro x
    rw [List.flatMap_def, List.count_flatten, List.map_map]
    by_cases hx : x < g.V.length
    · have hxs : x < g.size_V := by omega
      obtain ⟨hx0, hxlt⟩ := hbnd' x hxs
      set cx : ℕ := (labels'.getD x 0).toNat with hcx
      have hcast : (cx : ℤ) = labels'.getD x 0 := Int.toNat_of_nonneg hx0
      have hcxlt : cx < ncomp' := by omega
      have hcount1 : ∀ k, (F k).count x =
          if labels'.getD x 0 = (k : ℤ) then 1 else 0 := by
        intro k
        by_cases hk : labels'.getD x 0 = (k : ℤ)
        · rw [if_pos hk]
          rw [hF]
          rw [List.count_filter (by simpa using hk)]
          exact List.count_eq_one_of_mem (List.nodup_range _)
            (List.mem_range.mpr hx)
        · rw [if_neg hk]
          rw [List.count_eq_zero]
          intro hmem
          rw [hF] at hmem
          have := (List.mem_filter.mp hmem).2
          simp only [decide_eq_true_eq] at this
          exact hk this
      have hmapeq : (List.range ncomp').map (List.count x ∘ F) =
          (List.range ncomp').map
            (fun (k : ℕ) => if labels'.getD x 0 = (k : ℤ) then 1 else 0) := by
        apply List.map_congr_left
        intro k _
        exact hcount1 k
      rw [hmapeq]
      rw [sum_indicator_eq_count (fun (k : ℕ) => labels'.getD x 0 = (k : ℤ)) cx
        (by
          intro k
          constructor
          · intro hk
            have : (cx : ℤ) = (k : ℤ) := by rw [hcast, hk]
            omega
          · intro hk
            rw [← hk] at hcast
            exact hcast.symm)]
      rw [List.count_eq_one_of_mem (List.nodup_range _)
        (List.mem_range.mpr hcxlt)]
      rw [List.count_eq_one_of_mem (List.nodup_range _)
        (List.mem_range.mpr hx)]
    · have hzero1 : ((List.range ncomp').map (fun a => (F a).count x)).sum = 0 := by
        apply List.sum_eq_zero
        intro y hy
        rcases List.mem_map.mp hy with ⟨k, -, hk⟩
        rw [← hk, List.count_eq_zero]
        intro hmem
        rw [hF] at hmem
        have := (List.mem_filter.mp hmem).1
        exact hx (List.mem_range.mp this)
      refine hzero1.trans ?_
      symm
      rw [List.count_eq_zero]
      intro hmem
      exact hx (List.mem_range.mp hmem)
  constructor
  · rw [hflat]
    have := hLperm.map (fun v => g.V.getD v d)
    rw [map_getD_range g.V d] at this
    exact this
  · intro comp hcomp
    rcases List.mem_iff_getElem.mp hcomp with ⟨j, hj, hcj⟩
    have := (hper j hj).2
    rw [← hcj]
    exact this

/-- C2: `decompose(n, graph, rng)` fails (the `1 ≤ n ≤ |V|` assert) for
every `n` outside that range; and whenever it returns on a well-formed
graph, it yields exactly `n` components, each connected, whose vertex data
partitions the input's vertex list — every vertex covered exactly once. -/
theorem C2_decompose_partition {α : Type} (g : UGraph α) (hg : WF g)
    (n : ℕ) (r : Rng) (fuel : ℕ) :
    (¬ (1 ≤ n ∧ n ≤ g.size_V) → decompose n g r fuel = none) ∧
    (∀ comps rf, decompose n g r fuel = some (comps, rf) →
      comps.length = n ∧ (comps.flatMap UGraph.V).Perm g.V ∧
      ∀ comp ∈ comps, Connected comp) := by
  constructor
  · intro hinv
    rw [decompose, if_neg hinv]
  · intro comps rf h
    rw [decompose] at h
    by_cases hval : 1 ≤ n ∧ n ≤ g.size_V
    swap
    · rw [if_neg hval] at h
      cases h
    rw [if_pos hval] at h
    simp only [Option.bind_eq_bind] at h
    rcases Option.bind_eq_some.mp h with ⟨p1, hust, h2⟩
    obtain ⟨tree, r2⟩ := p1
    rcases Option.bind_eq_some.mp h2 with ⟨p2, hrem, h3⟩
    obtain ⟨tree2, r3⟩ := p2
    rcases Option.bind_eq_some.mp h3 with ⟨comps2, hsep, h4⟩
    by_cases hlen : comps2.length = n
    swap
    · rw [if_neg hlen] at h4
      cases h4
    rw [if_pos hlen] at h4
    have hpq := Option.some.inj h4
    have hc : comps2 = comps := congrArg Prod.fst hpq
    subst hc
    obtain ⟨hwfT, hVT, hsT, -, -⟩ := ust_main g hg r fuel tree r2 hust
    obtain ⟨hwf2, hV2, hs2⟩ := removeLoop_spec (n - 1) tree r2 tree2 r3 hrem hwfT
    have hn2 : 1 ≤ tree2.size_V := by omega
    obtain ⟨hperm, hconn⟩ := separate_components_spec hwf2 hn2 hsep
    refine ⟨hlen, ?_, hconn⟩
    rw [hV2, hVT] at hperm
    exact hperm

/-- Witness for C2: the invalid-argument branch at a concrete graph and
count (5 components requested from a 3-vertex graph). -/
theorem C2_decompose_partition_witness :
    WF pathGraph3 ∧ ¬ (1 ≤ 5 ∧ 5 ≤ pathGraph3.size_V) ∧
      decompose 5 pathGraph3 ⟨fun _ => 0, 0, fun n => List.range n⟩ 10 =
        none :=
  ⟨by decide, by decide,
    (C2_decompose_partition pathGraph3 (by decide) 5
      ⟨fun _ => 0, 0, fun n => List.range n⟩ 10).1 (by decide)⟩

end OptOpt
